import Mathlib

/-!
Verification of the HAMT (hash array-mapped trie) core of `lleo/hamt-functional`.

The development shallowly embeds two variants of the source:

* `H32` — the 32-bit functional variant: the map facade from
  `hamt32_functional/hamt.go` together with the sparse (`compressedTable`)
  table code.  The leaf implementations, the path recorder, the dense
  (`fullTable`) operations and the population count for this variant are not
  part of the available sources; they are modelled from the specification and
  each such definition carries a doc comment saying so.
* `H64` — the 64-bit variant (`package hamt`), embedded faithfully with its
  quirks (`buildHashPath` using `&` plus a panicking guard, `Put` discarding
  the results of `copyUp`/`copyUpLeaf`, the stubbed `Del`).

Machine integers are embedded as `Nat` with explicit `% 2^32` / `% 2^64`
wrapping where the Go code relies on fixed-width behaviour.  Code that can
panic (nil dereference, failed internal checks) is embedded with `Option`.
-/

namespace H32

/-- Keys are supplied externally (`hamt_key.Key`): a key provides equality and
a 30-bit hashcode.  Modelled from the spec: a key carries its raw external
hash (`hash`) and an identity (`id`) so that distinct keys may share a
hashcode; `Hash30` masks the raw hash to `HASH_WIDTH = 30` bits. -/
structure Key where
  hash : Nat
  id : Nat
deriving DecidableEq, Repr

/-- Values; the Go code stores `interface{}`, embedded as `Nat`. -/
abbrev Val := Nat

/-- `NBITS32`: bits per level. -/
def NBITS32 : Nat := 5

/-- `TABLE_CAPACITY = 2^5 = 32`. -/
def TABLE_CAPACITY : Nat := 1 <<< NBITS32

/-- `mask30 = 1<<30 - 1`. -/
def mask30 : Nat := (1 <<< 30) - 1

/-- `MAXDEPTH = 5`. -/
def MAXDEPTH : Nat := 5

/-- Modelled from the spec: the external `Key.Hash30()`, the raw hash masked
to 30 bits. -/
def Hash30 (k : Key) : Nat := k.hash &&& mask30

/-- `hashPathMask(depth)`: Go `uint32(1<<(depth*NBITS32)) - 1` (the cast wraps
before the subtraction, and the uint32 subtraction wraps at zero). -/
def hashPathMask (depth : Nat) : Nat :=
  (((1 <<< (depth * NBITS32)) % 2 ^ 32) + (2 ^ 32 - 1)) % 2 ^ 32

/-- `indexMask(depth)`: Go `uint32(uint8(1<<NBITS32)-1) << (depth*NBITS32)`,
a uint32 shift (wraps modulo `2^32`). -/
def indexMask (depth : Nat) : Nat :=
  (((1 <<< NBITS32) - 1) <<< (depth * NBITS32)) % 2 ^ 32

/-- `index(h30, depth)`: the 5-bit slot index of `h30` at `depth`. -/
def index (h30 depth : Nat) : Nat :=
  (h30 &&& indexMask depth) >>> (depth * NBITS32)

/-- `buildHashPath(hashPath, idx, depth)`: Go
`hashPath | uint32(idx<<(depth*NBITS32))`. -/
def buildHashPath (hashPath idx depth : Nat) : Nat :=
  hashPath ||| ((idx <<< (depth * NBITS32)) % 2 ^ 32)

/-- Modelled from the spec: `bitCount32`, the population count of a 32-bit
bitmap (the SWAR implementation for this variant is not among the sources;
the spec only requires a population count). -/
def bitCount32 (n : Nat) : Nat :=
  ((List.range 32).filter fun i => n.testBit i).length

/-- Go's bit-clear `a &^ b` on `uint32` operands: AND with the 32-bit
complement of `b`. -/
def bitClear32 (a b : Nat) : Nat := a &&& ((2 ^ 32 - 1) ^^^ (b % 2 ^ 32))

/-- A trie node (`nodeI`): flat leaf, collision leaf, sparse table
(`compressedTable`) or dense table (`fullTable`).  Dense tables store one
optional child per slot (`children[i] = nil` when unoccupied). -/
inductive Node where
  | flatLeaf (hash : Nat) (key : Key) (val : Val)
  | collisionLeaf (hash : Nat) (kvs : List (Key × Val))
  | compressedTable (hashPath nodeMap : Nat) (nodes : List Node)
  | fullTable (hashPath nodeMap : Nat) (nodes : List (Option Node))

/-- The map (`Hamt` struct): optional root table plus entry count. -/
structure Hamt where
  root : Option Node
  nentries : Nat

/-- `EMPTY = Hamt{nil, 0}`. -/
def EMPTY : Hamt := ⟨none, 0⟩

/-- `nodeI.hashcode()`: leaf hash, or a table's hash path. -/
def Node.hashcode : Node → Nat
  | .flatLeaf h _ _ => h
  | .collisionLeaf h _ => h
  | .compressedTable hp _ _ => hp
  | .fullTable hp _ _ => hp

/-- Discriminates the `leafI` variants (the Go facade's `curNode.(leafI)`
type test). -/
def Node.isLeaf : Node → Bool
  | .flatLeaf _ _ _ => true
  | .collisionLeaf _ _ => true
  | _ => false

/-- `compressedTable.get(idx)` from the sparse-table source: `nil` when the
bitmap bit is clear, else the child at the popcount position.  An
out-of-range position (impossible on well-formed tables, a panic in Go) also
yields `none`. -/
def ctGet (nodeMap : Nat) (nodes : List Node) (idx : Nat) : Option Node :=
  let nodeBit := (1 <<< idx) % 2 ^ 32
  if nodeMap &&& nodeBit = 0 then none
  else nodes[bitCount32 (nodeMap &&& (nodeBit - 1))]?

/-- `compressedTable.entries()`: the `(slot, child)` pairs in ascending slot
order, pairing the `j`-th set bit with `nodes[j]`. -/
def ctEntries (nodeMap : Nat) (nodes : List Node) : List (Nat × Node) :=
  ((List.range 32).filter fun i => nodeMap.testBit i).zip nodes

/-- Accumulates a bitmap from entry slots (the `nodeMap |= 1 << ent.idx`
loop shared by the table conversions). -/
def orBits (ents : List (Nat × Node)) : Nat :=
  ents.foldl (fun m e => m ||| ((1 <<< e.1) % 2 ^ 32)) 0

/-- Modelled from the spec: `upgradeToFullTable` (dense-table constructor,
not among the sources).  Builds the fixed 32-slot child array and a bitmap
mirroring occupancy from entries in ascending slot order. -/
def upgradeToFullTable (hashPath : Nat) (ents : List (Nat × Node)) : Node :=
  .fullTable hashPath (orBits ents)
    ((List.range 32).map fun i => (ents.find? fun e => e.1 == i).map (·.2))

/-- `downgradeToCompressedTable` from the sparse-table source: bitmap from
the entry slots, children in entry order. -/
def downgradeToCompressedTable (hashPath : Nat) (ents : List (Nat × Node)) :
    Node :=
  .compressedTable hashPath (orBits ents) (ents.map (·.2))

/-- `compressedTable.set(idx, nn)` from the sparse-table source.  Returns
`none` when the table becomes empty.  Inserting into an empty slot promotes
to a dense table once the occupancy reaches `TABLE_CAPACITY/2`. -/
def ctSet (hashPath nodeMap : Nat) (nodes : List Node) (idx : Nat)
    (nn : Option Node) : Option Node :=
  let nodeBit := (1 <<< idx) % 2 ^ 32
  let bitMask := nodeBit - 1
  let i := bitCount32 (nodeMap &&& bitMask)
  match nn with
  | some n =>
    if nodeMap &&& nodeBit = 0 then
      let nm := nodeMap ||| nodeBit
      let ns := nodes.take i ++ n :: nodes.drop i
      if bitCount32 nm ≥ TABLE_CAPACITY / 2 then
        some (upgradeToFullTable hashPath (ctEntries nm ns))
      else some (.compressedTable hashPath nm ns)
    else some (.compressedTable hashPath nodeMap (nodes.set i n))
  | none =>
    if nodeMap &&& nodeBit ≠ 0 then
      let nm := bitClear32 nodeMap nodeBit
      let ns := nodes.take i ++ nodes.drop (i + 1)
      if nm = 0 then none else some (.compressedTable hashPath nm ns)
    else some (.compressedTable hashPath nodeMap nodes)

/-- Modelled from the spec: `fullTable.get(idx)` — direct indexing into the
fixed-size child array (`children[i] = nil` when unoccupied). -/
def ftGet (nodes : List (Option Node)) (idx : Nat) : Option Node :=
  (nodes[idx]?).join

/-- Modelled from the spec: `fullTable.entries()` — `(slot, child)` pairs of
the occupied slots in ascending slot order. -/
def ftEntries (nodes : List (Option Node)) : List (Nat × Node) :=
  (List.range 32).filterMap fun i => ((nodes[i]?).join).map fun n => (i, n)

/-- Modelled from the spec: `fullTable.set(idx, nn)` — semantics identical to
the sparse table; a removal that drops the occupancy below
`TABLE_CAPACITY/2` demotes to a sparse table via
`downgradeToCompressedTable`; an empty result is `none`. -/
def ftSet (hashPath nodeMap : Nat) (nodes : List (Option Node)) (idx : Nat)
    (nn : Option Node) : Option Node :=
  match nn with
  | some n =>
    some (.fullTable hashPath (nodeMap ||| ((1 <<< idx) % 2 ^ 32))
      (nodes.set idx (some n)))
  | none =>
    let nm := bitClear32 nodeMap ((1 <<< idx) % 2 ^ 32)
    let ns := nodes.set idx none
    if nm = 0 then none
    else if bitCount32 nm < TABLE_CAPACITY / 2 then
      some (downgradeToCompressedTable hashPath (ftEntries ns))
    else some (.fullTable hashPath nm ns)

/-- `tableI.get` dispatch.  Only ever applied to tables; on a leaf (a Go type
error that cannot occur) it returns `none`. -/
def tGet : Node → Nat → Option Node
  | .compressedTable _ nm ns, idx => ctGet nm ns idx
  | .fullTable _ _ ns, idx => ftGet ns idx
  | _, _ => none

/-- `tableI.set` dispatch (leaves, which cannot occur, are returned
unchanged). -/
def tSet : Node → Nat → Option Node → Option Node
  | .compressedTable hp nm ns, idx, nn => ctSet hp nm ns idx nn
  | .fullTable hp nm ns, idx, nn => ftSet hp nm ns idx nn
  | n, _, _ => some n

/-- Modelled from the spec: `flatLeaf.get` / `collisionLeaf.get` — equality
on the stored key, or a linear search. -/
def leafGet : Node → Key → Option Val
  | .flatLeaf _ lk lv, k => if lk = k then some lv else none
  | .collisionLeaf _ kvs, k => (kvs.find? fun kv => kv.1 == k).map (·.2)
  | _, _ => none

/-- Modelled from the spec: `leafI.put`.  A flat leaf with the same key gets
its value replaced; a flat leaf with a different (hash-colliding) key is
promoted to a collision leaf holding both pairs; a collision leaf replaces a
matching entry or appends the pair.  The Bool is the facade's
`inserted` flag (hamt.go: `true == inserted key/val pair; false == replaced
val`), the negation of the spec's `replaced?` (§4.7.2: size increments iff
not replaced). -/
def leafPut : Node → Key → Val → Node × Bool
  | .flatLeaf h lk lv, k, v =>
    if lk = k then (.flatLeaf h k v, false)
    else (.collisionLeaf h [(lk, lv), (k, v)], true)
  | .collisionLeaf h kvs, k, v =>
    if (kvs.find? fun kv => kv.1 == k).isSome then
      (.collisionLeaf h (kvs.map fun kv => if kv.1 = k then (k, v) else kv),
        false)
    else (.collisionLeaf h (kvs ++ [(k, v)]), true)
  | n, _, _ => (n, false)

/-- Modelled from the spec: `leafI.del` (§4.2).  A flat leaf with the same
key is removed (`none`); otherwise the leaf is returned unchanged.  A
collision leaf not containing the key is returned unchanged; with exactly
two entries the survivor becomes a flat leaf; otherwise the entry is
removed. -/
def leafDel : Node → Key → Option Node × Option Val × Bool
  | .flatLeaf h lk lv, k =>
    if lk = k then (none, some lv, true)
    else (some (.flatLeaf h lk lv), none, false)
  | .collisionLeaf h kvs, k =>
    match kvs.find? fun kv => kv.1 == k with
    | none => (some (.collisionLeaf h kvs), none, false)
    | some kv =>
      let rest := kvs.filter fun p => ¬p.1 = k
      (some (match rest with
             | [p] => .flatLeaf h p.1 p.2
             | _ => .collisionLeaf h rest), some kv.2, true)
  | n, _ => (some n, none, false)

/-- `newCompressedTable(depth, hashPath, lf)` from the sparse-table source:
a one-child table whose slot comes from `index(hashPath, depth)`. -/
def newCompressedTable (depth hashPath : Nat) (lf : Node) : Node :=
  let idx := index hashPath depth
  .compressedTable (hashPath &&& hashPathMask depth) ((1 <<< idx) % 2 ^ 32)
    [lf]

/-- The loop of `newCompressedTable2`: builds single-child tables while the
two leaves share slot indices, a two-child table at the first divergence.
`fuel = MAXDEPTH + 1 - d`; exhausted fuel is the source's `d > MAXDEPTH`
defensive branch, whose `curTable.set(idx, leaf)` discards the returned
table, leaving the deepest table empty. -/
def nct2Go (l1 l2 : Node) : Nat → Nat → Nat → Node
  | 0, _, hp => .compressedTable hp 0 []
  | fuel + 1, d, hp =>
    let idx1 := index l1.hashcode d
    let idx2 := index l2.hashcode d
    if idx1 ≠ idx2 then
      .compressedTable hp (((1 <<< idx1) % 2 ^ 32) ||| ((1 <<< idx2) % 2 ^ 32))
        (if idx1 < idx2 then [l1, l2] else [l2, l1])
    else
      .compressedTable hp ((1 <<< idx1) % 2 ^ 32)
        [nct2Go l1 l2 fuel (d + 1) (buildHashPath hp idx1 d)]

/-- `newCompressedTable2(depth, hashPath, leaf1, leaf2)` from the
sparse-table source. -/
def newCompressedTable2 (depth hashPath : Nat) (leaf1 leaf2 : Node) : Node :=
  nct2Go leaf1 leaf2 (MAXDEPTH + 1 - depth) depth (hashPath &&& hashPathMask depth)

/-- Modelled from the spec: the path recorder (§4.6) is a LIFO stack of the
tables passed on the way down; embedded as a list with the deepest table at
the head (`push` is cons, `pop` takes the head). -/
abbrev PathT := List Node

/-- `Hamt.copyUp(oldTable, newTable, path)`: rebuild the recorded ancestors
bottom-up; the parent slot of `oldTable` is recovered from its hash path at
the parent's depth.  Returns the new root (possibly `none`). -/
def copyUp (oldTable : Node) (newTable : Option Node) : PathT → Option Node
  | [] => newTable
  | oldParent :: rest =>
    let parentDepth := rest.length
    let parentIdx := index oldTable.hashcode parentDepth
    copyUp oldParent (tSet oldParent parentIdx newTable) rest

/-- The descent loop of `Hamt.Get` (`for depth := 0; depth <= MAXDEPTH`).
`fuel = MAXDEPTH + 1 - depth`. -/
def getLoop (h30 : Nat) (k : Key) : Nat → Nat → Node → Option Val
  | 0, _, _ => none
  | fuel + 1, depth, curTable =>
    match tGet curTable (index h30 depth) with
    | none => none
    | some curNode =>
      if curNode.isLeaf then
        if curNode.hashcode = h30 then leafGet curNode k else none
      else getLoop h30 k fuel (depth + 1) curNode

/-- `Hamt.Get(key)`: `(value, found?)` embedded as `Option Val`. -/
def Hamt.Get (h : Hamt) (k : Key) : Option Val :=
  match h.root with
  | none => none
  | some root => getLoop (Hash30 k) k (MAXDEPTH + 1) 0 root

/-- The descent loop of `Hamt.Put`.  Carries the original map (returned
as-is when the loop runs past `MAXDEPTH`), the accumulated hash path and the
recorded path; returns the updated map and the `inserted` flag. -/
def putLoop (k : Key) (v : Val) (h30 : Nat) (origRoot : Option Node)
    (ne : Nat) : Nat → Nat → Nat → Node → PathT → Hamt × Bool
  | 0, _, _, _, _ => (⟨origRoot, ne⟩, false)
  | fuel + 1, depth, hashPath, curTable, path =>
    let idx := index h30 depth
    match tGet curTable idx with
    | none =>
      let newTable := tSet curTable idx (some (.flatLeaf h30 k v))
      (⟨copyUp curTable newTable path, ne + 1⟩, true)
    | some curNode =>
      if curNode.isLeaf then
        if curNode.hashcode = h30 then
          let res := leafPut curNode k v
          let newTable := tSet curTable idx (some res.1)
          (⟨copyUp curTable newTable path,
        if res.2 then ne + 1 else ne⟩, res.2)
        else
          let hashPath' := buildHashPath hashPath idx depth
          let collisionTable :=
            newCompressedTable2 (depth + 1) hashPath' curNode
              (.flatLeaf h30 k v)
          let newTable := tSet curTable idx (some collisionTable)
          (⟨copyUp curTable newTable path, ne + 1⟩, true)
      else
        putLoop k v h30 origRoot ne fuel (depth + 1)
          (buildHashPath hashPath idx depth) curNode (curTable :: path)

/-- `Hamt.Put(key, val)`: `(newMap, inserted?)`. -/
def Hamt.Put (h : Hamt) (k : Key) (v : Val) : Hamt × Bool :=
  let h30 := Hash30 k
  match h.root with
  | none =>
    (⟨some (newCompressedTable 0 h30 (.flatLeaf h30 k v)), h.nentries + 1⟩,
      true)
  | some root => putLoop k v h30 h.root h.nentries (MAXDEPTH + 1) 0 0 root []

/-- The descent loop of `Hamt.Del`: mismatches return the original map;
a found leaf is deleted via `leafI.del`, the result (possibly `none`,
removing the slot) written back and copied up. -/
def delLoop (k : Key) (h30 : Nat) (h : Hamt) :
    Nat → Nat → Node → PathT → Hamt × Option Val × Bool
  | 0, _, _, _ => (h, none, false)
  | fuel + 1, depth, curTable, path =>
    let idx := index h30 depth
    match tGet curTable idx with
    | none => (h, none, false)
    | some curNode =>
      if curNode.isLeaf then
        if curNode.hashcode ≠ h30 then (h, none, false)
        else
          let res := leafDel curNode k
          let newTable := tSet curTable idx res.1
          (⟨copyUp curTable newTable path,
        if res.2.2 then h.nentries - 1 else h.nentries⟩, res.2.1, res.2.2)
      else delLoop k h30 h fuel (depth + 1) curNode (curTable :: path)

/-- `Hamt.Del(key)`: `(newMap, removedValue, deleted?)`.  The Go code reads
`h.root` without an emptiness test, so `Del` on the empty map dereferences a
nil interface (a panic), embedded as `none`. -/
def Hamt.Del (h : Hamt) (k : Key) : Option (Hamt × Option Val × Bool) :=
  match h.root with
  | none => none
  | some root => some (delLoop k (Hash30 k) h (MAXDEPTH + 1) 0 root [])

end H32

namespace H32

/-- The descent of `Get` up to the leaf: returns the leaf on the hash's slot
path whose full hashcode equals `h30`, if any (proof-side view shared by the
`get`/`put`/`del` theorems). -/
def leafForLoop (h30 : Nat) : Nat → Nat → Node → Option Node
  | 0, _, _ => none
  | fuel + 1, depth, curTable =>
    match tGet curTable (index h30 depth) with
    | none => none
    | some curNode =>
      if curNode.isLeaf then
        if curNode.hashcode = h30 then some curNode else none
      else leafForLoop h30 fuel (depth + 1) curNode

/-- The leaf stored for a hashcode, if any. -/
def leafFor (m : Hamt) (h30 : Nat) : Option Node :=
  m.root.bind (leafForLoop h30 (MAXDEPTH + 1) 0)

/-- What the lookup descent does upon entering a slot holding `y` at
`depth`: absent slots fail, leaves answer by hashcode, tables continue the
descent with the fuel remaining at that depth. -/
def subProbe (h' : Nat) (depth : Nat) (y : Option Node) : Option Node :=
  match y with
  | none => none
  | some n =>
    if n.isLeaf then (if n.hashcode = h' then some n else none)
    else leafForLoop h' (6 - depth) depth n

/-- Structural well-formedness of a node occupying trie position
(`depth` = d, `path` = the low `5*d` bits every contained hashcode must
have); the spec's invariants I2, I4, I6-layout plus the layout facts the
table code relies on (child count = popcount, dense arrays of size 32 with a
bitmap mirroring occupancy). -/
inductive WfN : Nat → Nat → Node → Prop where
  | flat {d p h : Nat} {k : Key} {v : Val} :
      h = Hash30 k → h % 2 ^ (5 * d) = p → WfN d p (.flatLeaf h k v)
  | coll {d p h : Nat} {kvs : List (Key × Val)} :
      2 ≤ kvs.length → (kvs.map Prod.fst).Nodup →
      (∀ kv ∈ kvs, Hash30 kv.1 = h) → h % 2 ^ (5 * d) = p →
      WfN d p (.collisionLeaf h kvs)
  | comp {d p hp nm : Nat} {ns : List Node} :
      d ≤ 5 → p < 2 ^ (5 * d) → hp = p → nm < 2 ^ 32 →
      ns.length = bitCount32 nm →
      (∀ i c, i < 32 → ctGet nm ns i = some c →
        WfN (d + 1) (p + 2 ^ (5 * d) * i) c) →
      WfN d p (.compressedTable hp nm ns)
  | full {d p hp nm : Nat} {ns : List (Option Node)} :
      d ≤ 5 → p < 2 ^ (5 * d) → hp = p → nm < 2 ^ 32 → ns.length = 32 →
      (∀ i, i < 32 → nm.testBit i = (ftGet ns i).isSome) →
      (∀ i c, i < 32 → ftGet ns i = some c →
        WfN (d + 1) (p + 2 ^ (5 * d) * i) c) →
      WfN d p (.fullTable hp nm ns)

/-- Well-formedness of a map: an absent root, or a root table well-formed at
position `(0, 0)`. -/
def WfH (m : Hamt) : Prop :=
  match m.root with
  | none => True
  | some r => r.isLeaf = false ∧ WfN 0 0 r

/-- A public operation, for stating sequence properties. -/
inductive Op where
  | put (k : Key) (v : Val)
  | del (k : Key)

/-- Applies one operation (`none` when `Del` panics on the empty map). -/
def applyOp (m : Hamt) : Op → Option Hamt
  | .put k v => some (m.Put k v).1
  | .del k => (m.Del k).map (·.1)

/-- Runs a sequence of operations left to right. -/
def runOps : Hamt → List Op → Option Hamt
  | m, [] => some m
  | m, op :: ops => (applyOp m op).bind fun m' => runOps m' ops

/-- The reference key set after a sequence of operations (inserted keys
minus deleted ones). -/
def modelKeysFrom : Finset Key → List Op → Finset Key
  | s, [] => s
  | s, .put k _ :: ops => modelKeysFrom (insert k s) ops
  | s, .del k :: ops => modelKeysFrom (s.erase k) ops

/-- The reference key set of a sequence starting from nothing. -/
def modelKeys (ops : List Op) : Finset Key := modelKeysFrom ∅ ops

/-- `getLoop` instrumented with the number of levels visited. -/
def getLoopSteps (h30 : Nat) (k : Key) : Nat → Nat → Node → Option Val × Nat
  | 0, _, _ => (none, 0)
  | fuel + 1, depth, curTable =>
    match tGet curTable (index h30 depth) with
    | none => (none, 1)
    | some curNode =>
      if curNode.isLeaf then
        ((if curNode.hashcode = h30 then leafGet curNode k else none), 1)
      else
        let r := getLoopSteps h30 k fuel (depth + 1) curNode
        (r.1, r.2 + 1)

/-- `putLoop` instrumented with the number of levels visited. -/
def putLoopSteps (k : Key) (v : Val) (h30 : Nat) (origRoot : Option Node)
    (ne : Nat) : Nat → Nat → Nat → Node → PathT → (Hamt × Bool) × Nat
  | 0, _, _, _, _ => ((⟨origRoot, ne⟩, false), 0)
  | fuel + 1, depth, hashPath, curTable, path =>
    let idx := index h30 depth
    match tGet curTable idx with
    | none =>
      let newTable := tSet curTable idx (some (.flatLeaf h30 k v))
      ((⟨copyUp curTable newTable path, ne + 1⟩, true), 1)
    | some curNode =>
      if curNode.isLeaf then
        if curNode.hashcode = h30 then
          let res := leafPut curNode k v
          let newTable := tSet curTable idx (some res.1)
          ((⟨copyUp curTable newTable path,
        if res.2 then ne + 1 else ne⟩, res.2), 1)
        else
          let hashPath' := buildHashPath hashPath idx depth
          let collisionTable :=
            newCompressedTable2 (depth + 1) hashPath' curNode
              (.flatLeaf h30 k v)
          let newTable := tSet curTable idx (some collisionTable)
          ((⟨copyUp curTable newTable path, ne + 1⟩, true), 1)
      else
        let r := putLoopSteps k v h30 origRoot ne fuel (depth + 1)
          (buildHashPath hashPath idx depth) curNode (curTable :: path)
        (r.1, r.2 + 1)

/-- `delLoop` instrumented with the number of levels visited. -/
def delLoopSteps (k : Key) (h30 : Nat) (h : Hamt) :
    Nat → Nat → Node → PathT → (Hamt × Option Val × Bool) × Nat
  | 0, _, _, _ => ((h, none, false), 0)
  | fuel + 1, depth, curTable, path =>
    let idx := index h30 depth
    match tGet curTable idx with
    | none => ((h, none, false), 1)
    | some curNode =>
      if curNode.isLeaf then
        if curNode.hashcode ≠ h30 then ((h, none, false), 1)
        else
          let res := leafDel curNode k
          let newTable := tSet curTable idx res.1
          ((⟨copyUp curTable newTable path,
        if res.2.2 then h.nentries - 1 else h.nentries⟩, res.2.1, res.2.2), 1)
      else
        let r := delLoopSteps k h30 h fuel (depth + 1) curNode
          (curTable :: path)
        (r.1, r.2 + 1)

end H32

namespace H32

/-- The layout facts each table kind maintains: bitmaps fit in 32 bits,
sparse child counts equal the popcount, dense arrays have 32 slots with the
bitmap mirroring occupancy. -/
def TblOK : Node → Prop
  | .compressedTable _ nm ns => nm < 2 ^ 32 ∧ ns.length = bitCount32 nm
  | .fullTable _ nm ns =>
    nm < 2 ^ 32 ∧ ns.length = 32 ∧
      ∀ i, i < 32 → nm.testBit i = (ftGet ns i).isSome
  | _ => False

/-- The ancestor chain recorded while descending along a hashcode: `t` is
reached from `root` at depth `d` through tables only, with the visited
tables stacked deepest-first. -/
inductive Spine (h30 : Nat) (root : Node) : PathT → Node → Nat → Prop where
  | nil : Spine h30 root [] root 0
  | cons {path : PathT} {t t' : Node} {d : Nat} :
      Spine h30 root path t d → tGet t (index h30 d) = some t' →
      t'.isLeaf = false → Spine h30 root (t :: path) t' (d + 1)

end H32

namespace H64

/-- Keys for the 64-bit variant (`[]byte` plus the external FNV hash).
Modelled from the spec: the hash function is external, so a key carries its
raw 64-bit hash and an identity; `hash64` returns the raw hash. -/
structure Key where
  hash : Nat
  id : Nat
deriving DecidableEq

/-- Values (`interface{}`), embedded as `Nat`. -/
abbrev Val := Nat

/-- `NBITS = 6`. -/
def NBITS : Nat := 6

/-- `TABLE = 2^6 = 64`. -/
def TABLE : Nat := 1 <<< NBITS

/-- `sixtyBitMask = 1<<60 - 1`. -/
def sixtyBitMask : Nat := (1 <<< 60) - 1

/-- `MAXDEPTH = 9`. -/
def MAXDEPTH : Nat := 9

/-- Modelled from the spec: the external FNV1 `hash64` over the key bytes,
embedded as the key's raw hash (masked to 64 bits). -/
def hash64 (k : Key) : Nat := k.hash % 2 ^ 64

/-- `hashPathMask(depth)`: Go `uint64(1<<(depth*NBITS)) - 1` (cast first,
then a wrapping uint64 subtraction). -/
def hashPathMask (depth : Nat) : Nat :=
  (((1 <<< (depth * NBITS)) % 2 ^ 64) + (2 ^ 64 - 1)) % 2 ^ 64

/-- `hashPathEqual(depth, a, b)`. -/
def hashPathEqual (depth a b : Nat) : Bool :=
  (a &&& hashPathMask depth) == (b &&& hashPathMask depth)

/-- `hash60Equal(a, b)`: equality on the significant 60 bits. -/
def hash60Equal (a b : Nat) : Bool :=
  (a &&& sixtyBitMask) == (b &&& sixtyBitMask)

/-- `idxMask(depth)`: Go `uint64(uint8(1<<NBITS)-1) << (depth*NBITS)`. -/
def idxMask (depth : Nat) : Nat :=
  (((1 <<< NBITS) - 1) <<< (depth * NBITS)) % 2 ^ 64

/-- `index(hash, depth)`: the 6-bit slot index. -/
def index (hash depth : Nat) : Nat :=
  (hash &&& idxMask depth) >>> (depth * NBITS)

/-- `buildHashPath(hashPath, depth, idx)`: the guard
`(hashPath&(1<<(depth*NBITS)) - 1) > 0` parses as
`(hashPath & (1<<(depth*NBITS))) - 1 > 0` with a wrapping uint64
subtraction, so it panics (`none`) unless `depth = 0` and `hashPath` is odd;
the body combines with `&`, not `|`. -/
def buildHashPath (hashPath depth idx : Nat) : Option Nat :=
  if ((hashPath &&& ((1 <<< (depth * NBITS)) % 2 ^ 64)) + (2 ^ 64 - 1)) % 2 ^ 64
      > 0 then none
  else some (hashPath &&& ((idx <<< (depth * NBITS)) % 2 ^ 64))

/-- `HEXI_FIVES`. -/
def HEXI_FIVES : Nat := 0x5555555555555555

/-- `HEXI_THREES`. -/
def HEXI_THREES : Nat := 0x3333333333333333

/-- `HEXI_ONES`. -/
def HEXI_ONES : Nat := 0x0101010101010101

/-- `HEXI_FS`. -/
def HEXI_FS : Nat := 0x0f0f0f0f0f0f0f0f

/-- `BitCount64`: the SWAR population count from the source.  The first
subtraction cannot underflow (`(n>>1)&FIVES ≤ n`); the final multiplication
wraps modulo `2^64` as in Go. -/
def BitCount64 (n : Nat) : Nat :=
  let n1 := n - ((n >>> 1) &&& HEXI_FIVES)
  let n2 := (n1 &&& HEXI_THREES) + ((n1 >>> 2) &&& HEXI_THREES)
  ((((n2 + (n2 >>> 4)) &&& HEXI_FS) * HEXI_ONES) % 2 ^ 64) >>> 56

/-- A node of the 64-bit variant.  `fullTable` has no constructor here:
`NewFullTable` returns nil and no dense table value is ever created in this
variant.  Sparse-table child slices may hold Go `nil` entries (the
`NewCompressedTable2` append bug), so children are `Option Node`. -/
inductive Node where
  | flatLeaf (hash60 : Nat) (key : Key) (val : Val)
  | collisionLeaf (hash60 : Nat) (kvs : List (Key × Val))
  | compressedTable (hashPath : Nat) (depth : Nat) (nodeMap : Nat)
      (nodes : List (Option Node))

/-- The 64-bit `Hamt` struct. -/
structure Hamt where
  root : Option Node
  nentries : Nat

/-- `EMPTY = Hamt{nil, 0}`. -/
def EMPTY : Hamt := ⟨none, 0⟩

/-- `Hamt.IsEmpty`. -/
def Hamt.IsEmpty (h : Hamt) : Bool := h.root.isNone

/-- `nodeI.hashcode()`. -/
def Node.hashcode : Node → Nat
  | .flatLeaf h _ _ => h
  | .collisionLeaf h _ => h
  | .compressedTable hp _ _ _ => hp

/-- Leaf discrimination (`curNode.(leafI)`). -/
def Node.isLeaf : Node → Bool
  | .flatLeaf _ _ _ => true
  | .collisionLeaf _ _ => true
  | _ => false

/-- `NewFlatLeaf(hash, key, val)`: masks the hash to 60 bits. -/
def NewFlatLeaf (hash : Nat) (k : Key) (v : Val) : Node :=
  .flatLeaf (hash &&& sixtyBitMask) k v

/-- `flatLeaf.get` / `collisionLeaf.get`. -/
def leafGet : Node → Key → Option Val
  | .flatLeaf _ lk lv, k => if lk = k then some lv else none
  | .collisionLeaf _ kvs, k => (kvs.find? fun kv => kv.1 == k).map (·.2)
  | _, _ => none

/-- `flatLeaf.put` / `collisionLeaf.put`; the Bool is the source's
`replace?` (true when the key matched and the value was replaced). -/
def leafPut : Node → Key → Val → Node × Bool
  | .flatLeaf h lk lv, k, v =>
    if lk = k then (NewFlatLeaf (hash64 k) k v, true)
    else (.collisionLeaf h [(lk, lv), (k, v)], false)
  | .collisionLeaf h kvs, k, v =>
    if (kvs.find? fun kv => kv.1 == k).isSome then
      (.collisionLeaf h (kvs.map fun kv => if kv.1 = k then (kv.1, v) else kv),
        true)
    else (.collisionLeaf h (kvs ++ [(k, v)]), false)
  | n, _, _ => (n, false)

/-- `flatLeaf.del`: returns nil (never self) together with the removed
value and the deleted flag. -/
def flatLeafDel (_h : Nat) (lk : Key) (lv : Val) (k : Key) :
    Option Node × Option Val × Bool :=
  if lk = k then (none, some lv, true) else (none, none, false)

/-- `collisionLeaf.del`: with exactly two entries, a hit leaves a flat leaf
and a miss returns nil; otherwise a fresh collision leaf is rebuilt without
the key (a copy even on a miss). -/
def collisionLeafDel (h : Nat) (kvs : List (Key × Val)) (k : Key) :
    Option Node × Option Val × Bool :=
  if kvs.length = 2 then
    match kvs with
    | [p0, p1] =>
      if k = p0.1 then (some (NewFlatLeaf h p1.1 p1.2), some p0.2, true)
      else if k = p1.1 then (some (NewFlatLeaf h p0.1 p0.2), some p1.2, true)
      else (none, none, false)
    | _ => (none, none, false)
  else
    let nl := kvs.filter fun p => ¬k = p.1
    match kvs.find? fun p => k == p.1 with
    | some p => (some (.collisionLeaf h nl), some p.2, true)
    | none => (some (.collisionLeaf h nl), none, false)

/-- `leafI.del` dispatch. -/
def leafDel : Node → Key → Option Node × Option Val × Bool
  | .flatLeaf h lk lv, k => flatLeafDel h lk lv k
  | .collisionLeaf h kvs, k => collisionLeafDel h kvs k
  | n, _ => (some n, none, false)

/-- `compressedTable.get(hash)`: the slot comes from the table's stored
depth.  The outer `Option` is a Go panic (index out of range); the inner
`Option` is the returned interface, possibly nil. -/
def ctGet : Node → Nat → Option (Option Node)
  | .compressedTable _ depth nodeMap nodes, hash =>
    let idx := index hash depth
    let nodeBit := (1 <<< idx) % 2 ^ 64
    if nodeMap &&& nodeBit = 0 then some none
    else
      let i := BitCount64 (nodeMap &&& (nodeBit - 1))
      nodes[i]?
  | _, _ => some none

/-- `compressedTable.set(hash, newNode)`.  The empty-slot branch performs
`nt.nodeMap &= bit` (clearing the map — the `&=` slip) before inserting;
the occupied branch overwrites in place.  `none` is a Go panic (slice
bounds). -/
def ctSet : Node → Nat → Option Node → Option Node
  | .compressedTable hashPath depth nodeMap nodes, hash, newNode =>
    let idx := index hash depth
    let bit := (1 <<< idx) % 2 ^ 64
    let bitMask := bit - 1
    let i := BitCount64 (nodeMap &&& bitMask)
    if nodeMap &&& bit = 0 then
      if i ≤ nodes.length then
        some (.compressedTable hashPath depth (nodeMap &&& bit)
          (nodes.take i ++ newNode :: nodes.drop i))
      else none
    else
      if i < nodes.length then
        some (.compressedTable hashPath depth nodeMap (nodes.set i newNode))
      else none
  | n, _, _ => some n

/-- `NewCompressedTable(depth, hashPath, lf)` (the `ASSERT` is the
`none` case). -/
def NewCompressedTable (depth hashPath : Nat) (lf : Node) : Option Node :=
  if depth < MAXDEPTH + 1 then
    let idx := index lf.hashcode depth
    some (.compressedTable hashPath depth ((1 <<< idx) % 2 ^ 64) [some lf])
  else none

/-- The loop of the 64-bit `NewCompressedTable2` (`for d := depth; d <
MAXDEPTH`).  Every iteration first sets `nodes = make([]nodeI, 2)`; the
diverging branch `&=`s the fresh bitmap (leaving it zero) and fills the two
slots; the matching branch appends the subtable to the two nil slots.  When
the loop runs out (`d == MAXDEPTH`) the final `curTable.set` result is
discarded, leaving the empty table. -/
def nct2Go (l1 l2 : Node) : Nat → Nat → Nat → Node
  | 0, d, hp => .compressedTable hp d 0 []
  | fuel + 1, d, hp =>
    let idx1 := index l1.hashcode d
    let idx2 := index l2.hashcode d
    if idx1 ≠ idx2 then
      .compressedTable hp d 0
        (if idx1 < idx2 then [some l1, some l2] else [some l2, some l1])
    else
      .compressedTable hp d ((1 <<< idx1) % 2 ^ 64)
        [none, none,
          some (nct2Go l1 l2 fuel (d + 1)
            (hp &&& ((idx1 <<< ((d + 1) * NBITS)) % 2 ^ 64)))]

/-- `NewCompressedTable2(depth, hashPath, leaf1, leaf2)` with its `ASSERT`. -/
def NewCompressedTable2 (depth hashPath : Nat) (l1 l2 : Node) : Option Node :=
  if depth < MAXDEPTH + 1 then some (nct2Go l1 l2 (MAXDEPTH - depth) depth hashPath)
  else none

/-- Modelled from the spec: the 64-bit path recorder, a LIFO stack embedded
as a list (push is cons, pop takes the head). -/
abbrev PathT := List Node

/-- `Hamt.copyUp(oldTable, newTable, path)`: rebuilds ancestors and returns
`Hamt{newTable, 0}` at the root.  The `h.root != oldTable` check compares Go
interface (pointer) identities, which a shallow embedding cannot observe; in
every call the bottom of the recorded path is the root, so the check is
embedded as passing.  `none` is a panic inside `set`. -/
def copyUp (oldTable newTable : Node) : PathT → Option Hamt
  | [] => some ⟨some newTable, 0⟩
  | oldParent :: rest =>
    (ctSet oldParent oldTable.hashcode (some newTable)).bind fun newParent =>
      copyUp oldParent newParent rest

/-- `Hamt.copyUpLeaf(oldLeaf, newLeaf, path)`: panics (`none`) on an empty
path, else writes the leaf into the popped table and copies up. -/
def copyUpLeaf (oldLeaf newLeaf : Node) : PathT → Option Hamt
  | [] => none
  | oldTable :: rest =>
    (ctSet oldTable oldLeaf.hashcode (some newLeaf)).bind fun newTable =>
      copyUp oldTable newTable rest

/-- The loop of the 64-bit `Hamt.Get` (`for depth := 0; curNode != nil &&
depth <= MAXDEPTH; depth++`): `curNode` starts as `root.get(hash60)` and
descent uses each table's stored depth. -/
def getLoop (hash60 : Nat) (k : Key) : Nat → Nat → Option Node → Option Val
  | _, _, none => none
  | 0, _, some _ => none
  | fuel + 1, depth, some curNode =>
    if curNode.isLeaf then
      if hashPathEqual depth hash60 curNode.hashcode then leafGet curNode k
      else none
    else
      match ctGet curNode hash60 with
      | none => none
      | some next => getLoop hash60 k fuel (depth + 1) next

/-- The 64-bit `Hamt.Get` (panics inside `get` are conflated with absence:
the claims about this variant do not rest on `Get`'s panic behaviour). -/
def Hamt.Get (h : Hamt) (k : Key) : Option Val :=
  match h.root with
  | none => none
  | some root =>
    let hash60 := hash64 k &&& sixtyBitMask
    match ctGet root hash60 with
    | none => none
    | some first => getLoop hash60 k (MAXDEPTH + 1) 0 first

/-- The loop of the 64-bit `Hamt.Put` (`for depth = 0; depth < MAXDEPTH`).
`newHamt` stays `Hamt{nil, 0}`: every branch calls `copyUp`/`copyUpLeaf`
for effect only and returns `newHamt`; running out of the loop returns
`(newHamt, false)`. -/
def putLoop (k : Key) (v : Val) (hash60 : Nat) :
    Nat → Nat → Node → PathT → Option (Hamt × Bool)
  | 0, _, _, _ => some (⟨none, 0⟩, false)
  | fuel + 1, depth, curTable, path =>
    (ctGet curTable hash60).bind fun curNode =>
      match curNode with
      | none =>
        (ctSet curTable hash60 (some (NewFlatLeaf hash60 k v))).bind
          fun newTable =>
            (copyUp curTable newTable path).map fun _ => (⟨none, 0⟩, true)
      | some oldNode =>
        if oldNode.isLeaf then
          if hash60Equal oldNode.hashcode hash60 then
            let res := leafPut oldNode k v
            (copyUpLeaf oldNode res.1 (curTable :: path)).map
              fun _ => (⟨none, 0⟩, res.2)
          else
            let hashPath := hash60 &&& hashPathMask depth
            (NewCompressedTable2 depth hashPath oldNode
                (NewFlatLeaf hash60 k v)).bind fun colTable =>
              (ctSet curTable hash60 (some colTable)).bind fun newTable =>
                (copyUp curTable newTable path).map fun _ => (⟨none, 0⟩, true)
        else putLoop k v hash60 fuel (depth + 1) oldNode (curTable :: path)

/-- The 64-bit `Hamt.Put`: on an empty map it installs a singleton table in
`newHamt` (leaving `nentries = 0`); otherwise the loop's `copyUp` results
are discarded and `newHamt = Hamt{nil, 0}` is returned. -/
def Hamt.Put (h : Hamt) (k : Key) (v : Val) : Option (Hamt × Bool) :=
  let hash60 := hash64 k &&& sixtyBitMask
  match h.root with
  | none =>
    (NewCompressedTable 0 hash60 (NewFlatLeaf hash60 k v)).map
      fun t => (⟨some t, 0⟩, true)
  | some root => putLoop k v hash60 (MAXDEPTH) 0 root []

/-- The 64-bit `Hamt.Del`: a stub returning `(Hamt{nil, 0}, nil, false)`. -/
def Hamt.Del (_h : Hamt) (_k : Key) : Hamt × Option Val × Bool :=
  (⟨none, 0⟩, none, false)

end H64

namespace H32

theorem hash30_eq_mod (k : Key) : Hash30 k = k.hash % 2 ^ 30 := by
  simp only [Hash30, mask30]
  exact Nat.and_pow_two_sub_one_eq_mod k.hash 30

theorem hash30_lt (k : Key) : Hash30 k < 2 ^ 30 := by
  rw [hash30_eq_mod]; exact Nat.mod_lt _ (by norm_num)

theorem and_shiftLeft_shiftRight (h m s : Nat) :
    (h &&& (m <<< s)) >>> s = (h >>> s) &&& m := by
  apply Nat.eq_of_testBit_eq
  intro j
  simp [Nat.testBit_shiftRight, Nat.testBit_land, Nat.testBit_shiftLeft]

theorem index_eq {h d : Nat} (hd : d ≤ 5) : index h d = h / 2 ^ (5 * d) % 32 := by
  have hmask : (31 <<< (d * NBITS32)) % 2 ^ 32 = 31 <<< (d * NBITS32) := by
    apply Nat.mod_eq_of_lt
    have : d * NBITS32 ≤ 25 := by simp only [NBITS32]; omega
    calc 31 <<< (d * NBITS32) = 31 * 2 ^ (d * NBITS32) := Nat.shiftLeft_eq ..
      _ ≤ 31 * 2 ^ 25 := by
          exact Nat.mul_le_mul_left _ (Nat.pow_le_pow_right (by norm_num) this)
      _ < 2 ^ 32 := by norm_num
  have h31 : (1 <<< NBITS32) - 1 = 31 := rfl
  rw [index, indexMask, h31, hmask, and_shiftLeft_shiftRight,
    show (31 : Nat) = 2 ^ 5 - 1 from rfl, Nat.and_pow_two_sub_one_eq_mod,
    Nat.shiftRight_eq_div_pow]
  simp only [NBITS32]
  rw [Nat.mul_comm d 5]

theorem index_lt {h d : Nat} (hd : d ≤ 5) : index h d < 32 := by
  rw [index_eq hd]; exact Nat.mod_lt _ (by norm_num)

theorem pow_five_succ (d : Nat) : 2 ^ (5 * (d + 1)) = 2 ^ (5 * d) * 32 := by
  rw [Nat.mul_succ, Nat.pow_add]

theorem mod_pow_five_succ {h d : Nat} (hd : d ≤ 5) :
    h % 2 ^ (5 * (d + 1)) = h % 2 ^ (5 * d) + 2 ^ (5 * d) * index h d := by
  rw [pow_five_succ, Nat.mod_mul, index_eq hd]

theorem offset_decomp {p q i j B : Nat} (hp : p < B) (hq : q < B)
    (h : p + B * i = q + B * j) : p = q ∧ i = j := by
  have h1 : p = q := by
    have := congrArg (· % B) h
    simpa [Nat.add_mul_mod_self_left, Nat.mod_eq_of_lt hp,
      Nat.mod_eq_of_lt hq] using this
  refine ⟨h1, ?_⟩
  subst h1
  have hB : 0 < B := Nat.pos_of_ne_zero (by omega)
  exact Nat.eq_of_mul_eq_mul_left hB (by omega)

theorem child_pos_determines {h d p i : Nat} (hd : d ≤ 5) (hp : p < 2 ^ (5 * d))
    (hh : h % 2 ^ (5 * (d + 1)) = p + 2 ^ (5 * d) * i) :
    index h d = i ∧ h % 2 ^ (5 * d) = p := by
  rw [mod_pow_five_succ hd] at hh
  have := offset_decomp hp (Nat.mod_lt _ (Nat.pos_pow_of_pos _ (by norm_num)))
    hh.symm
  exact ⟨this.2.symm, this.1.symm⟩

theorem lor_shiftLeft_eq_add {p b s : Nat} (hp : p < 2 ^ s) :
    p ||| (b <<< s) = 2 ^ s * b + p := by
  apply Nat.eq_of_testBit_eq
  intro j
  rw [Nat.testBit_mul_pow_two_add _ hp j]
  simp only [Nat.testBit_lor, Nat.testBit_shiftLeft, ge_iff_le]
  by_cases hj : j < s
  · simp [hj, Nat.not_le.mpr hj]
  · simp only [if_neg hj]
    rw [Nat.testBit_lt_two_pow (Nat.lt_of_lt_of_le hp
      (Nat.pow_le_pow_right (by norm_num) (Nat.not_lt.mp hj)))]
    simp [Nat.not_lt.mp hj]

theorem buildHashPath_eq {p i d : Nat} (hp : p < 2 ^ (5 * d)) (hi : i < 32)
    (hd : d ≤ 5) : buildHashPath p i d = p + 2 ^ (5 * d) * i := by
  have hs : d * NBITS32 = 5 * d := by simp only [NBITS32]; omega
  have hnw : (i <<< (d * NBITS32)) % 2 ^ 32 = i <<< (d * NBITS32) := by
    apply Nat.mod_eq_of_lt
    rw [Nat.shiftLeft_eq, hs]
    calc i * 2 ^ (5 * d) ≤ 31 * 2 ^ 25 := by
          apply Nat.mul_le_mul (by omega)
          exact Nat.pow_le_pow_right (by norm_num) (by omega)
      _ < 2 ^ 32 := by norm_num
  rw [buildHashPath, hnw, hs, lor_shiftLeft_eq_add hp]
  omega

theorem buildHashPath_mod {h d : Nat} (hd : d ≤ 5) :
    buildHashPath (h % 2 ^ (5 * d)) (index h d) d = h % 2 ^ (5 * (d + 1)) := by
  rw [buildHashPath_eq (Nat.mod_lt _ (Nat.pos_pow_of_pos _ (by norm_num)))
    (index_lt hd) hd, mod_pow_five_succ hd]

theorem digits_inj : ∀ n a b, a < 32 ^ n → b < 32 ^ n →
    (∀ d, d < n → a / 32 ^ d % 32 = b / 32 ^ d % 32) → a = b := by
  intro n
  induction n with
  | zero => intro a b ha hb _; omega
  | succ n ih =>
    intro a b ha hb hdig
    have h0 : a % 32 = b % 32 := by simpa using hdig 0 (Nat.succ_pos n)
    have hrec : a / 32 = b / 32 := by
      apply ih
      · exact Nat.div_lt_of_lt_mul (by rw [Nat.pow_succ] at ha; omega)
      · exact Nat.div_lt_of_lt_mul (by rw [Nat.pow_succ] at hb; omega)
      · intro d hd
        have := hdig (d + 1) (Nat.succ_lt_succ hd)
        rwa [Nat.pow_succ, Nat.mul_comm (32 ^ d) 32, ← Nat.div_div_eq_div_mul,
          ← Nat.div_div_eq_div_mul] at this
    omega

theorem eq_of_index_eq {a b : Nat} (ha : a < 2 ^ 30) (hb : b < 2 ^ 30)
    (h : ∀ d, d ≤ 5 → index a d = index b d) : a = b := by
  have h32 : (32 : Nat) ^ 6 = 2 ^ 30 := by norm_num
  apply digits_inj 6 a b (h32 ▸ ha) (h32 ▸ hb)
  intro d hd
  have := h d (by omega)
  rwa [index_eq (by omega), index_eq (by omega),
    show (2 : Nat) ^ (5 * d) = 32 ^ d by rw [Nat.pow_mul]] at this

theorem exists_index_ne {a b : Nat} (ha : a < 2 ^ 30) (hb : b < 2 ^ 30)
    (hne : a ≠ b) : ∃ d, d ≤ 5 ∧ index a d ≠ index b d := by
  by_contra hc
  push_neg at hc
  exact hne (eq_of_index_eq ha hb fun d hd => hc d hd)

end H32

namespace H32

/-- The ascending list of set bits of a 32-bit bitmap (proof-side view of the
bitmap/popcount indexing). -/
def slots (nm : Nat) : List Nat :=
  (List.range 32).filter fun i => nm.testBit i

theorem bitCount32_eq_length_slots (nm : Nat) :
    bitCount32 nm = (slots nm).length := rfl

theorem slots_nodup (nm : Nat) : (slots nm).Nodup :=
  (List.nodup_range 32).filter _

theorem mem_slots {nm i : Nat} : i ∈ slots nm ↔ nm.testBit i ∧ i < 32 := by
  simp [slots, List.mem_filter, List.mem_range, and_comm]

theorem shiftLeft_one_mod (i : Nat) :
    (1 <<< i) % 2 ^ 32 = if i < 32 then 2 ^ i else 0 := by
  rw [Nat.shiftLeft_eq, Nat.one_mul]
  split
  · exact Nat.mod_eq_of_lt (Nat.pow_lt_pow_right (by norm_num) (by omega))
  · exact (Nat.mod_eq_zero_of_dvd (pow_dvd_pow 2 (by omega)))

theorem shiftLeft_one_mod_of_lt {i : Nat} (hi : i < 32) :
    (1 <<< i) % 2 ^ 32 = 2 ^ i := by
  rw [shiftLeft_one_mod, if_pos hi]

theorem and_two_pow (nm i : Nat) :
    nm &&& 2 ^ i = if nm.testBit i then 2 ^ i else 0 := by
  apply Nat.eq_of_testBit_eq
  intro j
  simp only [Nat.testBit_land, Nat.testBit_two_pow]
  by_cases hij : i = j
  · subst hij
    cases h : nm.testBit i <;> simp [h, Nat.testBit_two_pow]
  · cases h : nm.testBit i <;>
      simp [hij, Nat.testBit_two_pow, Nat.zero_testBit, Bool.and_comm]

theorem and_two_pow_eq_zero_iff {nm i : Nat} :
    nm &&& 2 ^ i = 0 ↔ nm.testBit i = false := by
  rw [and_two_pow]
  cases h : nm.testBit i
  · simp
  · simp [Nat.pow_eq_zero]

theorem filter_range_below (p : Nat → Bool) {i n : Nat} (hi : i ≤ n) :
    ((List.range n).filter fun j => p j && decide (j < i)) =
      (List.range i).filter p := by
  obtain ⟨m, rfl⟩ := Nat.exists_eq_add_of_le hi
  rw [List.range_add, List.filter_append]
  have h1 : ((List.range i).filter fun j => p j && decide (j < i)) =
      (List.range i).filter p := by
    apply List.filter_congr
    intro j hj
    simp [List.mem_range.mp hj]
  have h2 : (((List.range m).map fun x => i + x).filter
      fun j => p j && decide (j < i)) = [] := by
    apply List.filter_eq_nil_iff.mpr
    intro j hj
    obtain ⟨x, _, rfl⟩ := List.mem_map.mp hj
    simp
  rw [h1, h2, List.append_nil]

theorem bitCount32_and_mask {nm i : Nat} (hi : i ≤ 32) :
    bitCount32 (nm &&& (2 ^ i - 1)) =
      ((List.range i).filter fun j => nm.testBit j).length := by
  rw [bitCount32]
  congr 1
  rw [← filter_range_below (fun j => nm.testBit j) hi]
  apply List.filter_congr
  intro j _
  simp [Nat.testBit_land, Nat.testBit_two_pow_sub_one, Bool.and_comm]

theorem range_split {i n : Nat} (hi : i < n) :
    List.range n = List.range i ++ i ::
      ((List.range (n - i - 1)).map fun x => i + 1 + x) := by
  obtain ⟨m, hm⟩ : ∃ m, n = i + (m + 1) := ⟨n - i - 1, by omega⟩
  subst hm
  have h1 : i + (m + 1) - i - 1 = m := by omega
  rw [List.range_add, List.range_succ_eq_map, h1]
  congr 1
  simp only [List.map_cons, Nat.add_zero, List.map_map]
  congr 1
  apply List.map_congr_left
  intro x _
  simp only [Function.comp_apply]
  omega

theorem slots_split {nm i : Nat} (hi : i < 32) (hbit : nm.testBit i = true) :
    ∃ high, slots nm =
        ((List.range i).filter fun j => nm.testBit j) ++ i :: high ∧
      ∀ j ∈ high, i < j := by
  refine ⟨((List.range (32 - i - 1)).map fun x => i + 1 + x).filter
    (fun j => nm.testBit j), ?_, ?_⟩
  · rw [slots, range_split hi, List.filter_append]
    congr 1
    show List.filter _ (i :: _) = _
    rw [List.filter_cons, if_pos hbit]
  · intro j hj
    obtain ⟨x, _, rfl⟩ := List.mem_map.mp (List.mem_of_mem_filter hj)
    omega

end H32

namespace H32

theorem length_filter_or_eq {l : List Nat} {p : Nat → Bool} {i : Nat}
    (hnd : l.Nodup) (hil : i ∈ l) (hpi : p i = false) :
    (l.filter fun j => p j || j == i).length = (l.filter p).length + 1 := by
  induction l with
  | nil => cases hil
  | cons a l ih =>
    rw [List.nodup_cons] at hnd
    rcases List.mem_cons.mp hil with rfl | hmem
    · have hcong : (l.filter fun j => p j || j == i) = l.filter p := by
        apply List.filter_congr
        intro j hj
        have hja : j ≠ i := fun h => hnd.1 (h ▸ hj)
        simp [hja]
      rw [List.filter_cons_of_pos (by simp), List.filter_cons_of_neg (by simp [hpi]),
        hcong, List.length_cons]
    · have hne : a ≠ i := fun h => hnd.1 (h ▸ hmem)
      have hq : (p a || a == i) = p a := by simp [hne]
      cases hpa : p a
      · rw [List.filter_cons_of_neg (by simp [hq, hpa, hne]),
          List.filter_cons_of_neg (by simp [hpa]), ih hnd.2 hmem]
      · rw [List.filter_cons_of_pos (by simp [hq, hpa]),
          List.filter_cons_of_pos hpa, List.length_cons, List.length_cons,
          ih hnd.2 hmem]

theorem length_filter_and_ne {l : List Nat} {p : Nat → Bool} {i : Nat}
    (hnd : l.Nodup) (hil : i ∈ l) (hpi : p i = true) :
    (l.filter fun j => p j && !(j == i)).length + 1 = (l.filter p).length := by
  induction l with
  | nil => cases hil
  | cons a l ih =>
    rw [List.nodup_cons] at hnd
    rcases List.mem_cons.mp hil with rfl | hmem
    · have hcong : (l.filter fun j => p j && !(j == i)) = l.filter p := by
        apply List.filter_congr
        intro j hj
        have hja : j ≠ i := fun h => hnd.1 (h ▸ hj)
        simp [hja]
      rw [List.filter_cons_of_neg (by simp), List.filter_cons_of_pos hpi,
        hcong, List.length_cons]
    · have hne : a ≠ i := fun h => hnd.1 (h ▸ hmem)
      cases hpa : p a
      · rw [List.filter_cons_of_neg (by simp [hpa]),
          List.filter_cons_of_neg (by simp [hpa]), ih hnd.2 hmem]
      · rw [List.filter_cons_of_pos (by simp [hpa, hne]),
          List.filter_cons_of_pos hpa, List.length_cons, List.length_cons,
          ← ih hnd.2 hmem]

end H32

namespace H32

theorem testBit_lor_two_pow (nm i j : Nat) :
    (nm ||| 2 ^ i).testBit j = (nm.testBit j || j == i) := by
  rw [Nat.testBit_lor, Nat.testBit_two_pow]
  cases hij : (j == i)
  · simp_all [Ne.symm]
  · simp_all

theorem bitCount32_lor {nm i : Nat} (hi : i < 32) (hb : nm.testBit i = false) :
    bitCount32 (nm ||| 2 ^ i) = bitCount32 nm + 1 := by
  unfold bitCount32
  rw [List.filter_congr (fun j _ => testBit_lor_two_pow nm i j)]
  exact length_filter_or_eq (List.nodup_range 32) (List.mem_range.mpr hi) hb

theorem lor_two_pow_mask_le {nm i q : Nat} (hq : q ≤ i) :
    (nm ||| 2 ^ i) &&& (2 ^ q - 1) = nm &&& (2 ^ q - 1) := by
  apply Nat.eq_of_testBit_eq
  intro j
  simp only [Nat.testBit_land, Nat.testBit_two_pow_sub_one, testBit_lor_two_pow]
  cases hjq : decide (j < q)
  · simp
  · have : j ≠ i := by
      have := of_decide_eq_true hjq
      omega
    simp [this]

theorem bitCount32_lor_mask_gt {nm i q : Nat} (hi : i < q) (hq : q ≤ 32)
    (hb : nm.testBit i = false) :
    bitCount32 ((nm ||| 2 ^ i) &&& (2 ^ q - 1)) =
      bitCount32 (nm &&& (2 ^ q - 1)) + 1 := by
  rw [bitCount32_and_mask hq, bitCount32_and_mask hq,
    List.filter_congr (fun j _ => testBit_lor_two_pow nm i j)]
  exact length_filter_or_eq ((List.nodup_range q))
    (List.mem_range.mpr hi) hb

theorem testBit_bitClear {nm i : Nat} (hi : i < 32) (j : Nat) :
    (bitClear32 nm (2 ^ i)).testBit j =
      (nm.testBit j && (decide (j < 32) && !(j == i))) := by
  have hmod : (2 ^ i) % 2 ^ 32 = 2 ^ i :=
    Nat.mod_eq_of_lt (Nat.pow_lt_pow_right (by norm_num) hi)
  rw [bitClear32, hmod, Nat.testBit_land, Nat.testBit_xor,
    Nat.testBit_two_pow_sub_one, Nat.testBit_two_pow]
  by_cases hj32 : j < 32
  · by_cases hij : i = j
    · simp [hij, hj32, Bool.xor_comm]
    · have hji : j ≠ i := fun h => hij h.symm
      simp [hij, hji, hj32, Bool.xor_comm]
  · have : i ≠ j := by omega
    simp [this, hj32]

theorem bitClear_testBit_self {nm i : Nat} (hi : i < 32) :
    (bitClear32 nm (2 ^ i)).testBit i = false := by
  rw [testBit_bitClear hi]; simp

theorem bitClear_mask_le {nm i q : Nat} (hi : i < 32) (hq : q ≤ i) :
    bitClear32 nm (2 ^ i) &&& (2 ^ q - 1) = nm &&& (2 ^ q - 1) := by
  apply Nat.eq_of_testBit_eq
  intro j
  simp only [Nat.testBit_land, Nat.testBit_two_pow_sub_one, testBit_bitClear hi]
  cases hjq : decide (j < q)
  · simp
  · have hlt := of_decide_eq_true hjq
    have h1 : j ≠ i := by omega
    have h2 : j < 32 := by omega
    simp [h1, h2]

theorem bitCount32_clear {nm i : Nat} (hi : i < 32)
    (hb : nm.testBit i = true) :
    bitCount32 (bitClear32 nm (2 ^ i)) + 1 = bitCount32 nm := by
  unfold bitCount32
  rw [List.filter_congr (fun j hj => ?_)]
  · exact length_filter_and_ne (List.nodup_range 32) (List.mem_range.mpr hi) hb
  · rw [testBit_bitClear hi j]
    have : j < 32 := List.mem_range.mp hj
    simp [this]

theorem bitCount32_clear_mask_gt {nm i q : Nat} (hi : i < q) (hq : q ≤ 32)
    (hb : nm.testBit i = true) :
    bitCount32 (bitClear32 nm (2 ^ i) &&& (2 ^ q - 1)) + 1 =
      bitCount32 (nm &&& (2 ^ q - 1)) := by
  rw [bitCount32_and_mask hq, bitCount32_and_mask hq,
    List.filter_congr (fun j hj => ?_)]
  · exact length_filter_and_ne (List.nodup_range q) (List.mem_range.mpr hi) hb
  · rw [testBit_bitClear (by omega) j]
    have : j < q := List.mem_range.mp hj
    have h2 : j < 32 := by omega
    simp [h2]

theorem bitClear_eq_zero {nm i : Nat} (hi : i < 32)
    (h : bitClear32 nm (2 ^ i) = 0) {j : Nat} (hj : j < 32) (hji : j ≠ i) :
    nm.testBit j = false := by
  have := congrArg (fun x => Nat.testBit x j) h
  simp only [testBit_bitClear hi, Nat.zero_testBit] at this
  simpa [hj, hji] using this

theorem bitCount32_le (nm : Nat) : bitCount32 nm ≤ 32 := by
  calc bitCount32 nm ≤ (List.range 32).length := List.length_filter_le _ _
    _ = 32 := List.length_range 32

theorem posBelow_lt {nm i : Nat} (hi : i < 32) (hb : nm.testBit i = true) :
    bitCount32 (nm &&& (2 ^ i - 1)) < bitCount32 nm := by
  obtain ⟨high, hsplit, -⟩ := slots_split hi hb
  rw [bitCount32_and_mask (by omega), bitCount32_eq_length_slots, hsplit]
  simp

theorem getElem?_insert_list {α : Type} (ns : List α) (x : α) {p : Nat}
    (q : Nat) (hp : p ≤ ns.length) :
    (ns.take p ++ x :: ns.drop p)[q]? =
      if q < p then ns[q]? else if q = p then some x else ns[q - 1]? := by
  have hlt : (ns.take p).length = p := by
    rw [List.length_take]; omega
  by_cases h1 : q < p
  · rw [List.getElem?_append_left (by omega), if_pos h1, List.getElem?_take]
    simp [h1]
  · rw [List.getElem?_append_right (by omega), if_neg h1, hlt]
    by_cases h2 : q = p
    · simp [h2]
    · have h3 : q - p = (q - p - 1) + 1 := by omega
      rw [if_neg h2, h3]
      simp only [List.getElem?_cons_succ, List.getElem?_drop]
      congr 1
      omega

end H32

namespace H32

theorem sorted_mem_ext : ∀ (l1 l2 : List Nat), l1.Sorted (· < ·) →
    l2.Sorted (· < ·) → (∀ x, x ∈ l1 ↔ x ∈ l2) → l1 = l2 := by
  intro l1
  induction l1 with
  | nil =>
    intro l2 _ _ hext
    cases l2 with
    | nil => rfl
    | cons b l2 => exact absurd ((hext b).mpr (List.mem_cons_self b l2)) (by simp)
  | cons a l1 ih =>
    intro l2 h1 h2 hext
    cases l2 with
    | nil => exact absurd ((hext a).mp (List.mem_cons_self a l1)) (by simp)
    | cons b l2 =>
      rw [List.sorted_cons] at h1 h2
      have hab : a = b := by
        rcases List.mem_cons.mp ((hext a).mp (List.mem_cons_self a l1)) with h | h
        · exact h
        · rcases List.mem_cons.mp ((hext b).mpr (List.mem_cons_self b l2)) with
            h' | h'
          · exact h'.symm
          · have := h1.1 b h'
            have := h2.1 a h
            omega
      subst hab
      congr 1
      apply ih l2 h1.2 h2.2
      intro x
      constructor
      · intro hx
        rcases List.mem_cons.mp ((hext x).mp (List.mem_cons.mpr (Or.inr hx)))
          with h | h
        · exact absurd (h ▸ h1.1 x hx) (by omega)
        · exact h
      · intro hx
        rcases List.mem_cons.mp ((hext x).mpr (List.mem_cons.mpr (Or.inr hx)))
          with h | h
        · exact absurd (h ▸ h2.1 x hx) (by omega)
        · exact h

theorem slots_sorted (nm : Nat) : (slots nm).Sorted (· < ·) :=
  (List.sorted_lt_range 32).filter _

theorem orBits_testBit (es : List (Nat × Node)) (j : Nat) :
    (orBits es).testBit j =
      (decide (j < 32) && es.any fun e => e.1 == j) := by
  suffices h : ∀ acc, ((es.foldl (fun m e => m ||| ((1 <<< e.1) % 2 ^ 32)) acc
      ).testBit j) = (acc.testBit j ||
        (decide (j < 32) && es.any fun e => e.1 == j)) by
    rw [orBits, h 0]
    simp
  induction es with
  | nil => intro acc; simp
  | cons e es ih =>
    intro acc
    have hbit : ∀ x : Nat, ((1 <<< x) % 2 ^ 32).testBit j =
        (decide (j < 32) && (x == j)) := by
      intro x
      rw [shiftLeft_one_mod]
      by_cases he32 : x < 32
      · rw [if_pos he32, Nat.testBit_two_pow]
        by_cases hej : x = j
        · subst hej; simp [he32]
        · simp [hej]
      · rw [if_neg he32, Nat.zero_testBit]
        by_cases hej : x = j
        · subst hej; simp [he32]
        · simp [hej]
    rw [List.foldl_cons, ih, Nat.testBit_lor, hbit, List.any_cons]
    cases acc.testBit j <;> cases hd : decide (j < 32) <;>
      simp [Bool.and_or_distrib_left, Bool.or_assoc]

theorem orBits_lt (es : List (Nat × Node)) : orBits es < 2 ^ 32 := by
  suffices h : ∀ acc, acc < 2 ^ 32 →
      es.foldl (fun m e => m ||| ((1 <<< e.1) % 2 ^ 32)) acc < 2 ^ 32 by
    exact h 0 (by norm_num)
  induction es with
  | nil => intro acc hacc; simpa using hacc
  | cons e es ih =>
    intro acc hacc
    rw [List.foldl_cons]
    exact ih _ (Nat.or_lt_two_pow hacc (Nat.mod_lt _ (by norm_num)))

theorem slots_orBits {es : List (Nat × Node)}
    (hsort : (es.map Prod.fst).Sorted (· < ·)) (hlt : ∀ e ∈ es, e.1 < 32) :
    slots (orBits es) = es.map Prod.fst := by
  apply sorted_mem_ext _ _ (slots_sorted _) hsort
  intro x
  rw [mem_slots, orBits_testBit]
  constructor
  · rintro ⟨h1, h2⟩
    simp only [h2, decide_True, Bool.true_and, List.any_eq_true] at h1
    obtain ⟨e, he, hex⟩ := h1
    exact List.mem_map.mpr ⟨e, he, by simpa using hex⟩
  · intro hx
    obtain ⟨e, he, rfl⟩ := List.mem_map.mp hx
    refine ⟨?_, hlt e he⟩
    simp only [hlt e he, decide_True, Bool.true_and, List.any_eq_true]
    exact ⟨e, he, by simp⟩

end H32

namespace H32

theorem ctGet_eq_none {nm : Nat} {ns : List Node} {i : Nat} (hi : i < 32)
    (hb : nm.testBit i = false) : ctGet nm ns i = none := by
  rw [ctGet]
  simp only [shiftLeft_one_mod_of_lt hi]
  rw [if_pos (and_two_pow_eq_zero_iff.mpr hb)]

theorem ctGet_eq_pos {nm : Nat} {ns : List Node} {i : Nat} (hi : i < 32)
    (hb : nm.testBit i = true) :
    ctGet nm ns i = ns[bitCount32 (nm &&& (2 ^ i - 1))]? := by
  rw [ctGet]
  simp only [shiftLeft_one_mod_of_lt hi]
  rw [if_neg fun h => by rw [and_two_pow_eq_zero_iff, hb] at h; cases h]

theorem ctGet_entries {es : List (Nat × Node)}
    (hsort : (es.map Prod.fst).Sorted (· < ·)) (hlt : ∀ e ∈ es, e.1 < 32)
    {j : Nat} (hj : j < 32) :
    ctGet (orBits es) (es.map (·.2)) j =
      (es.find? fun e => e.1 == j).map (·.2) := by
  by_cases hmem : j ∈ es.map Prod.fst
  · obtain ⟨K1, K2, hK⟩ := List.append_of_mem hmem
    obtain ⟨E1, E2', hes, hm1, hm2⟩ := List.map_eq_append_iff.mp hK
    obtain ⟨a, E2, he2, ha, hm3⟩ := List.map_eq_cons_iff.mp hm2
    subst hes he2 hm1 hm3 ha
    have hsort' : (E1.map Prod.fst ++ a.1 :: E2.map Prod.fst).Sorted (· < ·) := by
      simpa using hsort
    have hK1lt : ∀ x ∈ E1.map Prod.fst, x < a.1 := fun x hx =>
      (List.pairwise_append.mp hsort').2.2 x hx a.1 (List.mem_cons_self _ _)
    have hK2gt : ∀ x ∈ E2.map Prod.fst, a.1 < x := fun x hx =>
      (List.pairwise_cons.mp (List.pairwise_append.mp hsort').2.1).1 x hx
    have hb : (orBits (E1 ++ a :: E2)).testBit a.1 = true := by
      rw [orBits_testBit]
      simp only [hj, decide_True, Bool.true_and, List.any_eq_true]
      exact ⟨a, by simp, by simp⟩
    have hpos : bitCount32 (orBits (E1 ++ a :: E2) &&& (2 ^ a.1 - 1)) =
        E1.length := by
      rw [bitCount32_and_mask (by omega)]
      have hfil : ((List.range a.1).filter fun x =>
          (orBits (E1 ++ a :: E2)).testBit x) = E1.map Prod.fst := by
        apply sorted_mem_ext _ _ ((List.sorted_lt_range a.1).filter _)
          (List.pairwise_append.mp hsort').1
        intro x
        rw [List.mem_filter, List.mem_range, orBits_testBit]
        constructor
        · rintro ⟨hxj, hx⟩
          obtain ⟨e, he, hex⟩ := List.any_eq_true.mp (by
            cases hx' : List.any (E1 ++ a :: E2) fun e => e.1 == x
            · rw [hx'] at hx; simp at hx
            · rfl)
          have hex' : e.1 = x := by simpa using hex
          rcases List.mem_append.mp he with h1 | h1
          · exact List.mem_map.mpr ⟨e, h1, hex'⟩
          · rcases List.mem_cons.mp h1 with rfl | h2
            · omega
            · have := hK2gt e.1 (List.mem_map.mpr ⟨e, h2, rfl⟩)
              omega
        · intro hx
          obtain ⟨e, he, rfl⟩ := List.mem_map.mp hx
          refine ⟨hK1lt e.1 hx, ?_⟩
          have he32 : e.1 < 32 := hlt e (by simp [he])
          simp only [he32, decide_True, Bool.true_and, List.any_eq_true]
          exact ⟨e, by simp [he], by simp⟩
      rw [hfil, List.length_map]
    rw [ctGet_eq_pos hj hb, hpos]
    have hL : ((E1 ++ a :: E2).map fun e => e.2) =
        (E1.map fun e => e.2) ++ a.2 :: (E2.map fun e => e.2) := by simp
    rw [hL, List.getElem?_append_right (by simp), List.length_map,
      Nat.sub_self, List.getElem?_cons_zero]
    have hfind : (E1 ++ a :: E2).find? (fun e => e.1 == a.1) = some a := by
      rw [List.find?_append]
      have h1 : E1.find? (fun e => e.1 == a.1) = none :=
        List.find?_eq_none.mpr fun e he hex => by
          have := hK1lt e.1 (List.mem_map.mpr ⟨e, he, rfl⟩)
          have : e.1 = a.1 := by simpa using hex
          omega
      rw [h1, Option.none_or]
      exact List.find?_cons_of_pos _ (by simp)
    rw [hfind, Option.map_some']
  · have hnone : (es.find? fun e => e.1 == j) = none :=
      List.find?_eq_none.mpr fun e he hex =>
        hmem (List.mem_map.mpr ⟨e, he, by simpa using hex⟩)
    have hb : (orBits es).testBit j = false := by
      rw [orBits_testBit]
      cases hany : es.any fun e => e.1 == j
      · simp
      · obtain ⟨e, he, hex⟩ := List.any_eq_true.mp hany
        exact absurd (List.mem_map.mpr ⟨e, he, by simpa using hex⟩) hmem
    rw [ctGet_eq_none hj hb, hnone, Option.map_none']

end H32

namespace H32

theorem slots_length_le {nm ns : Nat} (hlen : ns = bitCount32 nm) :
    (slots nm).length = ns := by rw [hlen, bitCount32_eq_length_slots]

theorem ctEntries_map_fst {nm : Nat} {ns : List Node}
    (hlen : ns.length = bitCount32 nm) :
    (ctEntries nm ns).map Prod.fst = slots nm := by
  apply List.map_fst_zip
  exact le_of_eq hlen.symm

theorem ctEntries_map_snd {nm : Nat} {ns : List Node}
    (hlen : ns.length = bitCount32 nm) :
    (ctEntries nm ns).map (fun e => e.2) = ns := by
  apply List.map_snd_zip
  exact le_of_eq hlen

theorem ctEntries_fst_lt {nm : Nat} {ns : List Node} {e : Nat × Node}
    (he : e ∈ ctEntries nm ns) : e.1 < 32 := by
  have := List.of_mem_zip he
  exact (mem_slots.mp this.1).2

theorem eq_of_slots_eq {a b : Nat} (ha : a < 2 ^ 32) (hb : b < 2 ^ 32)
    (h : ∀ j, j < 32 → a.testBit j = b.testBit j) : a = b := by
  apply Nat.eq_of_testBit_eq
  intro j
  by_cases hj : j < 32
  · exact h j hj
  · rw [Nat.testBit_lt_two_pow, Nat.testBit_lt_two_pow]
    · exact Nat.lt_of_lt_of_le hb (Nat.pow_le_pow_right (by norm_num) (by omega))
    · exact Nat.lt_of_lt_of_le ha (Nat.pow_le_pow_right (by norm_num) (by omega))

theorem orBits_ctEntries {nm : Nat} {ns : List Node}
    (hlen : ns.length = bitCount32 nm) (hnm : nm < 2 ^ 32) :
    orBits (ctEntries nm ns) = nm := by
  apply eq_of_slots_eq (orBits_lt _) hnm
  intro j hj
  rw [orBits_testBit]
  simp only [hj, decide_True, Bool.true_and]
  cases hb : nm.testBit j
  · cases hany : (ctEntries nm ns).any fun e => e.1 == j
    · rfl
    · obtain ⟨e, he, hex⟩ := List.any_eq_true.mp hany
      have : e.1 ∈ slots nm := (List.of_mem_zip he).1
      have hbt := (mem_slots.mp this).1
      rw [show e.1 = j from by simpa using hex] at hbt
      rw [hbt] at hb; cases hb
  · simp only [List.any_eq_true]
    have hjs : j ∈ slots nm := mem_slots.mpr ⟨hb, hj⟩
    rw [← ctEntries_map_fst hlen] at hjs
    obtain ⟨e, he, rfl⟩ := List.mem_map.mp hjs
    exact ⟨e, he, by simp⟩

theorem find_ctEntries {nm : Nat} {ns : List Node}
    (hlen : ns.length = bitCount32 nm) (hnm : nm < 2 ^ 32) {j : Nat}
    (hj : j < 32) :
    ((ctEntries nm ns).find? fun e => e.1 == j).map (fun e => e.2) =
      ctGet nm ns j := by
  have hsort : ((ctEntries nm ns).map Prod.fst).Sorted (· < ·) := by
    rw [ctEntries_map_fst hlen]; exact slots_sorted nm
  have h := ctGet_entries hsort (fun e he => ctEntries_fst_lt he) hj
  rw [orBits_ctEntries hlen hnm, ctEntries_map_snd hlen] at h
  exact h.symm

theorem getElem?_range_map {α : Type} (f : Nat → α) {j n : Nat} (hj : j < n) :
    ((List.range n).map f)[j]? = some (f j) := by
  rw [List.getElem?_map, List.getElem?_range hj, Option.map_some']

theorem tGet_upgrade {hp : Nat} {ents : List (Nat × Node)} {j : Nat}
    (hj : j < 32) :
    tGet (upgradeToFullTable hp ents) j =
      (ents.find? fun e => e.1 == j).map (fun e => e.2) := by
  rw [upgradeToFullTable, tGet, ftGet, getElem?_range_map _ hj]
  rfl

theorem tGet_upgrade_ctEntries {hp nm : Nat} {ns : List Node}
    (hlen : ns.length = bitCount32 nm) (hnm : nm < 2 ^ 32) {j : Nat}
    (hj : j < 32) :
    tGet (upgradeToFullTable hp (ctEntries nm ns)) j = ctGet nm ns j := by
  rw [tGet_upgrade hj, find_ctEntries hlen hnm hj]

end H32

namespace H32

theorem find?_filterMap_keyed (g : Nat → Option Node) {j : Nat} :
    ∀ l : List Nat, l.Nodup → j ∈ l →
      ((l.filterMap fun i => (g i).map fun c => (i, c)).find?
        fun e => e.1 == j) = (g j).map fun c => (j, c) := by
  intro l
  induction l with
  | nil => intro _ h; cases h
  | cons a l ih =>
    intro hnd hmem
    rw [List.nodup_cons] at hnd
    rw [List.filterMap_cons]
    rcases List.mem_cons.mp hmem with rfl | hm
    · cases hg : g j
      · simp only [Option.map_none']
        have : ((l.filterMap fun i => (g i).map fun c => (i, c)).find?
            fun e => e.1 == j) = none := by
          apply List.find?_eq_none.mpr
          intro e he hex
          obtain ⟨i, hi, hgi⟩ := List.mem_filterMap.mp he
          obtain ⟨c, -, rfl, -⟩ : ∃ c, g i = some c ∧ e.1 = i ∧ e.2 = c := by
            cases hgc : g i
            · rw [hgc] at hgi; cases hgi
            · rw [hgc] at hgi
              exact ⟨_, rfl, by cases hgi; exact ⟨rfl, rfl⟩⟩
          have : e.1 = j := by simpa using hex
          exact hnd.1 (this ▸ hi)
        rw [this]
      · simp only [Option.map_some']
        exact List.find?_cons_of_pos _ (by simp)
    · have hne : a ≠ j := fun h => hnd.1 (h ▸ hm)
      cases hg : g a
      · simp only [Option.map_none']
        exact ih hnd.2 hm
      · simp only [Option.map_some']
        rw [List.find?_cons_of_neg _ (by simp [hne])]
        exact ih hnd.2 hm

theorem find_ftEntries {ns : List (Option Node)} {j : Nat} (hj : j < 32) :
    ((ftEntries ns).find? fun e => e.1 == j) =
      ((ns[j]?).join).map fun c => (j, c) := by
  rw [ftEntries]
  exact find?_filterMap_keyed (fun i => (ns[i]?).join) (List.range 32)
    (List.nodup_range 32) (List.mem_range.mpr hj)

theorem ftEntries_map_fst (ns : List (Option Node)) :
    (ftEntries ns).map Prod.fst =
      (List.range 32).filter fun i => ((ns[i]?).join).isSome := by
  rw [ftEntries]
  induction (List.range 32) with
  | nil => rfl
  | cons a l ih =>
    rw [List.filterMap_cons, List.filter_cons]
    cases hg : (ns[a]?).join
    · simp only [Option.map_none', hg, Option.isSome_none, Bool.false_eq_true,
        if_neg, not_false_eq_true]
      exact ih
    · simp only [Option.map_some', hg, Option.isSome_some, if_pos,
        List.map_cons]
      rw [ih]

theorem ftEntries_fst_lt {ns : List (Option Node)} {e : Nat × Node}
    (he : e ∈ ftEntries ns) : e.1 < 32 := by
  obtain ⟨i, hi, hgi⟩ := List.mem_filterMap.mp he
  cases hgc : (ns[i]?).join
  · rw [hgc] at hgi; cases hgi
  · rw [hgc] at hgi; cases hgi; exact List.mem_range.mp hi

theorem ftEntries_sorted (ns : List (Option Node)) :
    ((ftEntries ns).map Prod.fst).Sorted (· < ·) := by
  rw [ftEntries_map_fst]
  exact (List.sorted_lt_range 32).filter _

theorem tGet_downgrade_ftEntries {hp : Nat} {ns : List (Option Node)}
    {j : Nat} (hj : j < 32) :
    tGet (downgradeToCompressedTable hp (ftEntries ns)) j = ftGet ns j := by
  rw [downgradeToCompressedTable, tGet]
  rw [ctGet_entries (ftEntries_sorted ns) (fun e he => ftEntries_fst_lt he) hj]
  rw [find_ftEntries hj, ftGet]
  cases (ns[j]?).join <;> rfl

theorem downgrade_length {ns : List (Option Node)} :
    (ftEntries ns).length = bitCount32 (orBits (ftEntries ns)) := by
  rw [bitCount32_eq_length_slots,
    slots_orBits (ftEntries_sorted ns) (fun e he => ftEntries_fst_lt he),
    List.length_map]

end H32


namespace H32

theorem posBelow_mono {nm i j : Nat} (hij : i ≤ j) (hj : j ≤ 32) :
    bitCount32 (nm &&& (2 ^ i - 1)) ≤ bitCount32 (nm &&& (2 ^ j - 1)) := by
  rw [bitCount32_and_mask (by omega), bitCount32_and_mask hj]
  exact ((List.range_sublist.mpr hij).filter _).length_le

theorem posBelow_strict {nm i j : Nat} (hb : nm.testBit i = true)
    (hij : i < j) (hj : j ≤ 32) :
    bitCount32 (nm &&& (2 ^ i - 1)) < bitCount32 (nm &&& (2 ^ j - 1)) := by
  rw [bitCount32_and_mask (by omega), bitCount32_and_mask hj,
    range_split (show i < j by omega), List.filter_append,
    List.filter_cons_of_pos hb, List.length_append, List.length_cons]
  omega

theorem posBelow_le_total {nm i : Nat} (hnm : nm < 2 ^ 32) (hi : i ≤ 32) :
    bitCount32 (nm &&& (2 ^ i - 1)) ≤ bitCount32 nm := by
  rw [bitCount32_and_mask hi, bitCount32]
  exact ((List.range_sublist.mpr hi).filter _).length_le

end H32

namespace H32

theorem ctGet_insert_char {nm : Nat} {ns : List Node} (hnm : nm < 2 ^ 32)
    (hlen : ns.length = bitCount32 nm) {i : Nat} (hi : i < 32)
    (hb : nm.testBit i = false) (n : Node) {j : Nat} (hj : j < 32) :
    ctGet (nm ||| 2 ^ i)
        (ns.take (bitCount32 (nm &&& (2 ^ i - 1))) ++ n ::
          ns.drop (bitCount32 (nm &&& (2 ^ i - 1)))) j =
      if j = i then some n else ctGet nm ns j := by
  set pos := bitCount32 (nm &&& (2 ^ i - 1)) with hpos
  have hposle : pos ≤ ns.length := by
    rw [hlen]; exact posBelow_le_total hnm (by omega)
  by_cases hji : j = i
  · subst hji
    have hb' : (nm ||| 2 ^ j).testBit j = true := by
      rw [testBit_lor_two_pow]; simp
    rw [ctGet_eq_pos hj hb', if_pos rfl, lor_two_pow_mask_le (le_refl j),
      getElem?_insert_list _ _ _ hposle, if_neg (by omega), if_pos rfl]
  · rw [if_neg hji]
    have hbj : (nm ||| 2 ^ i).testBit j = nm.testBit j := by
      rw [testBit_lor_two_pow]
      have : ¬(j == i) = true := by simp [hji]
      simp [this]
    cases hbnmj : nm.testBit j
    · rw [ctGet_eq_none hj (hbj.trans hbnmj), ctGet_eq_none hj hbnmj]
    · rw [ctGet_eq_pos hj (hbj.trans hbnmj), ctGet_eq_pos hj hbnmj]
      rcases Nat.lt_or_ge j i with hlt | hge
      · rw [lor_two_pow_mask_le (by omega), getElem?_insert_list _ _ _ hposle,
          if_pos]
        exact posBelow_strict hbnmj hlt (by omega)
      · have hgt : i < j := by omega
        rw [bitCount32_lor_mask_gt hgt (by omega) hb,
          getElem?_insert_list _ _ _ hposle]
        have hge2 : pos ≤ bitCount32 (nm &&& (2 ^ j - 1)) :=
          posBelow_mono (by omega) (by omega)
        rw [if_neg (by omega), if_neg (by omega)]
        simp

theorem ctGet_remove_char {nm : Nat} {ns : List Node} (hnm : nm < 2 ^ 32)
    (hlen : ns.length = bitCount32 nm) {i : Nat} (hi : i < 32)
    (hb : nm.testBit i = true) {j : Nat} (hj : j < 32) :
    ctGet (bitClear32 nm (2 ^ i))
        (ns.take (bitCount32 (nm &&& (2 ^ i - 1))) ++
          ns.drop (bitCount32 (nm &&& (2 ^ i - 1)) + 1)) j =
      if j = i then none else ctGet nm ns j := by
  set pos := bitCount32 (nm &&& (2 ^ i - 1)) with hpos
  have hposlt : pos < ns.length := by rw [hlen]; exact posBelow_lt hi hb
  have herase : ns.take pos ++ ns.drop (pos + 1) = ns.eraseIdx pos :=
    (List.eraseIdx_eq_take_drop_succ ns pos).symm
  rw [herase]
  by_cases hji : j = i
  · subst hji
    rw [ctGet_eq_none hj (bitClear_testBit_self hj), if_pos rfl]
  · rw [if_neg hji]
    have hbj : (bitClear32 nm (2 ^ i)).testBit j = nm.testBit j := by
      rw [testBit_bitClear hi]
      have : ¬(j == i) = true := by simp [hji]
      simp [hj, this]
    cases hbnmj : nm.testBit j
    · rw [ctGet_eq_none hj (hbj.trans hbnmj), ctGet_eq_none hj hbnmj]
    · rw [ctGet_eq_pos hj (hbj.trans hbnmj), ctGet_eq_pos hj hbnmj,
        List.getElem?_eraseIdx]
      rcases Nat.lt_or_ge j i with hlt | hge
      · rw [bitClear_mask_le hi (by omega),
          if_pos (posBelow_strict hbnmj hlt (by omega))]
      · have hgt : i < j := by omega
        have hshift := bitCount32_clear_mask_gt hgt (by omega) hb
        have hstrict : pos < bitCount32 (nm &&& (2 ^ j - 1)) :=
          posBelow_strict hb hgt (by omega)
        rw [if_neg (by omega), hshift]

theorem ctGet_replace_char {nm : Nat} {ns : List Node} (hnm : nm < 2 ^ 32)
    (hlen : ns.length = bitCount32 nm) {i : Nat} (hi : i < 32)
    (hb : nm.testBit i = true) (n : Node) {j : Nat} (hj : j < 32) :
    ctGet nm (ns.set (bitCount32 (nm &&& (2 ^ i - 1))) n) j =
      if j = i then some n else ctGet nm ns j := by
  set pos := bitCount32 (nm &&& (2 ^ i - 1)) with hpos
  have hposlt : pos < ns.length := by rw [hlen]; exact posBelow_lt hi hb
  by_cases hji : j = i
  · subst hji
    rw [ctGet_eq_pos hj hb, if_pos rfl, List.getElem?_set, if_pos rfl,
      if_pos hposlt]
  · rw [if_neg hji]
    cases hbnmj : nm.testBit j
    · rw [ctGet_eq_none hj hbnmj, ctGet_eq_none hj hbnmj]
    · rw [ctGet_eq_pos hj hbnmj, ctGet_eq_pos hj hbnmj, List.getElem?_set]
      have hne : pos ≠ bitCount32 (nm &&& (2 ^ j - 1)) := by
        rcases Nat.lt_or_ge j i with hlt | hge
        · exact Nat.ne_of_gt (posBelow_strict hbnmj hlt (by omega))
        · exact Nat.ne_of_lt (posBelow_strict hb (by omega) (by omega))
      rw [if_neg hne]

end H32

namespace H32

theorem ctGet_isSome {nm : Nat} {ns : List Node} (hlen : ns.length = bitCount32 nm)
    {j : Nat} (hj : j < 32) : (ctGet nm ns j).isSome = nm.testBit j := by
  cases hb : nm.testBit j
  · rw [ctGet_eq_none hj hb]; rfl
  · rw [ctGet_eq_pos hj hb,
      List.getElem?_eq_getElem (by rw [hlen]; exact posBelow_lt hj hb)]
    rfl

theorem ctSet_eq_insert {hp nm : Nat} {ns : List Node} {i : Nat} (hi : i < 32)
    (hb : nm.testBit i = false) (n : Node) :
    ctSet hp nm ns i (some n) =
      (if 16 ≤ bitCount32 (nm ||| 2 ^ i) then
        some (upgradeToFullTable hp (ctEntries (nm ||| 2 ^ i)
          (ns.take (bitCount32 (nm &&& (2 ^ i - 1))) ++ n ::
            ns.drop (bitCount32 (nm &&& (2 ^ i - 1))))))
      else some (.compressedTable hp (nm ||| 2 ^ i)
        (ns.take (bitCount32 (nm &&& (2 ^ i - 1))) ++ n ::
          ns.drop (bitCount32 (nm &&& (2 ^ i - 1)))))) := by
  rw [ctSet]
  simp only [shiftLeft_one_mod_of_lt hi]
  rw [if_pos (and_two_pow_eq_zero_iff.mpr hb)]
  rfl

theorem ctSet_eq_replace {hp nm : Nat} {ns : List Node} {i : Nat} (hi : i < 32)
    (hb : nm.testBit i = true) (n : Node) :
    ctSet hp nm ns i (some n) =
      some (.compressedTable hp nm
        (ns.set (bitCount32 (nm &&& (2 ^ i - 1))) n)) := by
  rw [ctSet]
  simp only [shiftLeft_one_mod_of_lt hi]
  rw [if_neg fun h => by rw [and_two_pow_eq_zero_iff, hb] at h; cases h]

theorem ctSet_eq_remove {hp nm : Nat} {ns : List Node} {i : Nat} (hi : i < 32)
    (hb : nm.testBit i = true) :
    ctSet hp nm ns i none =
      (if bitClear32 nm (2 ^ i) = 0 then none
       else some (.compressedTable hp (bitClear32 nm (2 ^ i))
         (ns.take (bitCount32 (nm &&& (2 ^ i - 1))) ++
           ns.drop (bitCount32 (nm &&& (2 ^ i - 1)) + 1)))) := by
  rw [ctSet]
  simp only [shiftLeft_one_mod_of_lt hi]
  rw [if_pos (show nm &&& 2 ^ i ≠ 0 from
    fun h => by rw [and_two_pow_eq_zero_iff, hb] at h; cases h)]

theorem ctSet_eq_noop {hp nm : Nat} {ns : List Node} {i : Nat} (hi : i < 32)
    (hb : nm.testBit i = false) :
    ctSet hp nm ns i none = some (.compressedTable hp nm ns) := by
  rw [ctSet]
  simp only [shiftLeft_one_mod_of_lt hi]
  rw [if_neg fun h => h (and_two_pow_eq_zero_iff.mpr hb)]

end H32

namespace H32

theorem TblOK_upgrade {hp nm : Nat} {ns : List Node} (hnm : nm < 2 ^ 32)
    (hlen : ns.length = bitCount32 nm) :
    TblOK (upgradeToFullTable hp (ctEntries nm ns)) := by
  rw [upgradeToFullTable, TblOK]
  refine ⟨orBits_lt _, by rw [List.length_map, List.length_range], ?_⟩
  intro q hq
  rw [orBits_ctEntries hlen hnm]
  have h := @tGet_upgrade_ctEntries hp _ _ hlen hnm _ hq
  rw [upgradeToFullTable, tGet] at h
  rw [h, ctGet_isSome hlen hq]

theorem TblOK_downgrade {hp : Nat} {ns : List (Option Node)} :
    TblOK (downgradeToCompressedTable hp (ftEntries ns)) := by
  rw [downgradeToCompressedTable, TblOK]
  exact ⟨orBits_lt _, by rw [List.length_map, downgrade_length]⟩

theorem ftGet_set_self {ns : List (Option Node)} {i : Nat}
    (hi : i < ns.length) (x : Option Node) : ftGet (ns.set i x) i = x := by
  rw [ftGet, List.getElem?_set, if_pos rfl, if_pos hi]
  cases x <;> rfl

theorem ftGet_set_other {ns : List (Option Node)} {i j : Nat} (hji : i ≠ j)
    (x : Option Node) : ftGet (ns.set i x) j = ftGet ns j := by
  rw [ftGet, List.getElem?_set, if_neg hji, ftGet]

theorem ctGet_isSome_iff {nm : Nat} {ns : List Node}
    (hlen : ns.length = bitCount32 nm) {j : Nat} (hj : j < 32)
    (hb : nm.testBit j = false) : ctGet nm ns j = none :=
  ctGet_eq_none hj hb

theorem tSet_some_char {t : Node} (hok : TblOK t) {i : Nat} (hi : i < 32)
    {x : Option Node} {t' : Node} (hset : tSet t i x = some t') :
    t'.isLeaf = false ∧ t'.hashcode = t.hashcode ∧ TblOK t' ∧
      ∀ j, j < 32 → tGet t' j = if j = i then x else tGet t j := by
  cases t with
  | flatLeaf h k v => exact hok.elim
  | collisionLeaf h kvs => exact hok.elim
  | compressedTable hp nm ns =>
    obtain ⟨hnm, hlen⟩ := hok
    rw [tSet] at hset
    cases x with
    | some n =>
      cases hb : nm.testBit i
      · have hposle : bitCount32 (nm &&& (2 ^ i - 1)) ≤ ns.length := by
          rw [hlen]; exact posBelow_le_total hnm (by omega)
        have hlor := bitCount32_lor hi hb
        have hlen' : (ns.take (bitCount32 (nm &&& (2 ^ i - 1))) ++ n ::
            ns.drop (bitCount32 (nm &&& (2 ^ i - 1)))).length =
              bitCount32 (nm ||| 2 ^ i) := by
          rw [List.length_append, List.length_take, List.length_cons,
            List.length_drop, Nat.min_eq_left hposle]
          omega
        have hnm' : nm ||| 2 ^ i < 2 ^ 32 :=
          Nat.or_lt_two_pow hnm (Nat.pow_lt_pow_right (by norm_num) hi)
        by_cases hth : 16 ≤ bitCount32 (nm ||| 2 ^ i)
        · rw [ctSet_eq_insert hi hb n, if_pos hth] at hset
          cases hset
          refine ⟨rfl, rfl, TblOK_upgrade hnm' hlen', ?_⟩
          intro j hj
          rw [tGet_upgrade_ctEntries hlen' hnm' hj]
          exact ctGet_insert_char hnm hlen hi hb n hj
        · rw [ctSet_eq_insert hi hb n, if_neg hth] at hset
          cases hset
          refine ⟨rfl, rfl, ⟨hnm', hlen'⟩, ?_⟩
          intro j hj
          exact ctGet_insert_char hnm hlen hi hb n hj
      · rw [ctSet_eq_replace hi hb n] at hset
        cases hset
        refine ⟨rfl, rfl, ⟨hnm, by rw [List.length_set, hlen]⟩, ?_⟩
        intro j hj
        exact ctGet_replace_char hnm hlen hi hb n hj
    | none =>
      cases hb : nm.testBit i
      · rw [ctSet_eq_noop hi hb] at hset
        cases hset
        refine ⟨rfl, rfl, ⟨hnm, hlen⟩, ?_⟩
        intro j hj
        by_cases hji : j = i
        · subst hji
          rw [if_pos rfl]
          exact ctGet_eq_none hj hb
        · rw [if_neg hji]
      · by_cases hz : bitClear32 nm (2 ^ i) = 0
        · rw [ctSet_eq_remove hi hb, if_pos hz] at hset
          cases hset
        · rw [ctSet_eq_remove hi hb, if_neg hz] at hset
          cases hset
          have hposlt : bitCount32 (nm &&& (2 ^ i - 1)) < ns.length := by
            rw [hlen]; exact posBelow_lt hi hb
          have hc := bitCount32_clear hi hb
          refine ⟨rfl, rfl, ⟨?_, ?_⟩, ?_⟩
          · exact Nat.lt_of_le_of_lt Nat.and_le_left hnm
          · rw [List.length_append, List.length_take, List.length_drop,
              Nat.min_eq_left (Nat.le_of_lt hposlt)]
            omega
          · intro j hj
            exact ctGet_remove_char hnm hlen hi hb hj
  | fullTable hp nm ns =>
    obtain ⟨hnm, hlen32, hmir⟩ := hok
    rw [tSet] at hset
    cases x with
    | some n =>
      rw [ftSet] at hset
      cases hset
      refine ⟨rfl, rfl, ⟨?_, ?_, ?_⟩, ?_⟩
      · rw [shiftLeft_one_mod_of_lt hi]
        exact Nat.or_lt_two_pow hnm (Nat.pow_lt_pow_right (by norm_num) hi)
      · rw [List.length_set, hlen32]
      · intro q hq
        rw [shiftLeft_one_mod_of_lt hi, testBit_lor_two_pow]
        by_cases hqi : q = i
        · subst hqi
          rw [ftGet_set_self (by omega) (some n)]
          simp
        · have : ¬(q == i) = true := by simp [hqi]
          rw [ftGet_set_other (fun h => hqi h.symm) (some n)]
          simp only [this, Bool.or_false]
          exact hmir q hq
      · intro j hj
        by_cases hji : j = i
        · subst hji
          rw [if_pos rfl]
          exact ftGet_set_self (by omega) (some n)
        · rw [if_neg hji]
          exact ftGet_set_other (fun h => hji h.symm) (some n)
    | none =>
      rw [ftSet] at hset
      simp only [shiftLeft_one_mod_of_lt hi,
        show TABLE_CAPACITY / 2 = 16 from rfl] at hset
      by_cases hz : bitClear32 nm (2 ^ i) = 0
      · rw [if_pos hz] at hset
        cases hset
      · rw [if_neg hz] at hset
        by_cases hth : bitCount32 (bitClear32 nm (2 ^ i)) < 16
        · rw [if_pos hth] at hset
          cases hset
          refine ⟨rfl, rfl, TblOK_downgrade, ?_⟩
          intro j hj
          rw [tGet_downgrade_ftEntries hj]
          by_cases hji : j = i
          · subst hji
            rw [if_pos rfl]
            exact ftGet_set_self (by omega) none
          · rw [if_neg hji, ftGet_set_other (fun h => hji h.symm)]
            rfl
        · rw [if_neg hth] at hset
          cases hset
          refine ⟨rfl, rfl, ⟨?_, ?_, ?_⟩, ?_⟩
          · exact Nat.lt_of_le_of_lt Nat.and_le_left hnm
          · rw [List.length_set, hlen32]
          · intro q hq
            by_cases hqi : q = i
            · subst hqi
              rw [bitClear_testBit_self hq, ftGet_set_self (by omega) none]
              rfl
            · have hbe : (q == i) = false := by simp [hqi]
              rw [testBit_bitClear hi, hbe,
                ftGet_set_other (fun h => hqi h.symm)]
              simp only [show decide (q < 32) = true from by simp [hq],
                Bool.not_false, Bool.and_true, Bool.true_and]
              exact hmir q hq
          · intro j hj
            by_cases hji : j = i
            · subst hji
              rw [if_pos rfl]
              exact ftGet_set_self (by omega) none
            · rw [if_neg hji]
              exact ftGet_set_other (fun h => hji h.symm) none

theorem tSet_none_char {t : Node} (hok : TblOK t) {i : Nat} (hi : i < 32)
    {x : Option Node} (hset : tSet t i x = none) :
    x = none ∧ ∀ j, j < 32 → j ≠ i → tGet t j = none := by
  cases t with
  | flatLeaf h k v => exact hok.elim
  | collisionLeaf h kvs => exact hok.elim
  | compressedTable hp nm ns =>
    obtain ⟨hnm, hlen⟩ := hok
    rw [tSet] at hset
    cases x with
    | some n =>
      cases hb : nm.testBit i
      · by_cases hth : 16 ≤ bitCount32 (nm ||| 2 ^ i)
        · rw [ctSet_eq_insert hi hb n, if_pos hth] at hset; cases hset
        · rw [ctSet_eq_insert hi hb n, if_neg hth] at hset; cases hset
      · rw [ctSet_eq_replace hi hb n] at hset; cases hset
    | none =>
      cases hb : nm.testBit i
      · rw [ctSet_eq_noop hi hb] at hset; cases hset
      · by_cases hz : bitClear32 nm (2 ^ i) = 0
        · refine ⟨rfl, ?_⟩
          intro j hj hji
          exact ctGet_eq_none hj (bitClear_eq_zero hi hz hj hji)
        · rw [ctSet_eq_remove hi hb, if_neg hz] at hset; cases hset
  | fullTable hp nm ns =>
    obtain ⟨hnm, hlen32, hmir⟩ := hok
    rw [tSet] at hset
    cases x with
    | some n => rw [ftSet] at hset; cases hset
    | none =>
      rw [ftSet] at hset
      simp only [shiftLeft_one_mod_of_lt hi,
        show TABLE_CAPACITY / 2 = 16 from rfl] at hset
      by_cases hz : bitClear32 nm (2 ^ i) = 0
      · refine ⟨rfl, ?_⟩
        intro j hj hji
        show ftGet ns j = none
        rw [← Option.not_isSome_iff_eq_none, ← hmir j hj,
          bitClear_eq_zero hi hz hj hji]
        simp
      · rw [if_neg hz] at hset
        by_cases hth : bitCount32 (bitClear32 nm (2 ^ i)) < 16
        · rw [if_pos hth] at hset; cases hset
        · rw [if_neg hth] at hset; cases hset

end H32

namespace H32

theorem find?_map_replace (kvs : List (Key × Val)) (k : Key) (v : Val) :
    ((kvs.map fun kv => if kv.1 = k then (k, v) else kv).find?
        fun kv => kv.1 == k) =
      if (kvs.find? fun kv => kv.1 == k).isSome then some (k, v) else none := by
  induction kvs with
  | nil => rfl
  | cons a l ih =>
    rw [List.map_cons]
    by_cases ha : a.1 = k
    · rw [if_pos ha, List.find?_cons_of_pos _ (by simp),
        List.find?_cons_of_pos _ (by simp [ha])]
      rfl
    · rw [if_neg ha, List.find?_cons_of_neg _ (by simp [ha]),
        List.find?_cons_of_neg _ (by simp [ha]), ih]

theorem find?_map_replace_other (kvs : List (Key × Val)) (k : Key) (v : Val)
    {k' : Key} (hne : k' ≠ k) :
    ((kvs.map fun kv => if kv.1 = k then (k, v) else kv).find?
        fun kv => kv.1 == k') = kvs.find? fun kv => kv.1 == k' := by
  induction kvs with
  | nil => rfl
  | cons a l ih =>
    rw [List.map_cons]
    by_cases ha : a.1 = k
    · rw [if_pos ha, List.find?_cons_of_neg _ (by simp [Ne.symm hne]),
        List.find?_cons_of_neg _ (by simp [ha, Ne.symm hne]), ih]
    · by_cases ha' : a.1 = k'
      · rw [List.find?_cons_of_pos _ (by rw [if_neg ha]; simp [ha']),
          List.find?_cons_of_pos _ (by simp [ha']), if_neg ha]
      · rw [List.find?_cons_of_neg _ (by rw [if_neg ha]; simp [ha']),
          List.find?_cons_of_neg _ (by simp [ha']), ih]

theorem leafPut_isLeaf {l : Node} (hl : l.isLeaf = true) (k : Key) (v : Val) :
    (leafPut l k v).1.isLeaf = true := by
  cases l with
  | flatLeaf h lk lv => rw [leafPut]; split <;> rfl
  | collisionLeaf h kvs => rw [leafPut]; split <;> rfl
  | compressedTable hp nm ns => cases hl
  | fullTable hp nm ns => cases hl

theorem leafPut_hashcode {l : Node} (hl : l.isLeaf = true) (k : Key)
    (v : Val) : (leafPut l k v).1.hashcode = l.hashcode := by
  cases l with
  | flatLeaf h lk lv => rw [leafPut]; split <;> rfl
  | collisionLeaf h kvs => rw [leafPut]; split <;> rfl
  | compressedTable hp nm ns => cases hl
  | fullTable hp nm ns => cases hl

theorem leafPut_added {l : Node} (hl : l.isLeaf = true) (k : Key) (v : Val) :
    (leafPut l k v).2 = (leafGet l k).isNone := by
  cases l with
  | flatLeaf h lk lv =>
    rw [leafPut, leafGet]
    by_cases hk : lk = k
    · rw [if_pos hk, if_pos hk]; rfl
    · rw [if_neg hk, if_neg hk]; rfl
  | collisionLeaf h kvs =>
    cases hf : kvs.find? fun kv => kv.1 == k
    · rw [leafPut, if_neg (by simp [hf]), leafGet, hf]; rfl
    · rw [leafPut, if_pos (by simp [hf]), leafGet, hf]; rfl
  | compressedTable hp nm ns => cases hl
  | fullTable hp nm ns => cases hl

theorem leafGet_leafPut_same {l : Node} (hl : l.isLeaf = true) (k : Key)
    (v : Val) : leafGet (leafPut l k v).1 k = some v := by
  cases l with
  | flatLeaf h lk lv =>
    rw [leafPut]
    by_cases hk : lk = k
    · rw [if_pos hk, leafGet, if_pos rfl]
    · rw [if_neg hk, leafGet, List.find?_cons_of_neg _ (by simp [hk]),
        List.find?_cons_of_pos _ (by simp)]
      rfl
  | collisionLeaf h kvs =>
    cases hf : kvs.find? fun kv => kv.1 == k
    · rw [leafPut, if_neg (by simp [hf]), leafGet, List.find?_append, hf,
        Option.none_or, List.find?_cons_of_pos _ (by simp)]
      rfl
    · rw [leafPut, if_pos (by simp [hf]), leafGet, find?_map_replace, hf]
      rfl
  | compressedTable hp nm ns => cases hl
  | fullTable hp nm ns => cases hl

theorem leafGet_leafPut_other {l : Node} (hl : l.isLeaf = true) (k : Key)
    (v : Val) {k' : Key} (hne : k' ≠ k) :
    leafGet (leafPut l k v).1 k' = leafGet l k' := by
  cases l with
  | flatLeaf h lk lv =>
    rw [leafPut]
    by_cases hk : lk = k
    · subst hk
      rw [if_pos rfl, leafGet, leafGet, if_neg (Ne.symm hne),
        if_neg (Ne.symm hne)]
    · rw [if_neg hk, leafGet, leafGet]
      by_cases hk' : lk = k'
      · rw [List.find?_cons_of_pos _ (by simp [hk']), if_pos hk']
        rfl
      · rw [List.find?_cons_of_neg _ (by simp [hk']),
          List.find?_cons_of_neg _ (by simp [Ne.symm hne]), if_neg hk']
        rfl
  | collisionLeaf h kvs =>
    cases hf : kvs.find? fun kv => kv.1 == k
    · rw [leafPut, if_neg (by simp [hf]), leafGet, leafGet, List.find?_append,
        List.find?_cons_of_neg _ (by simp [Ne.symm hne])]
      cases kvs.find? fun kv => kv.1 == k' <;> rfl
    · rw [leafPut, if_pos (by simp [hf]), leafGet, leafGet,
        find?_map_replace_other kvs k v hne]
  | compressedTable hp nm ns => cases hl
  | fullTable hp nm ns => cases hl

end H32

namespace H32

theorem WfN_leaf_reposition {d1 p1 : Nat} {l : Node} (hw : WfN d1 p1 l)
    (hl : l.isLeaf = true) (d2 : Nat) :
    WfN d2 (l.hashcode % 2 ^ (5 * d2)) l := by
  cases hw with
  | flat hk hm => exact WfN.flat hk rfl
  | coll hlen hnd hh hm => exact WfN.coll hlen hnd hh rfl
  | comp => cases hl
  | full => cases hl

theorem WfN_leafPut {d p : Nat} {l : Node} (hw : WfN d p l)
    (hl : l.isLeaf = true) {k : Key} (v : Val) (hh : l.hashcode = Hash30 k) :
    WfN d p (leafPut l k v).1 := by
  cases hw with
  | @flat d p h lk lv hk hm =>
    rw [leafPut]
    by_cases hlk : lk = k
    · rw [if_pos hlk]
      exact WfN.flat (by rw [← hh]; rfl) hm
    · rw [if_neg hlk]
      refine WfN.coll (by simp) (by simp [hlk]) ?_ hm
      intro kv hkv
      rcases List.mem_cons.mp hkv with rfl | hkv2
      · exact hk.symm
      · rcases List.mem_cons.mp hkv2 with rfl | h3
        · exact hh.symm
        · cases h3
  | @coll d p h kvs hlen hnd hhs hm =>
    rw [leafPut]
    by_cases hf : (kvs.find? fun kv => kv.1 == k).isSome
    · rw [if_pos hf]
      refine WfN.coll (by rw [List.length_map]; exact hlen) ?_ ?_ hm
      · have : ((kvs.map fun kv => if kv.1 = k then (k, v) else kv).map
            Prod.fst) = kvs.map Prod.fst := by
          rw [List.map_map]
          apply List.map_congr_left
          intro kv _
          by_cases hkv : kv.1 = k
          · simp [hkv]
          · simp [hkv]
        rw [this]
        exact hnd
      · intro kv hkv
        obtain ⟨kv0, hkv0, rfl⟩ := List.mem_map.mp hkv
        by_cases hkv0k : kv0.1 = k
        · rw [if_pos hkv0k]
          exact hh.symm
        · rw [if_neg hkv0k]
          exact hhs kv0 hkv0
    · rw [if_neg hf]
      refine WfN.coll ?_ ?_ ?_ hm
      · rw [List.length_append]; omega
      · rw [List.map_append, List.nodup_append]
        refine ⟨hnd, by simp, ?_⟩
        intro x hx
        simp only [List.map_cons, List.map_nil, List.mem_singleton]
        intro hxk
        obtain ⟨kv, hkv, hkvk⟩ := List.mem_map.mp hx
        have hnone : kvs.find? (fun kv => kv.1 == k) = none :=
          Option.not_isSome_iff_eq_none.mp hf
        exact absurd (show (kv.1 == k) = true by simp [hkvk, hxk])
          (List.find?_eq_none.mp hnone kv hkv)
      · intro kv hkv
        rcases List.mem_append.mp hkv with h1 | h1
        · exact hhs kv h1
        · rcases List.mem_cons.mp h1 with rfl | h2
          · exact hh.symm
          · cases h2
  | comp => cases hl
  | full => cases hl

end H32

namespace H32

theorem find?_filter_ne (kvs : List (Key × Val)) {k k' : Key} (hne : k' ≠ k) :
    ((kvs.filter fun p => ¬p.1 = k).find? fun p => p.1 == k') =
      kvs.find? fun p => p.1 == k' := by
  induction kvs with
  | nil => rfl
  | cons a l ih =>
    by_cases ha : a.1 = k
    · rw [List.filter_cons_of_neg (by simp [ha]),
        List.find?_cons_of_neg _
          (by simp [ha]; exact fun he => hne he.symm), ih]
    · rw [List.filter_cons_of_pos (by simp [ha])]
      by_cases ha' : a.1 = k'
      · rw [List.find?_cons_of_pos _ (by simp [ha']),
          List.find?_cons_of_pos _ (by simp [ha'])]
      · rw [List.find?_cons_of_neg _ (by simp [ha']),
          List.find?_cons_of_neg _ (by simp [ha']), ih]

theorem length_filter_ne {kvs : List (Key × Val)} {k : Key}
    (hnd : (kvs.map Prod.fst).Nodup) {kv0 : Key × Val}
    (hf : kvs.find? (fun p => p.1 == k) = some kv0) :
    (kvs.filter fun p => ¬p.1 = k).length + 1 = kvs.length := by
  induction kvs with
  | nil => cases hf
  | cons a l ih =>
    rw [List.map_cons, List.nodup_cons] at hnd
    by_cases ha : a.1 = k
    · rw [List.filter_cons_of_neg (by simp [ha])]
      have hall : l.filter (fun p => ¬p.1 = k) = l := by
        apply List.filter_eq_self.mpr
        intro p hp
        have hpk : ¬p.1 = k := by
          intro he
          exact hnd.1 (by rw [ha, ← he]; exact List.mem_map_of_mem Prod.fst hp)
        simp [hpk]
      rw [hall]
      simp
    · rw [List.find?_cons_of_neg _ (by simp [ha])] at hf
      rw [List.filter_cons_of_pos (by simp [ha]), List.length_cons,
        List.length_cons]
      have := ih hnd.2 hf
      omega

theorem leafDel_val {l : Node} (hl : l.isLeaf = true) (k : Key) :
    (leafDel l k).2.1 = leafGet l k := by
  cases l with
  | flatLeaf h lk lv =>
    by_cases hk : lk = k
    · simp [leafDel, leafGet, hk]
    · simp [leafDel, leafGet, hk]
  | collisionLeaf h kvs =>
    cases hf : kvs.find? fun kv => kv.1 == k with
    | none => simp [leafDel, leafGet, hf]
    | some kv => simp [leafDel, leafGet, hf]
  | compressedTable hp nm ns => cases hl
  | fullTable hp nm ns => cases hl

theorem leafDel_flag {l : Node} (hl : l.isLeaf = true) (k : Key) :
    (leafDel l k).2.2 = (leafGet l k).isSome := by
  cases l with
  | flatLeaf h lk lv =>
    by_cases hk : lk = k
    · simp [leafDel, leafGet, hk]
    · simp [leafDel, leafGet, hk]
  | collisionLeaf h kvs =>
    cases hf : kvs.find? fun kv => kv.1 == k with
    | none => simp [leafDel, leafGet, hf]
    | some kv => simp [leafDel, leafGet, hf]
  | compressedTable hp nm ns => cases hl
  | fullTable hp nm ns => cases hl

theorem leafDel_node {l : Node} (hl : l.isLeaf = true) {k : Key} {n : Node}
    (hres : (leafDel l k).1 = some n) :
    n.isLeaf = true ∧ n.hashcode = l.hashcode := by
  cases l with
  | flatLeaf h lk lv =>
    by_cases hk : lk = k
    · rw [leafDel, if_pos hk] at hres; cases hres
    · rw [leafDel, if_neg hk] at hres
      cases hres
      exact ⟨rfl, rfl⟩
  | collisionLeaf h kvs =>
    simp only [leafDel] at hres
    cases hf : kvs.find? fun kv => kv.1 == k with
    | none =>
      rw [hf] at hres
      cases hres
      exact ⟨rfl, rfl⟩
    | some kv =>
      rw [hf] at hres
      simp only [Option.some.injEq] at hres
      cases hrest : kvs.filter fun p => ¬p.1 = k with
      | nil =>
        rw [hrest] at hres
        rw [← hres]
        exact ⟨rfl, rfl⟩
      | cons p ps =>
        cases ps with
        | nil =>
          rw [hrest] at hres
          rw [← hres]
          exact ⟨rfl, rfl⟩
        | cons q t =>
          rw [hrest] at hres
          rw [← hres]
          exact ⟨rfl, rfl⟩
  | compressedTable hp nm ns => cases hl
  | fullTable hp nm ns => cases hl

theorem leafGet_leafDel_same {l : Node} (hl : l.isLeaf = true) {k : Key}
    {n : Node} (hres : (leafDel l k).1 = some n) : leafGet n k = none := by
  cases l with
  | flatLeaf h lk lv =>
    by_cases hk : lk = k
    · rw [leafDel, if_pos hk] at hres; cases hres
    · rw [leafDel, if_neg hk] at hres
      cases hres
      simp [leafGet, hk]
  | collisionLeaf h kvs =>
    simp only [leafDel] at hres
    cases hf : kvs.find? fun kv => kv.1 == k with
    | none =>
      rw [hf] at hres
      cases hres
      simp [leafGet, hf]
    | some kv =>
      rw [hf] at hres
      simp only [Option.some.injEq] at hres
      have hfind : ((kvs.filter fun p => ¬p.1 = k).find?
          fun kv => kv.1 == k) = none := by
        apply List.find?_eq_none.mpr
        intro x hx
        have := (List.mem_filter.mp hx).2
        simpa using this
      cases hrest : kvs.filter fun p => ¬p.1 = k with
      | nil =>
        rw [hrest] at hres
        rw [← hres]
        simp [leafGet]
      | cons p ps =>
        rw [hrest] at hfind
        cases ps with
        | nil =>
          rw [hrest] at hres
          rw [← hres]
          rw [List.find?_cons] at hfind
          simp only [leafGet]
          by_cases hp : p.1 = k
          · simp [hp] at hfind
          · simp [hp]
        | cons q t =>
          rw [hrest] at hres
          rw [← hres]
          simp [leafGet, hfind]
  | compressedTable hp nm ns => cases hl
  | fullTable hp nm ns => cases hl

theorem leafGet_leafDel_other {l : Node} (hl : l.isLeaf = true) {k k' : Key}
    (hne : k' ≠ k) {n : Node} (hres : (leafDel l k).1 = some n) :
    leafGet n k' = leafGet l k' := by
  cases l with
  | flatLeaf h lk lv =>
    by_cases hk : lk = k
    · rw [leafDel, if_pos hk] at hres; cases hres
    · rw [leafDel, if_neg hk] at hres
      cases hres
      rfl
  | collisionLeaf h kvs =>
    simp only [leafDel] at hres
    cases hf : kvs.find? fun kv => kv.1 == k with
    | none =>
      rw [hf] at hres
      cases hres
      rfl
    | some kv =>
      rw [hf] at hres
      simp only [Option.some.injEq] at hres
      have h2 := find?_filter_ne kvs hne
      cases hrest : kvs.filter fun p => ¬p.1 = k with
      | nil =>
        rw [hrest] at hres h2
        rw [← hres]
        simp only [leafGet, ← h2]
      | cons p ps =>
        cases ps with
        | nil =>
          rw [hrest] at hres h2
          rw [← hres]
          simp only [leafGet, ← h2]
          by_cases hp : p.1 = k'
          · rw [List.find?_cons_of_pos _ (by simp [hp]), if_pos hp]
            rfl
          · rw [List.find?_cons_of_neg _ (by simp [hp]), if_neg hp]
            rfl
        | cons q t =>
          rw [hrest] at hres h2
          rw [← hres]
          simp only [leafGet, ← h2]
  | compressedTable hp nm ns => cases hl
  | fullTable hp nm ns => cases hl

theorem WfN_leafDel {d p : Nat} {l : Node} (hw : WfN d p l)
    (hl : l.isLeaf = true) {k : Key} {n : Node}
    (hres : (leafDel l k).1 = some n) : WfN d p n := by
  cases hw with
  | @flat d p h lk lv hk hm =>
    by_cases hkk : lk = k
    · rw [leafDel, if_pos hkk] at hres; cases hres
    · rw [leafDel, if_neg hkk] at hres
      cases hres
      exact WfN.flat hk hm
  | @coll d p h kvs hlen hnd hhs hm =>
    simp only [leafDel] at hres
    cases hf : kvs.find? fun kv => kv.1 == k with
    | none =>
      rw [hf] at hres
      cases hres
      exact WfN.coll hlen hnd hhs hm
    | some kv =>
      rw [hf] at hres
      simp only [Option.some.injEq] at hres
      have hlenf := length_filter_ne hnd hf
      cases hrest : kvs.filter fun p => ¬p.1 = k with
      | nil =>
        rw [hrest] at hlenf
        simp at hlenf
        omega
      | cons p ps =>
        cases ps with
        | nil =>
          rw [hrest] at hres
          rw [← hres]
          have hpk : p ∈ kvs := by
            apply List.mem_of_mem_filter (p := fun p => ¬p.1 = k)
            rw [hrest]
            exact List.mem_singleton.mpr rfl
          exact WfN.flat (hhs p hpk).symm hm
        | cons q t =>
          rw [hrest] at hres
          rw [← hres]
          refine WfN.coll (by simp) ?_ ?_ hm
          · have hsub : ((kvs.filter fun p => ¬p.1 = k).map
                Prod.fst).Sublist (kvs.map Prod.fst) :=
              (List.filter_sublist kvs).map Prod.fst
            have := hnd.sublist hsub
            rwa [hrest] at this
          · intro kv2 hkv2
            apply hhs
            apply List.mem_of_mem_filter (p := fun p => ¬p.1 = k)
            rw [hrest]
            exact hkv2
  | comp => cases hl
  | full => cases hl

theorem WfN_table_char {d p : Nat} {t : Node} (hw : WfN d p t)
    (hl : t.isLeaf = false) :
    d ≤ 5 ∧ p < 2 ^ (5 * d) ∧ t.hashcode = p ∧ TblOK t ∧
      ∀ i c, i < 32 → tGet t i = some c →
        WfN (d + 1) (p + 2 ^ (5 * d) * i) c := by
  cases hw with
  | flat => cases hl
  | coll => cases hl
  | comp hd hp hhp hnm hlen hch =>
    exact ⟨hd, hp, hhp, ⟨hnm, hlen⟩, hch⟩
  | full hd hp hhp hnm hlen hmir hch =>
    exact ⟨hd, hp, hhp, ⟨hnm, hlen, hmir⟩, hch⟩

theorem WfN_table_mk {d p : Nat} {t : Node} (hl : t.isLeaf = false)
    (hok : TblOK t) (hhp : t.hashcode = p) (hd : d ≤ 5)
    (hp : p < 2 ^ (5 * d))
    (hch : ∀ i c, i < 32 → tGet t i = some c →
      WfN (d + 1) (p + 2 ^ (5 * d) * i) c) :
    WfN d p t := by
  cases t with
  | flatLeaf h lk lv => cases hl
  | collisionLeaf h kvs => cases hl
  | compressedTable hp' nm ns =>
    exact WfN.comp hd hp hhp hok.1 hok.2 hch
  | fullTable hp' nm ns =>
    exact WfN.full hd hp hhp hok.1 hok.2.1 hok.2.2 hch

theorem index_mod_lt {h d dd : Nat} (hdd : dd < d) (hd : d ≤ 6) :
    index (h % 2 ^ (5 * d)) dd = index h dd := by
  have hdd5 : dd ≤ 5 := by omega
  rw [index_eq hdd5, index_eq hdd5]
  have hsplit : 2 ^ (5 * d) = 2 ^ (5 * dd) * 2 ^ (5 * (d - dd)) := by
    rw [← Nat.pow_add]
    congr 1
    omega
  rw [hsplit, Nat.mod_mul_right_div_self]
  have h32 : (32 : Nat) ∣ 2 ^ (5 * (d - dd)) := by
    have h5 : (32 : Nat) = 2 ^ 5 := by norm_num
    rw [h5]
    exact Nat.pow_dvd_pow 2 (by omega)
  rw [Nat.mod_mod_of_dvd _ h32]

theorem tSet_some_of_some {t : Node} (hok : TblOK t) {i : Nat} (hi : i < 32)
    (n : Node) : ∃ t', tSet t i (some n) = some t' := by
  cases hset : tSet t i (some n) with
  | none => exact absurd (tSet_none_char hok hi hset).1 (by simp)
  | some t' => exact ⟨t', rfl⟩

end H32

namespace H32

theorem tGet_some_isLeaf {t : Node} {i : Nat} {c : Node}
    (hg : tGet t i = some c) : t.isLeaf = false := by
  cases t with
  | flatLeaf h lk lv => cases hg
  | collisionLeaf h kvs => cases hg
  | compressedTable hp nm ns => rfl
  | fullTable hp nm ns => rfl

theorem spine_length {h30 : Nat} {root : Node} {path : PathT} {t : Node}
    {d : Nat} (hsp : Spine h30 root path t d) : path.length = d := by
  induction hsp with
  | nil => rfl
  | cons hsp hget hlf ih => simpa using ih

theorem spine_isLeaf {h30 : Nat} {root : Node} {path : PathT} {t : Node}
    {d : Nat} (hsp : Spine h30 root path t d) (hrl : root.isLeaf = false) :
    t.isLeaf = false := by
  cases hsp with
  | nil => exact hrl
  | cons hsp hget hlf => exact hlf

theorem spine_wf {h30 : Nat} {root : Node} {path : PathT} {t : Node}
    {d : Nat} (hsp : Spine h30 root path t d) (hw : WfN 0 0 root) :
    WfN d (h30 % 2 ^ (5 * d)) t := by
  induction hsp with
  | nil =>
    simp only [Nat.mul_zero, pow_zero, Nat.mod_one]
    exact hw
  | cons hsp hget hlf ih =>
    rename_i path' t' t'' d'
    have htl : t'.isLeaf = false := tGet_some_isLeaf hget
    obtain ⟨hd, hp, hhp, hok, hch⟩ := WfN_table_char ih htl
    have := hch (index h30 d') t'' (index_lt hd) hget
    rwa [← mod_pow_five_succ hd] at this

theorem subProbe_table {h' : Nat} {d : Nat} (hd : d ≤ 5) {t : Node}
    (hl : t.isLeaf = false) :
    subProbe h' d (some t) = subProbe h' (d + 1) (tGet t (index h' d)) := by
  have hfuel : 6 - d = (6 - (d + 1)) + 1 := by omega
  cases hg : tGet t (index h' d) with
  | none => simp [subProbe, hl, hfuel, leafForLoop, hg]
  | some c =>
    by_cases hcl : c.isLeaf
    · by_cases hch : c.hashcode = h'
      · simp [subProbe, hl, hfuel, leafForLoop, hg, hcl, hch]
      · simp [subProbe, hl, hfuel, leafForLoop, hg, hcl, hch]
    · simp only [subProbe, hfuel, leafForLoop, hg]
      rw [if_neg (by simp [hl]), if_neg hcl]

theorem index_agree_iff {a b dd : Nat} (hdd : dd ≤ 5) :
    a % 2 ^ (5 * (dd + 1)) = b % 2 ^ (5 * (dd + 1)) ↔
      a % 2 ^ (5 * dd) = b % 2 ^ (5 * dd) ∧ index a dd = index b dd := by
  rw [mod_pow_five_succ hdd, mod_pow_five_succ hdd]
  constructor
  · intro h
    have hb : b % 2 ^ (5 * dd) < 2 ^ (5 * dd) :=
      Nat.mod_lt _ (Nat.pos_pow_of_pos _ (by norm_num))
    exact offset_decomp (Nat.mod_lt _ (Nat.pos_pow_of_pos _ (by norm_num)))
      hb h
  · intro ⟨h1, h2⟩
    rw [h1, h2]

theorem spine_probe {h30 : Nat} {root : Node} {path : PathT} {t : Node}
    {d : Nat} (hsp : Spine h30 root path t d) (hw : WfN 0 0 root)
    (hrl : root.isLeaf = false) {h' : Nat}
    (hagree : h' % 2 ^ (5 * d) = h30 % 2 ^ (5 * d)) :
    subProbe h' 0 (some root) = subProbe h' d (some t) := by
  induction hsp with
  | nil => rfl
  | cons hsp hget hlf ih =>
    rename_i path' t' t'' d'
    have hwt : WfN d' (h30 % 2 ^ (5 * d')) t' := spine_wf hsp hw
    have htl : t'.isLeaf = false := tGet_some_isLeaf hget
    obtain ⟨hd, hp, hhp, hok, hch⟩ := WfN_table_char hwt htl
    obtain ⟨h1, h2⟩ := (index_agree_iff hd).mp hagree
    rw [ih h1, subProbe_table hd htl, h2, hget]

theorem getLoop_eq_leafForLoop (h30 : Nat) (k : Key) :
    ∀ fuel depth t, getLoop h30 k fuel depth t =
      (leafForLoop h30 fuel depth t).bind fun l => leafGet l k := by
  intro fuel
  induction fuel with
  | zero => intro d t; rfl
  | succ fuel ih =>
    intro d t
    cases hg : tGet t (index h30 d) with
    | none => simp [getLoop, leafForLoop, hg]
    | some c =>
      by_cases hcl : c.isLeaf
      · by_cases hch : c.hashcode = h30
        · simp [getLoop, leafForLoop, hg, hcl, hch]
        · simp [getLoop, leafForLoop, hg, hcl, hch]
      · simp only [getLoop, leafForLoop, hg]
        rw [if_neg hcl, if_neg hcl]
        exact ih _ _

theorem hGet_eq_leafFor (m : Hamt) (k : Key) :
    m.Get k = (leafFor m (Hash30 k)).bind fun l => leafGet l k := by
  cases hr : m.root with
  | none => rw [Hamt.Get, hr, leafFor, hr]; rfl
  | some root =>
    rw [Hamt.Get, hr, leafFor, hr]
    exact getLoop_eq_leafForLoop (Hash30 k) k (MAXDEPTH + 1) 0 root

theorem leafFor_eq_subProbe {m : Hamt} (hw : WfH m) (h' : Nat) :
    leafFor m h' = subProbe h' 0 m.root := by
  cases hr : m.root with
  | none => rw [leafFor, hr]; rfl
  | some root =>
    rw [WfH, hr] at hw
    rw [leafFor, hr, Option.some_bind, subProbe, if_neg (by simp [hw.1])]
    rfl

end H32

namespace H32

theorem copyUp_frame {h30 : Nat} {root : Node}
    (hwroot : WfN 0 0 root) (hrl : root.isLeaf = false)
    {path : PathT} {t : Node} {d : Nat} (hsp : Spine h30 root path t d) :
    ∀ y : Option Node,
      (∀ n, y = some n → WfN (d + 1) (h30 % 2 ^ (5 * (d + 1))) n) →
      (∀ nr, copyUp t (tSet t (index h30 d) y) path = some nr →
        nr.isLeaf = false ∧ WfN 0 0 nr) ∧
      (∀ h', subProbe h' 0 (copyUp t (tSet t (index h30 d) y) path) =
        if h' % 2 ^ (5 * (d + 1)) = h30 % 2 ^ (5 * (d + 1))
        then subProbe h' (d + 1) y
        else subProbe h' 0 (some root)) := by
  induction hsp with
  | nil =>
    intro y hy
    obtain ⟨hd, hp, hhp, hok, hch⟩ := WfN_table_char hwroot hrl
    have hidx0 : index h30 0 < 32 := index_lt (by omega)
    have hmod : h30 % 2 ^ (5 * (0 + 1)) = index h30 0 := by
      rw [mod_pow_five_succ (by omega)]
      simp [Nat.mod_one]
    constructor
    · intro nr hnr
      simp only [copyUp] at hnr
      obtain ⟨hnl, hnh, hnok, hslots⟩ := tSet_some_char hok hidx0 hnr
      refine ⟨hnl, WfN_table_mk hnl hnok (by rw [hnh, hhp]) hd hp ?_⟩
      intro i c hi hgc
      rw [hslots i hi] at hgc
      have h0 : (0 : Nat) + 2 ^ (5 * 0) * i = i := by norm_num
      rw [h0]
      by_cases hieq : i = index h30 0
      · rw [if_pos hieq] at hgc
        have := hy c hgc
        rwa [hmod, ← hieq] at this
      · rw [if_neg hieq] at hgc
        have := hch i c hi hgc
        rwa [h0] at this
    · intro h'
      simp only [copyUp]
      cases hset : tSet root (index h30 0) y with
      | none =>
        obtain ⟨hynone, hothers⟩ := tSet_none_char hok hidx0 hset
        subst hynone
        by_cases hagr : h' % 2 ^ (5 * (0 + 1)) = h30 % 2 ^ (5 * (0 + 1))
        · rw [if_pos hagr]
          rfl
        · rw [if_neg hagr]
          rw [subProbe_table (by omega) hrl]
          have hne : index h' 0 ≠ index h30 0 := by
            intro he
            exact hagr ((index_agree_iff (by omega)).mpr
              ⟨by simp [Nat.mod_one], he⟩)
          rw [hothers (index h' 0) (index_lt (by omega)) hne]
          rfl
      | some nr =>
        obtain ⟨hnl, hnh, hnok, hslots⟩ := tSet_some_char hok hidx0 hset
        rw [subProbe_table (by omega) hnl,
          hslots (index h' 0) (index_lt (by omega))]
        by_cases hagr : h' % 2 ^ (5 * (0 + 1)) = h30 % 2 ^ (5 * (0 + 1))
        · rw [if_pos hagr]
          have he : index h' 0 = index h30 0 :=
            ((index_agree_iff (by omega)).mp hagr).2
          rw [if_pos he]
        · rw [if_neg hagr]
          have hne : index h' 0 ≠ index h30 0 := by
            intro he
            exact hagr ((index_agree_iff (by omega)).mpr
              ⟨by simp [Nat.mod_one], he⟩)
          rw [if_neg hne, subProbe_table (by omega) hrl]
  | cons hsp hget hlf ih =>
    rename_i path' t' t'' d'
    intro y hy
    have hwt' : WfN d' (h30 % 2 ^ (5 * d')) t' := spine_wf hsp hwroot
    have ht'l : t'.isLeaf = false := spine_isLeaf hsp hrl
    obtain ⟨hd', hp', hhp', hok', hch'⟩ := WfN_table_char hwt' ht'l
    have hwt'' : WfN (d' + 1) (h30 % 2 ^ (5 * (d' + 1))) t'' := by
      have := hch' (index h30 d') t'' (index_lt hd') hget
      rwa [← mod_pow_five_succ hd'] at this
    obtain ⟨hd'', hp'', hhp'', hok'', hch''⟩ := WfN_table_char hwt'' hlf
    have hlen : path'.length = d' := spine_length hsp
    have hidx : index t''.hashcode path'.length = index h30 d' := by
      rw [hlen, hhp'', index_mod_lt (by omega) (by omega)]
    have hunfold : ∀ nt, copyUp t'' nt (t' :: path') =
        copyUp t' (tSet t' (index h30 d') nt) path' := by
      intro nt
      simp only [copyUp]
      rw [hidx]
    have hntwf : ∀ n, tSet t'' (index h30 (d' + 1)) y = some n →
        WfN (d' + 1) (h30 % 2 ^ (5 * (d' + 1))) n := by
      intro n hset
      obtain ⟨hnl, hnh, hnok, hslots⟩ :=
        tSet_some_char hok'' (index_lt hd'') hset
      refine WfN_table_mk hnl hnok (by rw [hnh, hhp'']) hd'' hp'' ?_
      intro i c hi hgc
      rw [hslots i hi] at hgc
      by_cases hieq : i = index h30 (d' + 1)
      · rw [if_pos hieq] at hgc
        rw [hieq, ← mod_pow_five_succ hd'']
        exact hy c hgc
      · rw [if_neg hieq] at hgc
        exact hch'' i c hi hgc
    obtain ⟨ihA, ihB⟩ := ih (tSet t'' (index h30 (d' + 1)) y) hntwf
    constructor
    · intro nr hnr
      rw [hunfold] at hnr
      exact ihA nr hnr
    · intro h'
      rw [hunfold, ihB h']
      by_cases hagr1 : h' % 2 ^ (5 * (d' + 1)) = h30 % 2 ^ (5 * (d' + 1))
      · rw [if_pos hagr1]
        cases hset : tSet t'' (index h30 (d' + 1)) y with
        | none =>
          obtain ⟨hynone, hothers⟩ :=
            tSet_none_char hok'' (index_lt hd'') hset
          subst hynone
          by_cases hagr2 : h' % 2 ^ (5 * (d' + 1 + 1)) =
              h30 % 2 ^ (5 * (d' + 1 + 1))
          · rw [if_pos hagr2]
            rfl
          · rw [if_neg hagr2]
            have hspine2 : Spine h30 root (t' :: path') t'' (d' + 1) :=
              Spine.cons hsp hget hlf
            rw [spine_probe hspine2 hwroot hrl hagr1,
              subProbe_table hd'' hlf]
            have hne : index h' (d' + 1) ≠ index h30 (d' + 1) := by
              intro he
              exact hagr2 ((index_agree_iff hd'').mpr ⟨hagr1, he⟩)
            rw [hothers (index h' (d' + 1)) (index_lt hd'') hne]
            rfl
        | some n =>
          obtain ⟨hnl, hnh, hnok, hslots⟩ :=
            tSet_some_char hok'' (index_lt hd'') hset
          rw [subProbe_table hd'' hnl,
            hslots (index h' (d' + 1)) (index_lt hd'')]
          by_cases hagr2 : h' % 2 ^ (5 * (d' + 1 + 1)) =
              h30 % 2 ^ (5 * (d' + 1 + 1))
          · rw [if_pos hagr2]
            have he : index h' (d' + 1) = index h30 (d' + 1) :=
              ((index_agree_iff hd'').mp hagr2).2
            rw [if_pos he]
          · rw [if_neg hagr2]
            have hne : index h' (d' + 1) ≠ index h30 (d' + 1) := by
              intro he
              exact hagr2 ((index_agree_iff hd'').mpr ⟨hagr1, he⟩)
            have hspine2 : Spine h30 root (t' :: path') t'' (d' + 1) :=
              Spine.cons hsp hget hlf
            rw [if_neg hne, spine_probe hspine2 hwroot hrl hagr1,
              subProbe_table hd'' hlf]
      · rw [if_neg hagr1]
        have hagr2 : ¬ h' % 2 ^ (5 * (d' + 1 + 1)) =
            h30 % 2 ^ (5 * (d' + 1 + 1)) := by
          intro he
          exact hagr1 ((index_agree_iff hd'').mp he).1
        rw [if_neg hagr2]

end H32

namespace H32

theorem bitCount32_zero : bitCount32 0 = 0 := by decide

theorem bitCount32_two_pow {i : Nat} (hi : i < 32) :
    bitCount32 (2 ^ i) = 1 := by
  have := @bitCount32_lor 0 _ hi (by simp [Nat.zero_testBit])
  rwa [Nat.zero_or, bitCount32_zero] at this

theorem bitCount32_two_pow_or {i j : Nat} (hij : i ≠ j) (hi : i < 32)
    (hj : j < 32) : bitCount32 (2 ^ i ||| 2 ^ j) = 2 := by
  have := @bitCount32_lor (2 ^ i) _ hj
    (by simp [Nat.testBit_two_pow, hij])
  rw [this, bitCount32_two_pow hi]

theorem and_two_pow_sub_one_self (i : Nat) : 2 ^ i &&& (2 ^ i - 1) = 0 := by
  rw [Nat.and_pow_two_sub_one_eq_mod, Nat.mod_self]

theorem ctGet_single {i : Nat} (hi : i < 32) (a : Node) {j : Nat}
    (hj : j < 32) :
    ctGet (2 ^ i) [a] j = if j = i then some a else none := by
  by_cases hji : j = i
  · subst hji
    rw [ctGet_eq_pos hi (by simp [Nat.testBit_two_pow]),
      and_two_pow_sub_one_self, bitCount32_zero, if_pos rfl]
    rfl
  · rw [ctGet_eq_none hj
      (by simp [Nat.testBit_two_pow, Ne.symm hji]), if_neg hji]

theorem or_two_pow_and_mask_lt {i1 i2 : Nat} (h12 : i1 < i2) :
    (2 ^ i1 ||| 2 ^ i2) &&& (2 ^ i1 - 1) = 0 := by
  apply Nat.eq_of_testBit_eq
  intro j
  simp only [Nat.testBit_land, Nat.testBit_lor, Nat.testBit_two_pow,
    Nat.testBit_two_pow_sub_one, Nat.zero_testBit, Bool.and_eq_false_iff]
  by_cases hj : j < i1
  · left
    simp only [Bool.or_eq_false_iff, decide_eq_false_iff_not]
    omega
  · right
    simpa using hj

theorem or_two_pow_and_mask_ge {i1 i2 : Nat} (h12 : i1 < i2) :
    (2 ^ i1 ||| 2 ^ i2) &&& (2 ^ i2 - 1) = 2 ^ i1 := by
  apply Nat.eq_of_testBit_eq
  intro j
  simp only [Nat.testBit_land, Nat.testBit_lor, Nat.testBit_two_pow,
    Nat.testBit_two_pow_sub_one]
  by_cases h1 : i1 = j
  · subst h1
    simp [h12]
  · by_cases h2 : i2 = j
    · subst h2
      simp [h1]
    · simp [h1, h2]

theorem ctGet_pair {i1 i2 : Nat} (h12 : i1 < i2) (hi2 : i2 < 32)
    (a b : Node) {j : Nat} (hj : j < 32) :
    ctGet (2 ^ i1 ||| 2 ^ i2) [a, b] j =
      if j = i1 then some a else if j = i2 then some b else none := by
  by_cases hj1 : j = i1
  · subst hj1
    rw [ctGet_eq_pos (by omega) (by simp [Nat.testBit_two_pow]),
      or_two_pow_and_mask_lt h12, bitCount32_zero, if_pos rfl]
    rfl
  · by_cases hj2 : j = i2
    · subst hj2
      rw [ctGet_eq_pos hi2 (by simp [Nat.testBit_two_pow]),
        or_two_pow_and_mask_ge h12, bitCount32_two_pow (by omega),
        if_neg hj1, if_pos rfl]
      rfl
    · rw [ctGet_eq_none hj (by
        simp only [Nat.testBit_lor, Nat.testBit_two_pow]
        simp [Ne.symm hj1, Ne.symm hj2]),
        if_neg hj1, if_neg hj2]

theorem WfN_leaf_hash_lt {d p : Nat} {l : Node} (hw : WfN d p l)
    (hl : l.isLeaf = true) : l.hashcode < 2 ^ 30 := by
  cases hw with
  | @flat d p h k v hk hm =>
    show h < 2 ^ 30
    rw [hk]
    exact hash30_lt k
  | @coll d p h kvs hlen hnd hhs hm =>
    show h < 2 ^ 30
    obtain ⟨kv, hkv⟩ : ∃ kv, kv ∈ kvs := by
      cases kvs with
      | nil => simp at hlen
      | cons a t => exact ⟨a, by simp⟩
    rw [← hhs kv hkv]
    exact hash30_lt kv.1
  | comp => cases hl
  | full => cases hl

theorem nct2Go_isLeaf (l1 l2 : Node) :
    ∀ fuel d hp, (nct2Go l1 l2 fuel d hp).isLeaf = false := by
  intro fuel d hp
  cases fuel with
  | zero => rfl
  | succ f =>
    rw [nct2Go]
    split
    · rfl
    · rfl

theorem hashPathMask_eq {d : Nat} (hd : d ≤ 6) :
    hashPathMask d = 2 ^ (5 * d) - 1 := by
  rw [hashPathMask]
  have hexp : d * NBITS32 = 5 * d := by
    simp only [NBITS32]
    omega
  have h1 : (1 <<< (d * NBITS32)) % 2 ^ 32 = 2 ^ (5 * d) := by
    rw [Nat.shiftLeft_eq, Nat.one_mul, hexp]
    exact Nat.mod_eq_of_lt (Nat.pow_lt_pow_right (by norm_num) (by omega))
  rw [h1]
  have hle : 2 ^ (5 * d) ≤ 2 ^ 32 := Nat.pow_le_pow_right (by norm_num)
    (by omega)
  have hpos : 1 ≤ 2 ^ (5 * d) := Nat.one_le_two_pow
  have h2 : 2 ^ (5 * d) + (2 ^ 32 - 1) = 2 ^ (5 * d) - 1 + 2 ^ 32 := by
    omega
  rw [h2, Nat.add_mod_right]
  exact Nat.mod_eq_of_lt (by omega)

theorem and_hashPathMask {x d : Nat} (hd : d ≤ 6) :
    x &&& hashPathMask d = x % 2 ^ (5 * d) := by
  rw [hashPathMask_eq hd, Nat.and_pow_two_sub_one_eq_mod]

end H32

namespace H32

theorem subProbe_ct {h' d : Nat} (hd : d ≤ 5) (hp nm : Nat)
    (ns : List Node) :
    subProbe h' d (some (Node.compressedTable hp nm ns)) =
      subProbe h' (d + 1) (ctGet nm ns (index h' d)) :=
  subProbe_table hd rfl

theorem nct2Go_spec {l1 l2 : Node} (h1l : l1.isLeaf = true)
    (h2l : l2.isLeaf = true) (h1lt : l1.hashcode < 2 ^ 30)
    (h2lt : l2.hashcode < 2 ^ 30) (hne : l1.hashcode ≠ l2.hashcode)
    (h1wf : ∀ dd, WfN dd (l1.hashcode % 2 ^ (5 * dd)) l1)
    (h2wf : ∀ dd, WfN dd (l2.hashcode % 2 ^ (5 * dd)) l2) :
    ∀ fuel d, fuel = 6 - d → d ≤ 5 →
      l1.hashcode % 2 ^ (5 * d) = l2.hashcode % 2 ^ (5 * d) →
      WfN d (l1.hashcode % 2 ^ (5 * d))
        (nct2Go l1 l2 fuel d (l1.hashcode % 2 ^ (5 * d))) ∧
      ∀ h', subProbe h' d
          (some (nct2Go l1 l2 fuel d (l1.hashcode % 2 ^ (5 * d)))) =
        if h' = l1.hashcode then some l1
        else if h' = l2.hashcode then some l2 else none := by
  intro fuel
  induction fuel with
  | zero =>
    intro d hfuel hd _
    omega
  | succ fuel ih =>
    intro d hfuel hd hagree
    have hunfold : nct2Go l1 l2 (fuel + 1) d (l1.hashcode % 2 ^ (5 * d)) =
        if index l1.hashcode d ≠ index l2.hashcode d then
          Node.compressedTable (l1.hashcode % 2 ^ (5 * d))
            (((1 <<< index l1.hashcode d) % 2 ^ 32) |||
              ((1 <<< index l2.hashcode d) % 2 ^ 32))
            (if index l1.hashcode d < index l2.hashcode d then [l1, l2]
             else [l2, l1])
        else
          Node.compressedTable (l1.hashcode % 2 ^ (5 * d))
            ((1 <<< index l1.hashcode d) % 2 ^ 32)
            [nct2Go l1 l2 fuel (d + 1)
              (buildHashPath (l1.hashcode % 2 ^ (5 * d))
                (index l1.hashcode d) d)] := rfl
    by_cases hidx : index l1.hashcode d ≠ index l2.hashcode d
    · rw [hunfold, if_pos hidx, shiftLeft_one_mod_of_lt (index_lt hd),
        shiftLeft_one_mod_of_lt (index_lt hd)]
      have hget : ∀ j, j < 32 →
          ctGet (2 ^ index l1.hashcode d ||| 2 ^ index l2.hashcode d)
            (if index l1.hashcode d < index l2.hashcode d then [l1, l2]
             else [l2, l1]) j =
          if j = index l1.hashcode d then some l1
          else if j = index l2.hashcode d then some l2 else none := by
        intro j hj
        by_cases hlt : index l1.hashcode d < index l2.hashcode d
        · rw [if_pos hlt, ctGet_pair hlt (index_lt hd) l1 l2 hj]
        · have hgt : index l2.hashcode d < index l1.hashcode d := by omega
          rw [if_neg hlt, Nat.lor_comm, ctGet_pair hgt (index_lt hd) l2 l1 hj]
          by_cases hj1 : j = index l1.hashcode d
          · simp [hj1, hidx]
          · by_cases hj2 : j = index l2.hashcode d
            · simp [hj2, Ne.symm hidx, hj1]
            · simp [hj1, hj2]
      constructor
      · refine WfN.comp hd (Nat.mod_lt _ (Nat.pos_pow_of_pos _ (by norm_num)))
          rfl
          (Nat.or_lt_two_pow
            (Nat.pow_lt_pow_right (by norm_num) (index_lt hd))
            (Nat.pow_lt_pow_right (by norm_num) (index_lt hd)))
          ?_ ?_
        · rw [bitCount32_two_pow_or hidx (index_lt hd) (index_lt hd)]
          by_cases hlt : index l1.hashcode d < index l2.hashcode d
          · rw [if_pos hlt]
            rfl
          · rw [if_neg hlt]
            rfl
        · intro i c hi hgc
          rw [hget i hi] at hgc
          by_cases hi1 : i = index l1.hashcode d
          · rw [if_pos hi1] at hgc
            cases hgc
            rw [hi1, ← mod_pow_five_succ hd]
            exact h1wf (d + 1)
          · rw [if_neg hi1] at hgc
            by_cases hi2 : i = index l2.hashcode d
            · rw [if_pos hi2] at hgc
              cases hgc
              rw [hi2, hagree, ← mod_pow_five_succ hd]
              exact h2wf (d + 1)
            · rw [if_neg hi2] at hgc
              cases hgc
      · intro h'
        rw [subProbe_ct hd, hget _ (index_lt hd)]
        by_cases h1' : h' = l1.hashcode
        · rw [if_pos (by rw [h1']), if_pos h1']
          simp [subProbe, h1l, h1']
        · by_cases h2' : h' = l2.hashcode
          · have hne2 : index h' d ≠ index l1.hashcode d := by
              rw [h2']
              exact fun he => hidx he.symm
            rw [if_neg hne2, if_pos (by rw [h2']), if_neg h1', if_pos h2']
            simp [subProbe, h2l, h2']
          · rw [if_neg h1', if_neg h2']
            by_cases hi1 : index h' d = index l1.hashcode d
            · rw [if_pos hi1]
              simp [subProbe, h1l, Ne.symm h1']
            · rw [if_neg hi1]
              by_cases hi2 : index h' d = index l2.hashcode d
              · rw [if_pos hi2]
                simp [subProbe, h2l, Ne.symm h2']
              · rw [if_neg hi2]
                rfl
    · have hideq : index l1.hashcode d = index l2.hashcode d :=
        not_ne_iff.mp hidx
      have hidxlow : ∀ dd, dd < d →
          index l1.hashcode dd = index l2.hashcode dd := by
        intro dd hdd
        rw [← index_mod_lt hdd (by omega), hagree,
          index_mod_lt hdd (by omega)]
      have hd5 : d < 5 := by
        by_contra hge
        apply hne
        apply eq_of_index_eq h1lt h2lt
        intro dd hdd
        rcases Nat.lt_or_ge dd d with hlt | hge2
        · exact hidxlow dd hlt
        · have hdd' : dd = d := by omega
          rw [hdd']
          exact hideq
      have hagree' : l1.hashcode % 2 ^ (5 * (d + 1)) =
          l2.hashcode % 2 ^ (5 * (d + 1)) :=
        (index_agree_iff hd).mpr ⟨hagree, hideq⟩
      obtain ⟨ihw, ihp⟩ := ih (d + 1) (by omega) (by omega) hagree'
      rw [hunfold, if_neg hidx, shiftLeft_one_mod_of_lt (index_lt hd),
        buildHashPath_mod hd]
      constructor
      · refine WfN.comp hd (Nat.mod_lt _ (Nat.pos_pow_of_pos _ (by norm_num)))
          rfl (Nat.pow_lt_pow_right (by norm_num) (index_lt hd)) ?_ ?_
        · rw [bitCount32_two_pow (index_lt hd)]
          rfl
        · intro i c hi hgc
          rw [ctGet_single (index_lt hd) _ hi] at hgc
          by_cases hieq : i = index l1.hashcode d
          · rw [if_pos hieq] at hgc
            cases hgc
            rw [hieq, ← mod_pow_five_succ hd]
            exact ihw
          · rw [if_neg hieq] at hgc
            cases hgc
      · intro h'
        rw [subProbe_ct hd, ctGet_single (index_lt hd) _ (index_lt hd)]
        by_cases hi1 : index h' d = index l1.hashcode d
        · rw [if_pos hi1]
          exact ihp h'
        · rw [if_neg hi1]
          have hn1 : ¬ h' = l1.hashcode := fun he => hi1 (by rw [he])
          have hn2 : ¬ h' = l2.hashcode := fun he => hi1 (by
            rw [he]
            exact hideq.symm)
          rw [if_neg hn1, if_neg hn2]
          rfl

end H32

namespace H32

theorem WfN_leaf_pos {d p : Nat} {l : Node} (hw : WfN d p l)
    (hl : l.isLeaf = true) : l.hashcode % 2 ^ (5 * d) = p := by
  cases hw with
  | flat hk hm => exact hm
  | coll hlen hnd hhs hm => exact hm
  | comp => cases hl
  | full => cases hl

theorem subProbe_leaf {h' d : Nat} {l : Node} (hl : l.isLeaf = true) :
    subProbe h' d (some l) = if l.hashcode = h' then some l else none := by
  simp [subProbe, hl]

theorem subProbe_none (h' d : Nat) : subProbe h' d none = none := rfl

theorem leafForLoop_some {h' : Nat} :
    ∀ fuel d t l, leafForLoop h' fuel d t = some l →
      l.isLeaf = true ∧ l.hashcode = h' := by
  intro fuel
  induction fuel with
  | zero =>
    intro d t l hl
    cases hl
  | succ fuel ih =>
    intro d t l hl
    rw [leafForLoop] at hl
    cases hg : tGet t (index h' d) with
    | none =>
      rw [hg] at hl
      cases hl
    | some c =>
      rw [hg] at hl
      simp only at hl
      by_cases hcl : c.isLeaf
      · rw [if_pos hcl] at hl
        by_cases hch : c.hashcode = h'
        · rw [if_pos hch] at hl
          cases hl
          exact ⟨hcl, hch⟩
        · rw [if_neg hch] at hl
          cases hl
      · rw [if_neg hcl] at hl
        exact ih _ _ _ hl

theorem subProbe_some {h' d : Nat} {y : Option Node} {l : Node}
    (hs : subProbe h' d y = some l) :
    l.isLeaf = true ∧ l.hashcode = h' := by
  cases y with
  | none => cases hs
  | some n =>
    by_cases hnl : n.isLeaf
    · rw [subProbe_leaf hnl] at hs
      by_cases hch : n.hashcode = h'
      · rw [if_pos hch] at hs
        cases hs
        exact ⟨hnl, hch⟩
      · rw [if_neg hch] at hs
        cases hs
    · simp only [subProbe] at hs
      rw [if_neg hnl] at hs
      exact leafForLoop_some _ _ _ _ hs

end H32

namespace H32

theorem putLoop_master {k : Key} {v : Val} {root : Node}
    (hwroot : WfN 0 0 root) (hrl : root.isLeaf = false)
    (origRoot : Option Node) (ne : Nat) :
    ∀ fuel d t path r, Spine (Hash30 k) root path t d → fuel = 6 - d →
      r = putLoop k v (Hash30 k) origRoot ne fuel d
        (Hash30 k % 2 ^ (5 * d)) t path →
      r.2 = ((subProbe (Hash30 k) 0 (some root)).bind
        fun l => leafGet l k).isNone ∧
      r.1.nentries = (if r.2 then ne + 1 else ne) ∧
      (∃ rt, r.1.root = some rt ∧ rt.isLeaf = false ∧ WfN 0 0 rt) ∧
      ∀ h', subProbe h' 0 r.1.root =
        if h' = Hash30 k then
          some (match subProbe (Hash30 k) 0 (some root) with
                | none => Node.flatLeaf (Hash30 k) k v
                | some l => (leafPut l k v).1)
        else subProbe h' 0 (some root) := by
  intro fuel
  induction fuel with
  | zero =>
    intro d t path r hsp hfuel hr
    have hwt := spine_wf hsp hwroot
    have htl := spine_isLeaf hsp hrl
    have hd := (WfN_table_char hwt htl).1
    omega
  | succ fuel ih =>
    intro d t path r hsp hfuel hr
    subst hr
    have hwt := spine_wf hsp hwroot
    have htl := spine_isLeaf hsp hrl
    obtain ⟨hd, hpb, hhp, hok, hch⟩ := WfN_table_char hwt htl
    have hprobe_t : subProbe (Hash30 k) 0 (some root) =
        subProbe (Hash30 k) d (some t) := spine_probe hsp hwroot hrl rfl
    cases hg : tGet t (index (Hash30 k) d) with
    | none =>
      have holdL : subProbe (Hash30 k) 0 (some root) = none := by
        rw [hprobe_t, subProbe_table hd htl, hg]
        rfl
      have hfh : (Node.flatLeaf (Hash30 k) k v).hashcode = Hash30 k := rfl
      have hflf : (Node.flatLeaf (Hash30 k) k v).isLeaf = true := rfl
      have hres : putLoop k v (Hash30 k) origRoot ne (fuel + 1) d
          (Hash30 k % 2 ^ (5 * d)) t path =
          (⟨copyUp t (tSet t (index (Hash30 k) d)
            (some (Node.flatLeaf (Hash30 k) k v))) path, ne + 1⟩, true) := by
        simp only [putLoop, hg]
      have hyw : ∀ n, some (Node.flatLeaf (Hash30 k) k v) = some n →
          WfN (d + 1) (Hash30 k % 2 ^ (5 * (d + 1))) n := by
        intro n hn
        cases hn
        exact WfN.flat rfl rfl
      obtain ⟨FA, FB⟩ := copyUp_frame hwroot hrl hsp
        (some (Node.flatLeaf (Hash30 k) k v)) hyw
      refine ⟨?_, ?_, ?_, ?_⟩
      · rw [hres, holdL]
        rfl
      · rw [hres]
        rfl
      · rw [hres]
        cases hcr : copyUp t (tSet t (index (Hash30 k) d)
            (some (Node.flatLeaf (Hash30 k) k v))) path with
        | none =>
          exfalso
          have hfb := FB (Hash30 k)
          rw [hcr, if_pos rfl, subProbe_none, subProbe_leaf hflf,
            if_pos hfh] at hfb
          cases hfb
        | some rt =>
          exact ⟨rt, rfl, (FA rt hcr).1, (FA rt hcr).2⟩
      · intro h'
        rw [hres]
        show subProbe h' 0 (copyUp t (tSet t (index (Hash30 k) d)
          (some (Node.flatLeaf (Hash30 k) k v))) path) = _
        rw [FB h']
        by_cases h1 : h' = Hash30 k
        · subst h1
          rw [if_pos rfl, if_pos rfl, holdL, subProbe_leaf hflf,
            if_pos hfh]
        · rw [if_neg h1]
          by_cases hagr : h' % 2 ^ (5 * (d + 1)) =
              Hash30 k % 2 ^ (5 * (d + 1))
          · rw [if_pos hagr, subProbe_leaf hflf,
              if_neg (fun he => h1 (by rw [hfh] at he; exact he.symm))]
            have hidxeq : index h' d = index (Hash30 k) d :=
              ((index_agree_iff hd).mp hagr).2
            have hcoarse : h' % 2 ^ (5 * d) = Hash30 k % 2 ^ (5 * d) :=
              ((index_agree_iff hd).mp hagr).1
            rw [spine_probe hsp hwroot hrl hcoarse, subProbe_table hd htl,
              hidxeq, hg]
            rfl
          · rw [if_neg hagr]
    | some curNode =>
      by_cases hcl : curNode.isLeaf
      · have hcw : WfN (d + 1) (Hash30 k % 2 ^ (5 * (d + 1))) curNode := by
          have := hch (index (Hash30 k) d) curNode (index_lt hd) hg
          rwa [← mod_pow_five_succ hd] at this
        by_cases hch30 : curNode.hashcode = Hash30 k
        · have holdL : subProbe (Hash30 k) 0 (some root) = some curNode := by
            rw [hprobe_t, subProbe_table hd htl, hg, subProbe_leaf hcl,
              if_pos hch30]
          have hres : putLoop k v (Hash30 k) origRoot ne (fuel + 1) d
              (Hash30 k % 2 ^ (5 * d)) t path =
              (⟨copyUp t (tSet t (index (Hash30 k) d)
                  (some (leafPut curNode k v).1)) path,
                if (leafPut curNode k v).2 then ne + 1 else ne⟩,
                (leafPut curNode k v).2) := by
            simp only [putLoop, hg]
            rw [if_pos hcl, if_pos hch30]
          have hyw : ∀ n, some (leafPut curNode k v).1 = some n →
              WfN (d + 1) (Hash30 k % 2 ^ (5 * (d + 1))) n := by
            intro n hn
            cases hn
            exact WfN_leafPut hcw hcl v hch30
          obtain ⟨FA, FB⟩ := copyUp_frame hwroot hrl hsp
            (some (leafPut curNode k v).1) hyw
          have hnlf : (leafPut curNode k v).1.isLeaf = true :=
            leafPut_isLeaf hcl k v
          have hnh : (leafPut curNode k v).1.hashcode = Hash30 k := by
            rw [leafPut_hashcode hcl k v, hch30]
          refine ⟨?_, ?_, ?_, ?_⟩
          · rw [hres, holdL]
            show (leafPut curNode k v).2 = (leafGet curNode k).isNone
            exact leafPut_added hcl k v
          · rw [hres]
          · rw [hres]
            cases hcr : copyUp t (tSet t (index (Hash30 k) d)
                (some (leafPut curNode k v).1)) path with
            | none =>
              exfalso
              have hfb := FB (Hash30 k)
              rw [hcr, if_pos rfl, subProbe_none, subProbe_leaf hnlf,
                if_pos hnh] at hfb
              cases hfb
            | some rt =>
              exact ⟨rt, rfl, (FA rt hcr).1, (FA rt hcr).2⟩
          · intro h'
            rw [hres]
            show subProbe h' 0 (copyUp t (tSet t (index (Hash30 k) d)
              (some (leafPut curNode k v).1)) path) = _
            rw [FB h']
            by_cases h1 : h' = Hash30 k
            · subst h1
              rw [if_pos rfl, if_pos rfl, holdL, subProbe_leaf hnlf,
                if_pos hnh]
            · rw [if_neg h1]
              by_cases hagr : h' % 2 ^ (5 * (d + 1)) =
                  Hash30 k % 2 ^ (5 * (d + 1))
              · rw [if_pos hagr, subProbe_leaf hnlf,
                  if_neg (fun he => h1 (by rw [← hnh, he]))]
                have hidxeq : index h' d = index (Hash30 k) d :=
                  ((index_agree_iff hd).mp hagr).2
                have hcoarse : h' % 2 ^ (5 * d) = Hash30 k % 2 ^ (5 * d) :=
                  ((index_agree_iff hd).mp hagr).1
                rw [spine_probe hsp hwroot hrl hcoarse,
                  subProbe_table hd htl, hidxeq, hg, subProbe_leaf hcl,
                  if_neg (fun he => h1 (by rw [← hch30, he]))]
              · rw [if_neg hagr]
        · -- hash-differing leaf: a collision table is built
          have hd4 : d + 1 ≤ 5 := by
            by_contra hgt
            have hd5 : d = 5 := by omega
            apply hch30
            have hpos := WfN_leaf_pos hcw hcl
            have h1lt := WfN_leaf_hash_lt hcw hcl
            rw [hd5] at hpos
            have he30 : (2 : Nat) ^ (5 * (5 + 1)) = 2 ^ 30 := by norm_num
            rw [he30, Nat.mod_eq_of_lt h1lt,
              Nat.mod_eq_of_lt (hash30_lt k)] at hpos
            exact hpos
          have hpos := WfN_leaf_pos hcw hcl
          have hfh : (Node.flatLeaf (Hash30 k) k v).hashcode = Hash30 k := rfl
          have hflf : (Node.flatLeaf (Hash30 k) k v).isLeaf = true := rfl
          have holdL : subProbe (Hash30 k) 0 (some root) = none := by
            rw [hprobe_t, subProbe_table hd htl, hg, subProbe_leaf hcl,
              if_neg hch30]
          have hTeq : newCompressedTable2 (d + 1)
              (buildHashPath (Hash30 k % 2 ^ (5 * d))
                (index (Hash30 k) d) d) curNode
              (Node.flatLeaf (Hash30 k) k v) =
              nct2Go curNode (Node.flatLeaf (Hash30 k) k v) (6 - (d + 1))
                (d + 1) (curNode.hashcode % 2 ^ (5 * (d + 1))) := by
            rw [newCompressedTable2, buildHashPath_mod hd]
            have hm6 : MAXDEPTH + 1 - (d + 1) = 6 - (d + 1) := rfl
            rw [hm6, and_hashPathMask (by omega),
              Nat.mod_mod_of_dvd _ dvd_rfl, hpos]
          obtain ⟨TW, TP⟩ := nct2Go_spec hcl hflf
            (WfN_leaf_hash_lt hcw hcl) (by rw [hfh]; exact hash30_lt k)
            (by rw [hfh]; exact hch30)
            (fun dd => WfN_leaf_reposition hcw hcl dd)
            (fun dd => by rw [hfh]; exact WfN.flat rfl rfl)
            (6 - (d + 1)) (d + 1) rfl (by omega)
            (by rw [hfh]; exact hpos)
          have hres : putLoop k v (Hash30 k) origRoot ne (fuel + 1) d
              (Hash30 k % 2 ^ (5 * d)) t path =
              (⟨copyUp t (tSet t (index (Hash30 k) d)
                  (some (newCompressedTable2 (d + 1)
                    (buildHashPath (Hash30 k % 2 ^ (5 * d))
                      (index (Hash30 k) d) d) curNode
                    (Node.flatLeaf (Hash30 k) k v)))) path, ne + 1⟩,
                true) := by
            simp only [putLoop, hg]
            rw [if_pos hcl, if_neg hch30]
          have hyw : ∀ n, some (newCompressedTable2 (d + 1)
              (buildHashPath (Hash30 k % 2 ^ (5 * d))
                (index (Hash30 k) d) d) curNode
              (Node.flatLeaf (Hash30 k) k v)) = some n →
              WfN (d + 1) (Hash30 k % 2 ^ (5 * (d + 1))) n := by
            intro n hn
            cases hn
            rw [hTeq, ← hpos]
            exact TW
          obtain ⟨FA, FB⟩ := copyUp_frame hwroot hrl hsp _ hyw
          have hTprobe : ∀ h', subProbe h' (d + 1)
              (some (newCompressedTable2 (d + 1)
                (buildHashPath (Hash30 k % 2 ^ (5 * d))
                  (index (Hash30 k) d) d) curNode
                (Node.flatLeaf (Hash30 k) k v))) =
              if h' = curNode.hashcode then some curNode
              else if h' = Hash30 k then
                some (Node.flatLeaf (Hash30 k) k v)
              else none := by
            intro h'
            rw [hTeq, TP h', hfh]
          refine ⟨?_, ?_, ?_, ?_⟩
          · rw [hres, holdL]
            rfl
          · rw [hres]
            rfl
          · rw [hres]
            cases hcr : copyUp t (tSet t (index (Hash30 k) d)
                (some (newCompressedTable2 (d + 1)
                  (buildHashPath (Hash30 k % 2 ^ (5 * d))
                    (index (Hash30 k) d) d) curNode
                  (Node.flatLeaf (Hash30 k) k v)))) path with
            | none =>
              exfalso
              have hfb := FB (Hash30 k)
              rw [hcr, if_pos rfl, subProbe_none, hTprobe,
                if_neg (fun he => hch30 he.symm), if_pos rfl] at hfb
              cases hfb
            | some rt =>
              exact ⟨rt, rfl, (FA rt hcr).1, (FA rt hcr).2⟩
          · intro h'
            rw [hres]
            show subProbe h' 0 (copyUp t (tSet t (index (Hash30 k) d)
              (some (newCompressedTable2 (d + 1)
                (buildHashPath (Hash30 k % 2 ^ (5 * d))
                  (index (Hash30 k) d) d) curNode
                (Node.flatLeaf (Hash30 k) k v)))) path) = _
            rw [FB h']
            by_cases h1 : h' = Hash30 k
            · subst h1
              rw [if_pos rfl, if_pos rfl, holdL, hTprobe,
                if_neg (fun he => hch30 he.symm), if_pos rfl]
            · rw [if_neg h1]
              by_cases hagr : h' % 2 ^ (5 * (d + 1)) =
                  Hash30 k % 2 ^ (5 * (d + 1))
              · rw [if_pos hagr, hTprobe]
                have hidxeq : index h' d = index (Hash30 k) d :=
                  ((index_agree_iff hd).mp hagr).2
                have hcoarse : h' % 2 ^ (5 * d) = Hash30 k % 2 ^ (5 * d) :=
                  ((index_agree_iff hd).mp hagr).1
                rw [spine_probe hsp hwroot hrl hcoarse,
                  subProbe_table hd htl, hidxeq, hg, subProbe_leaf hcl]
                by_cases hcc : h' = curNode.hashcode
                · rw [if_pos hcc, if_pos hcc.symm]
                · rw [if_neg hcc, if_neg h1,
                    if_neg (fun he => hcc he.symm)]
              · rw [if_neg hagr]
      · have hclf : curNode.isLeaf = false := by
          cases hb : curNode.isLeaf
          · rfl
          · exact absurd hb hcl
        have hsp2 : Spine (Hash30 k) root (t :: path) curNode (d + 1) :=
          Spine.cons hsp hg hclf
        have hres : putLoop k v (Hash30 k) origRoot ne (fuel + 1) d
            (Hash30 k % 2 ^ (5 * d)) t path =
            putLoop k v (Hash30 k) origRoot ne fuel (d + 1)
              (Hash30 k % 2 ^ (5 * (d + 1))) curNode (t :: path) := by
          simp only [putLoop, hg]
          rw [if_neg hcl, buildHashPath_mod hd]
        rw [hres]
        exact ih (d + 1) curNode (t :: path) _ hsp2 (by omega) rfl

end H32

namespace H32

theorem delLoop_master {k : Key} {root : Node}
    (hwroot : WfN 0 0 root) (hrl : root.isLeaf = false) (m : Hamt)
    (hmr : m.root = some root) :
    ∀ fuel d t path r, Spine (Hash30 k) root path t d → fuel = 6 - d →
      r = delLoop k (Hash30 k) m fuel d t path →
      r.2.2 = ((subProbe (Hash30 k) 0 (some root)).bind
        fun l => leafGet l k).isSome ∧
      r.2.1 = ((subProbe (Hash30 k) 0 (some root)).bind
        fun l => leafGet l k) ∧
      r.1.nentries = (if r.2.2 then m.nentries - 1 else m.nentries) ∧
      (∀ rt, r.1.root = some rt → rt.isLeaf = false ∧ WfN 0 0 rt) ∧
      ∀ h', subProbe h' 0 r.1.root =
        if h' = Hash30 k then
          (subProbe (Hash30 k) 0 (some root)).bind fun l => (leafDel l k).1
        else subProbe h' 0 (some root) := by
  intro fuel
  induction fuel with
  | zero =>
    intro d t path r hsp hfuel hr
    have hwt := spine_wf hsp hwroot
    have htl := spine_isLeaf hsp hrl
    have hd := (WfN_table_char hwt htl).1
    omega
  | succ fuel ih =>
    intro d t path r hsp hfuel hr
    subst hr
    have hwt := spine_wf hsp hwroot
    have htl := spine_isLeaf hsp hrl
    obtain ⟨hd, hpb, hhp, hok, hch⟩ := WfN_table_char hwt htl
    have hprobe_t : subProbe (Hash30 k) 0 (some root) =
        subProbe (Hash30 k) d (some t) := spine_probe hsp hwroot hrl rfl
    cases hg : tGet t (index (Hash30 k) d) with
    | none =>
      have holdL : subProbe (Hash30 k) 0 (some root) = none := by
        rw [hprobe_t, subProbe_table hd htl, hg]
        rfl
      have hres : delLoop k (Hash30 k) m (fuel + 1) d t path =
          (m, none, false) := by
        simp only [delLoop, hg]
      refine ⟨?_, ?_, ?_, ?_, ?_⟩
      · rw [hres, holdL]
        rfl
      · rw [hres, holdL]
        rfl
      · rw [hres]
        rfl
      · intro rt hrt
        rw [hres] at hrt
        rw [hmr] at hrt
        cases hrt
        exact ⟨hrl, hwroot⟩
      · intro h'
        rw [hres]
        show subProbe h' 0 m.root = _
        rw [hmr]
        by_cases h1 : h' = Hash30 k
        · subst h1
          rw [if_pos rfl, holdL]
          rfl
        · rw [if_neg h1]
    | some curNode =>
      by_cases hcl : curNode.isLeaf
      · have hcw : WfN (d + 1) (Hash30 k % 2 ^ (5 * (d + 1))) curNode := by
          have := hch (index (Hash30 k) d) curNode (index_lt hd) hg
          rwa [← mod_pow_five_succ hd] at this
        by_cases hch30 : curNode.hashcode = Hash30 k
        · -- matching leaf: real deletion via leafDel
          have holdL : subProbe (Hash30 k) 0 (some root) = some curNode := by
            rw [hprobe_t, subProbe_table hd htl, hg, subProbe_leaf hcl,
              if_pos hch30]
          have hres : delLoop k (Hash30 k) m (fuel + 1) d t path =
              (⟨copyUp t (tSet t (index (Hash30 k) d)
                  (leafDel curNode k).1) path,
                if (leafDel curNode k).2.2 then m.nentries - 1
                else m.nentries⟩,
                (leafDel curNode k).2.1, (leafDel curNode k).2.2) := by
            simp only [delLoop, hg]
            rw [if_pos hcl, if_neg (by simp [hch30])]
          have hyw : ∀ n, (leafDel curNode k).1 = some n →
              WfN (d + 1) (Hash30 k % 2 ^ (5 * (d + 1))) n := by
            intro n hn
            exact WfN_leafDel hcw hcl hn
          obtain ⟨FA, FB⟩ := copyUp_frame hwroot hrl hsp
            (leafDel curNode k).1 hyw
          refine ⟨?_, ?_, ?_, ?_, ?_⟩
          · rw [hres, holdL]
            show (leafDel curNode k).2.2 = (leafGet curNode k).isSome
            exact leafDel_flag hcl k
          · rw [hres, holdL]
            show (leafDel curNode k).2.1 = leafGet curNode k
            exact leafDel_val hcl k
          · rw [hres]
          · intro rt hrt
            rw [hres] at hrt
            exact FA rt hrt
          · intro h'
            rw [hres]
            show subProbe h' 0 (copyUp t (tSet t (index (Hash30 k) d)
              (leafDel curNode k).1) path) = _
            rw [FB h']
            by_cases h1 : h' = Hash30 k
            · subst h1
              rw [if_pos rfl, if_pos rfl, holdL, Option.some_bind]
              cases hdel : (leafDel curNode k).1 with
              | none => rfl
              | some l' =>
                obtain ⟨hl'leaf, hl'h⟩ := leafDel_node hcl hdel
                rw [subProbe_leaf hl'leaf, if_pos (by rw [hl'h, hch30])]
            · rw [if_neg h1]
              by_cases hagr : h' % 2 ^ (5 * (d + 1)) =
                  Hash30 k % 2 ^ (5 * (d + 1))
              · rw [if_pos hagr]
                have hidxeq : index h' d = index (Hash30 k) d :=
                  ((index_agree_iff hd).mp hagr).2
                have hcoarse : h' % 2 ^ (5 * d) = Hash30 k % 2 ^ (5 * d) :=
                  ((index_agree_iff hd).mp hagr).1
                rw [spine_probe hsp hwroot hrl hcoarse,
                  subProbe_table hd htl, hidxeq, hg, subProbe_leaf hcl,
                  if_neg (fun he => h1 (by rw [← hch30, he]))]
                cases hdel : (leafDel curNode k).1 with
                | none => rfl
                | some l' =>
                  obtain ⟨hl'leaf, hl'h⟩ := leafDel_node hcl hdel
                  rw [subProbe_leaf hl'leaf,
                    if_neg (fun he => h1 (by rw [← hch30, ← hl'h, he]))]
              · rw [if_neg hagr]
        · -- hash-differing leaf: nothing to delete
          have holdL : subProbe (Hash30 k) 0 (some root) = none := by
            rw [hprobe_t, subProbe_table hd htl, hg, subProbe_leaf hcl,
              if_neg hch30]
          have hres : delLoop k (Hash30 k) m (fuel + 1) d t path =
              (m, none, false) := by
            simp only [delLoop, hg]
            rw [if_pos hcl, if_pos (by simp [hch30])]
          refine ⟨?_, ?_, ?_, ?_, ?_⟩
          · rw [hres, holdL]
            rfl
          · rw [hres, holdL]
            rfl
          · rw [hres]
            rfl
          · intro rt hrt
            rw [hres] at hrt
            rw [hmr] at hrt
            cases hrt
            exact ⟨hrl, hwroot⟩
          · intro h'
            rw [hres]
            show subProbe h' 0 m.root = _
            rw [hmr]
            by_cases h1 : h' = Hash30 k
            · subst h1
              rw [if_pos rfl, holdL]
              rfl
            · rw [if_neg h1]
      · have hclf : curNode.isLeaf = false := by
          cases hb : curNode.isLeaf
          · rfl
          · exact absurd hb hcl
        have hsp2 : Spine (Hash30 k) root (t :: path) curNode (d + 1) :=
          Spine.cons hsp hg hclf
        have hres : delLoop k (Hash30 k) m (fuel + 1) d t path =
            delLoop k (Hash30 k) m fuel (d + 1) curNode (t :: path) := by
          simp only [delLoop, hg]
          rw [if_neg hcl]
        rw [hres]
        exact ih (d + 1) curNode (t :: path) _ hsp2 (by omega) rfl

end H32

namespace H32

theorem leafGet_leafDel_none {l : Node} (hl : l.isLeaf = true) {k k' : Key}
    (hne : k' ≠ k) (hres : (leafDel l k).1 = none) : leafGet l k' = none := by
  cases l with
  | flatLeaf h lk lv =>
    by_cases hk : lk = k
    · rw [leafGet, if_neg (by rw [hk]; exact fun he => hne he.symm)]
    · rw [leafDel, if_neg hk] at hres
      cases hres
  | collisionLeaf h kvs =>
    simp only [leafDel] at hres
    cases hf : kvs.find? fun kv => kv.1 == k with
    | none =>
      rw [hf] at hres
      cases hres
    | some kv =>
      rw [hf] at hres
      cases hrest : kvs.filter fun p => ¬p.1 = k with
      | nil => rw [hrest] at hres; cases hres
      | cons p ps =>
        cases ps with
        | nil => rw [hrest] at hres; cases hres
        | cons q t => rw [hrest] at hres; cases hres
  | compressedTable hp nm ns => cases hl
  | fullTable hp nm ns => cases hl

theorem hGet_probe {m : Hamt} (hw : WfH m) (k : Key) :
    m.Get k = (subProbe (Hash30 k) 0 m.root).bind fun l => leafGet l k := by
  rw [hGet_eq_leafFor, leafFor_eq_subProbe hw]

theorem newCT_empty_spec (k : Key) (v : Val) :
    WfN 0 0 (newCompressedTable 0 (Hash30 k)
      (Node.flatLeaf (Hash30 k) k v)) ∧
    ∀ h', subProbe h' 0 (some (newCompressedTable 0 (Hash30 k)
        (Node.flatLeaf (Hash30 k) k v))) =
      if h' = Hash30 k then some (Node.flatLeaf (Hash30 k) k v)
      else none := by
  have hfh : (Node.flatLeaf (Hash30 k) k v).hashcode = Hash30 k := rfl
  have hflf : (Node.flatLeaf (Hash30 k) k v).isLeaf = true := rfl
  have hidx0 : index (Hash30 k) 0 < 32 := index_lt (by omega)
  have hmask : Hash30 k &&& hashPathMask 0 = 0 := by
    rw [and_hashPathMask (by omega)]
    simp [Nat.mod_one]
  have hbit : (1 <<< index (Hash30 k) 0) % 2 ^ 32 =
      2 ^ index (Hash30 k) 0 := shiftLeft_one_mod_of_lt hidx0
  have hT : newCompressedTable 0 (Hash30 k)
      (Node.flatLeaf (Hash30 k) k v) =
      Node.compressedTable 0 (2 ^ index (Hash30 k) 0)
        [Node.flatLeaf (Hash30 k) k v] := by
    simp only [newCompressedTable]
    rw [hmask, hbit]
  rw [hT]
  constructor
  · refine WfN.comp (by omega) (by norm_num) rfl
      (Nat.pow_lt_pow_right (by norm_num) hidx0) ?_ ?_
    · rw [bitCount32_two_pow hidx0]
      rfl
    · intro i c hi hgc
      rw [ctGet_single hidx0 _ hi] at hgc
      by_cases hieq : i = index (Hash30 k) 0
      · rw [if_pos hieq] at hgc
        cases hgc
        refine WfN.flat rfl ?_
        rw [mod_pow_five_succ (by omega), hieq]
        simp [Nat.mod_one]
      · rw [if_neg hieq] at hgc
        cases hgc
  · intro h'
    rw [subProbe_ct (by omega), ctGet_single hidx0 _ (index_lt (by omega))]
    by_cases h1 : h' = Hash30 k
    · subst h1
      rw [if_pos rfl, if_pos rfl, subProbe_leaf hflf, if_pos hfh]
    · rw [if_neg h1]
      by_cases hieq : index h' 0 = index (Hash30 k) 0
      · rw [if_pos hieq, subProbe_leaf hflf,
          if_neg (fun he => h1 (by rw [hfh] at he; exact he.symm))]
      · rw [if_neg hieq]
        rfl

theorem hamt_put_spec {m : Hamt} (hw : WfH m) (k : Key) (v : Val) :
    WfH (m.Put k v).1 ∧
    (m.Put k v).2 = (m.Get k).isNone ∧
    (m.Put k v).1.nentries =
      (if (m.Put k v).2 then m.nentries + 1 else m.nentries) ∧
    (m.Put k v).1.Get k = some v ∧
    ∀ k', k' ≠ k → (m.Put k v).1.Get k' = m.Get k' := by
  cases hr : m.root with
  | none =>
    obtain ⟨hT, hTp⟩ := newCT_empty_spec k v
    have hres : m.Put k v = (⟨some (newCompressedTable 0 (Hash30 k)
        (Node.flatLeaf (Hash30 k) k v)), m.nentries + 1⟩, true) := by
      rw [Hamt.Put, hr]
    have hwr : WfH (m.Put k v).1 := by
      rw [hres]
      exact ⟨rfl, hT⟩
    have hgm : ∀ k'' : Key, m.Get k'' = none := by
      intro k''
      rw [Hamt.Get, hr]
    refine ⟨hwr, ?_, ?_, ?_, ?_⟩
    · rw [hres, hgm k]
      rfl
    · rw [hres]
      rfl
    · rw [hGet_probe hwr, hres, hTp (Hash30 k), if_pos rfl,
        Option.some_bind, leafGet, if_pos rfl]
    · intro k' hne
      rw [hGet_probe hwr, hres, hgm k', hTp (Hash30 k')]
      by_cases hhh : Hash30 k' = Hash30 k
      · rw [if_pos hhh, Option.some_bind, leafGet,
          if_neg (fun he => hne he.symm)]
      · rw [if_neg hhh]
        rfl
  | some root =>
    rw [WfH, hr] at hw
    obtain ⟨hrl, hwroot⟩ := hw
    have hwm : WfH m := by
      rw [WfH, hr]
      exact ⟨hrl, hwroot⟩
    have h0 : Hash30 k % 2 ^ (5 * 0) = 0 := by
      simp [Nat.mod_one]
    obtain ⟨M1, M2, M3, M4⟩ := putLoop_master hwroot hrl m.root m.nentries
      6 0 root []
      (putLoop k v (Hash30 k) m.root m.nentries 6 0 0 root [])
      Spine.nil rfl (by rw [h0])
    have hres : m.Put k v = putLoop k v (Hash30 k) m.root m.nentries 6 0
        0 root [] := by
      rw [Hamt.Put, hr]
      rfl
    obtain ⟨rt, hrt, hrtl, hrtw⟩ := M3
    have hwr : WfH (m.Put k v).1 := by
      rw [hres, WfH, hrt]
      exact ⟨hrtl, hrtw⟩
    have hold : ∀ k'' : Key, m.Get k'' =
        (subProbe (Hash30 k'') 0 (some root)).bind
          fun l => leafGet l k'' := by
      intro k''
      rw [hGet_probe hwm k'', hr]
    refine ⟨hwr, ?_, ?_, ?_, ?_⟩
    · rw [hres, M1, hold k]
    · rw [hres]
      exact M2
    · rw [hGet_probe hwr k, hres, M4 (Hash30 k), if_pos rfl,
        Option.some_bind]
      cases hOL : subProbe (Hash30 k) 0 (some root) with
      | none =>
        show leafGet (Node.flatLeaf (Hash30 k) k v) k = some v
        rw [leafGet, if_pos rfl]
      | some l =>
        show leafGet (leafPut l k v).1 k = some v
        exact leafGet_leafPut_same (subProbe_some hOL).1 k v
    · intro k' hne
      rw [hGet_probe hwr k', hres, M4 (Hash30 k'), hold k']
      by_cases hhh : Hash30 k' = Hash30 k
      · rw [if_pos hhh, Option.some_bind, hhh]
        cases hOL : subProbe (Hash30 k) 0 (some root) with
        | none =>
          show leafGet (Node.flatLeaf (Hash30 k) k v) k' = none.bind _
          rw [leafGet, if_neg (fun he => hne he.symm)]
          rfl
        | some l =>
          show leafGet (leafPut l k v).1 k' = (some l).bind _
          rw [leafGet_leafPut_other (subProbe_some hOL).1 k v hne,
            Option.some_bind]
      · rw [if_neg hhh]

end H32

namespace H32

theorem hamt_del_spec {m : Hamt} (hw : WfH m) (k : Key)
    {res : Hamt × Option Val × Bool} (hdel : m.Del k = some res) :
    WfH res.1 ∧
    res.2.2 = (m.Get k).isSome ∧
    res.2.1 = m.Get k ∧
    res.1.nentries = (if res.2.2 then m.nentries - 1 else m.nentries) ∧
    res.1.Get k = none ∧
    ∀ k', k' ≠ k → res.1.Get k' = m.Get k' := by
  cases hr : m.root with
  | none =>
    rw [Hamt.Del, hr] at hdel
    cases hdel
  | some root =>
    rw [WfH, hr] at hw
    obtain ⟨hrl, hwroot⟩ := hw
    have hwm : WfH m := by
      rw [WfH, hr]
      exact ⟨hrl, hwroot⟩
    rw [Hamt.Del, hr] at hdel
    cases hdel
    obtain ⟨M1, M2, M3, M4, M5⟩ := delLoop_master hwroot hrl m hr
      6 0 root [] (delLoop k (Hash30 k) m (MAXDEPTH + 1) 0 root [])
      Spine.nil rfl rfl
    have hwr : WfH (delLoop k (Hash30 k) m (MAXDEPTH + 1) 0 root []).1 := by
      rw [WfH]
      cases hroot : (delLoop k (Hash30 k) m (MAXDEPTH + 1) 0 root []).1.root
        with
      | none => trivial
      | some rt => exact ⟨(M4 rt hroot).1, (M4 rt hroot).2⟩
    have hold : ∀ k'' : Key, m.Get k'' =
        (subProbe (Hash30 k'') 0 (some root)).bind
          fun l => leafGet l k'' := by
      intro k''
      rw [hGet_probe hwm k'', hr]
    refine ⟨hwr, ?_, ?_, ?_, ?_, ?_⟩
    · rw [M1, hold k]
    · rw [M2, hold k]
    · exact M3
    · rw [hGet_probe hwr k, M5 (Hash30 k), if_pos rfl]
      cases hOL : subProbe (Hash30 k) 0 (some root) with
      | none => rfl
      | some l =>
        simp only [Option.some_bind]
        cases hdl : (leafDel l k).1 with
        | none => rfl
        | some l' =>
          simp only [Option.some_bind]
          exact leafGet_leafDel_same (subProbe_some hOL).1 hdl
    · intro k' hne
      rw [hGet_probe hwr k', M5 (Hash30 k'), hold k']
      by_cases hhh : Hash30 k' = Hash30 k
      · rw [if_pos hhh, hhh]
        cases hOL : subProbe (Hash30 k) 0 (some root) with
        | none => rfl
        | some l =>
          simp only [Option.some_bind]
          cases hdl : (leafDel l k).1 with
          | none =>
            rw [leafGet_leafDel_none (subProbe_some hOL).1 hne hdl]
            rfl
          | some l' =>
            simp only [Option.some_bind]
            exact leafGet_leafDel_other (subProbe_some hOL).1 hne hdl
      · rw [if_neg hhh]

end H32

namespace H32

theorem put_probe {m : Hamt} (hw : WfH m) (k : Key) (v : Val) :
    ∀ h', subProbe h' 0 ((m.Put k v).1).root =
      if h' = Hash30 k then
        some (match subProbe (Hash30 k) 0 m.root with
              | none => Node.flatLeaf (Hash30 k) k v
              | some l => (leafPut l k v).1)
      else subProbe h' 0 m.root := by
  intro h'
  cases hr : m.root with
  | none =>
    obtain ⟨hT, hTp⟩ := newCT_empty_spec k v
    have hres : m.Put k v = (⟨some (newCompressedTable 0 (Hash30 k)
        (Node.flatLeaf (Hash30 k) k v)), m.nentries + 1⟩, true) := by
      rw [Hamt.Put, hr]
    rw [hres, hTp h']
    by_cases h1 : h' = Hash30 k
    · rw [if_pos h1, if_pos h1]
      rfl
    · rw [if_neg h1, if_neg h1]
      rfl
  | some root =>
    rw [WfH, hr] at hw
    obtain ⟨hrl, hwroot⟩ := hw
    have h0 : Hash30 k % 2 ^ (5 * 0) = 0 := by
      simp [Nat.mod_one]
    obtain ⟨M1, M2, M3, M4⟩ := putLoop_master hwroot hrl m.root m.nentries
      6 0 root []
      (putLoop k v (Hash30 k) m.root m.nentries 6 0 0 root [])
      Spine.nil rfl (by rw [h0])
    have hres : m.Put k v = putLoop k v (Hash30 k) m.root m.nentries 6 0
        0 root [] := by
      rw [Hamt.Put, hr]
      rfl
    rw [hres, M4 h']

theorem del_probe {m : Hamt} (hw : WfH m) (k : Key)
    {res : Hamt × Option Val × Bool} (hdel : m.Del k = some res) :
    ∀ h', subProbe h' 0 res.1.root =
      if h' = Hash30 k then
        (subProbe (Hash30 k) 0 m.root).bind fun l => (leafDel l k).1
      else subProbe h' 0 m.root := by
  intro h'
  cases hr : m.root with
  | none =>
    rw [Hamt.Del, hr] at hdel
    cases hdel
  | some root =>
    rw [WfH, hr] at hw
    obtain ⟨hrl, hwroot⟩ := hw
    rw [Hamt.Del, hr] at hdel
    cases hdel
    obtain ⟨M1, M2, M3, M4, M5⟩ := delLoop_master hwroot hrl m hr
      6 0 root [] (delLoop k (Hash30 k) m (MAXDEPTH + 1) 0 root [])
      Spine.nil rfl rfl
    rw [M5 h']

theorem getLoopSteps_spec (h30 : Nat) (k : Key) :
    ∀ fuel d t, (getLoopSteps h30 k fuel d t).1 = getLoop h30 k fuel d t ∧
      (getLoopSteps h30 k fuel d t).2 ≤ fuel := by
  intro fuel
  induction fuel with
  | zero =>
    intro d t
    exact ⟨rfl, Nat.le_refl 0⟩
  | succ fuel ih =>
    intro d t
    cases hg : tGet t (index h30 d) with
    | none =>
      constructor
      · simp [getLoopSteps, getLoop, hg]
      · simp [getLoopSteps, hg]
    | some c =>
      by_cases hcl : c.isLeaf
      · constructor
        · simp [getLoopSteps, getLoop, hg, hcl]
        · simp [getLoopSteps, hg, hcl]
      · constructor
        · simp only [getLoopSteps, getLoop, hg]
          rw [if_neg hcl, if_neg hcl]
          exact (ih (d + 1) c).1
        · simp only [getLoopSteps, hg]
          rw [if_neg hcl]
          exact Nat.succ_le_succ (ih (d + 1) c).2

theorem putLoopSteps_spec (k : Key) (v : Val) (h30 : Nat)
    (origRoot : Option Node) (ne : Nat) :
    ∀ fuel d hp t path,
      (putLoopSteps k v h30 origRoot ne fuel d hp t path).1 =
        putLoop k v h30 origRoot ne fuel d hp t path ∧
      (putLoopSteps k v h30 origRoot ne fuel d hp t path).2 ≤ fuel := by
  intro fuel
  induction fuel with
  | zero =>
    intro d hp t path
    exact ⟨rfl, Nat.le_refl 0⟩
  | succ fuel ih =>
    intro d hp t path
    cases hg : tGet t (index h30 d) with
    | none =>
      constructor
      · simp [putLoopSteps, putLoop, hg]
      · simp [putLoopSteps, hg]
    | some c =>
      by_cases hcl : c.isLeaf
      · by_cases hch : c.hashcode = h30
        · constructor
          · simp [putLoopSteps, putLoop, hg, hcl, hch]
          · simp [putLoopSteps, hg, hcl, hch]
        · constructor
          · simp only [putLoopSteps, putLoop, hg]
            rw [if_pos hcl, if_pos hcl, if_neg hch, if_neg hch]
          · simp only [putLoopSteps, hg]
            rw [if_pos hcl, if_neg hch]
            simp
      · constructor
        · simp only [putLoopSteps, putLoop, hg]
          rw [if_neg hcl, if_neg hcl]
          exact (ih (d + 1) _ c (t :: path)).1
        · simp only [putLoopSteps, hg]
          rw [if_neg hcl]
          exact Nat.succ_le_succ (ih (d + 1) _ c (t :: path)).2

theorem delLoopSteps_spec (k : Key) (h30 : Nat) (h : Hamt) :
    ∀ fuel d t path,
      (delLoopSteps k h30 h fuel d t path).1 =
        delLoop k h30 h fuel d t path ∧
      (delLoopSteps k h30 h fuel d t path).2 ≤ fuel := by
  intro fuel
  induction fuel with
  | zero =>
    intro d t path
    exact ⟨rfl, Nat.le_refl 0⟩
  | succ fuel ih =>
    intro d t path
    cases hg : tGet t (index h30 d) with
    | none =>
      constructor
      · simp [delLoopSteps, delLoop, hg]
      · simp [delLoopSteps, hg]
    | some c =>
      by_cases hcl : c.isLeaf
      · by_cases hch : c.hashcode = h30
        · constructor
          · simp [delLoopSteps, delLoop, hg, hcl, hch]
          · simp [delLoopSteps, hg, hcl, hch]
        · constructor
          · simp [delLoopSteps, delLoop, hg, hcl, hch]
          · simp [delLoopSteps, hg, hcl, hch]
      · constructor
        · simp only [delLoopSteps, delLoop, hg]
          rw [if_neg hcl, if_neg hcl]
          exact (ih (d + 1) c (t :: path)).1
        · simp only [delLoopSteps, hg]
          rw [if_neg hcl]
          exact Nat.succ_le_succ (ih (d + 1) c (t :: path)).2

end H32

namespace H64

theorem h64_putLoop_discards (k : Key) (v : Val) (h60 : Nat) :
    ∀ fuel d t path r, putLoop k v h60 fuel d t path = some r →
      r.1 = ⟨none, 0⟩ := by
  intro fuel
  induction fuel with
  | zero =>
    intro d t path r hput
    rw [putLoop] at hput
    cases hput
    rfl
  | succ fuel ih =>
    intro d t path r hput
    rw [putLoop] at hput
    cases hcg : ctGet t h60 with
    | none =>
      rw [hcg] at hput
      cases hput
    | some curNode =>
      rw [hcg, Option.some_bind] at hput
      cases curNode with
      | none =>
        simp only at hput
        cases hset : ctSet t h60 (some (NewFlatLeaf h60 k v)) with
        | none =>
          rw [hset] at hput
          cases hput
        | some nt =>
          rw [hset, Option.some_bind] at hput
          cases hcu : copyUp t nt path with
          | none =>
            rw [hcu] at hput
            cases hput
          | some hm =>
            rw [hcu] at hput
            cases hput
            rfl
      | some oldNode =>
        simp only at hput
        by_cases hl : oldNode.isLeaf
        · rw [if_pos hl] at hput
          by_cases he : hash60Equal oldNode.hashcode h60
          · rw [if_pos he] at hput
            cases hcu : copyUpLeaf oldNode (leafPut oldNode k v).1
                (t :: path) with
            | none =>
              rw [hcu] at hput
              cases hput
            | some hm =>
              rw [hcu] at hput
              cases hput
              rfl
          · rw [if_neg he] at hput
            cases hn2 : NewCompressedTable2 d (h60 &&& hashPathMask d)
                oldNode (NewFlatLeaf h60 k v) with
            | none =>
              rw [hn2] at hput
              cases hput
            | some colT =>
              rw [hn2, Option.some_bind] at hput
              cases hset : ctSet t h60 (some colT) with
              | none =>
                rw [hset] at hput
                cases hput
              | some nt =>
                rw [hset, Option.some_bind] at hput
                cases hcu : copyUp t nt path with
                | none =>
                  rw [hcu] at hput
                  cases hput
                | some hm =>
                  rw [hcu] at hput
                  cases hput
                  rfl
        · rw [if_neg hl] at hput
          exact ih _ _ _ _ hput

end H64

namespace H32

theorem runOps_inv :
    ∀ (ops : List Op) (m0 : Hamt) (S0 : Finset Key), WfH m0 →
      (∀ k : Key, (m0.Get k).isSome ↔ k ∈ S0) → m0.nentries = S0.card →
      ∀ m, runOps m0 ops = some m →
        WfH m ∧ (∀ k : Key, (m.Get k).isSome ↔ k ∈ modelKeysFrom S0 ops) ∧
          m.nentries = (modelKeysFrom S0 ops).card := by
  intro ops
  induction ops with
  | nil =>
    intro m0 S0 hw hmem hcard m hrun
    rw [runOps] at hrun
    cases hrun
    exact ⟨hw, hmem, hcard⟩
  | cons op ops ih =>
    intro m0 S0 hw hmem hcard m hrun
    cases op with
    | put k v =>
      obtain ⟨hw1, hins, hne, hget, hother⟩ := hamt_put_spec hw k v
      rw [runOps, applyOp, Option.some_bind] at hrun
      rw [modelKeysFrom]
      apply ih (m0.Put k v).1 (insert k S0) hw1 ?_ ?_ m hrun
      · intro k''
        by_cases hk : k'' = k
        · subst hk
          rw [hget]
          simp
        · rw [hother k'' hk, Finset.mem_insert]
          rw [hmem k'']
          simp [hk]
      · rw [hne, hins]
        by_cases hk : (m0.Get k).isSome
        · have hkin : k ∈ S0 := (hmem k).mp hk
          rw [Finset.insert_eq_self.mpr hkin, ← hcard]
          simp [Option.isNone_iff_eq_none]
          intro hnone
          rw [hnone] at hk
          cases hk
        · have hknot : k ∉ S0 := fun hin => hk ((hmem k).mpr hin)
          rw [Finset.card_insert_of_not_mem hknot, ← hcard]
          have : (m0.Get k).isNone = true := by
            cases hg : m0.Get k
            · rfl
            · rw [hg] at hk
              exact absurd rfl hk
          rw [this]
          simp
    | del k =>
      rw [runOps, applyOp] at hrun
      cases hd : m0.Del k with
      | none =>
        rw [hd] at hrun
        cases hrun
      | some res =>
        rw [hd] at hrun
        simp only [Option.map_some', Option.some_bind] at hrun
        obtain ⟨hw1, hflag, hval, hne, hgone, hother⟩ := hamt_del_spec hw k hd
        rw [modelKeysFrom]
        apply ih res.1 (S0.erase k) hw1 ?_ ?_ m hrun
        · intro k''
          by_cases hk : k'' = k
          · subst hk
            rw [hgone]
            simp
          · rw [hother k'' hk, Finset.mem_erase]
            rw [hmem k'']
            simp [hk]
        · rw [hne, hflag]
          by_cases hk : (m0.Get k).isSome
          · have hkin : k ∈ S0 := (hmem k).mp hk
            rw [Finset.card_erase_of_mem hkin, ← hcard, hk]
            simp
          · have hknot : k ∉ S0 := fun hin => hk ((hmem k).mpr hin)
            rw [Finset.erase_eq_of_not_mem hknot, ← hcard]
            have : (m0.Get k).isSome = false := by
              cases hg : m0.Get k
              · rfl
              · rw [hg] at hk
                exact absurd rfl hk
            rw [this]
            simp

end H32

namespace H64

theorem and_mask_idem (x m : Nat) : (x &&& m) &&& m = x &&& m := by
  apply Nat.eq_of_testBit_eq
  intro j
  simp [Nat.testBit_land, Bool.and_assoc]

theorem h64_index_lt (h d : Nat) (hd : d ≤ 9) : index h d < 64 := by
  have hmask : idxMask d = 63 <<< (d * NBITS) := by
    rw [idxMask]
    apply Nat.mod_eq_of_lt
    calc ((1 <<< NBITS) - 1) <<< (d * NBITS)
        = 63 * 2 ^ (d * NBITS) := Nat.shiftLeft_eq ..
      _ ≤ 63 * 2 ^ 54 := by
          apply Nat.mul_le_mul_left
          apply Nat.pow_le_pow_right (by norm_num)
          simp only [NBITS]
          omega
      _ < 2 ^ 64 := by norm_num
  rw [index, hmask, H32.and_shiftLeft_shiftRight]
  have hle : (h >>> (d * NBITS)) &&& 63 ≤ 63 := Nat.and_le_right
  omega

theorem h64_put_empty (k : Key) (v : Val) :
    ∃ r, EMPTY.Put k v = some r ∧ r.1.root ≠ none ∧ r.1.nentries = 0 ∧
      r.1.Get k = some v := by
  have hlf : (NewFlatLeaf (hash64 k &&& sixtyBitMask) k v).hashcode =
      hash64 k &&& sixtyBitMask := by
    show ((hash64 k &&& sixtyBitMask) &&& sixtyBitMask) = _
    exact and_mask_idem _ _
  have hflfl : (NewFlatLeaf (hash64 k &&& sixtyBitMask) k v).isLeaf =
      true := rfl
  have hidx : index (hash64 k &&& sixtyBitMask) 0 < 64 :=
    h64_index_lt _ 0 (by omega)
  have hbit : (1 <<< index (hash64 k &&& sixtyBitMask) 0) % 2 ^ 64 =
      2 ^ index (hash64 k &&& sixtyBitMask) 0 := by
    rw [Nat.shiftLeft_eq, Nat.one_mul]
    exact Nat.mod_eq_of_lt (Nat.pow_lt_pow_right (by norm_num) hidx)
  refine ⟨(⟨some (Node.compressedTable (hash64 k &&& sixtyBitMask) 0
      ((1 <<< index (hash64 k &&& sixtyBitMask) 0) % 2 ^ 64)
      [some (NewFlatLeaf (hash64 k &&& sixtyBitMask) k v)]), 0⟩, true),
    ?_, by simp, rfl, ?_⟩
  · rw [Hamt.Put]
    show (NewCompressedTable 0 (hash64 k &&& sixtyBitMask)
      (NewFlatLeaf (hash64 k &&& sixtyBitMask) k v)).map _ = _
    rw [NewCompressedTable, if_pos (by norm_num), hlf, Option.map_some']
  · have hcget : ctGet (Node.compressedTable (hash64 k &&& sixtyBitMask) 0
        ((1 <<< index (hash64 k &&& sixtyBitMask) 0) % 2 ^ 64)
        [some (NewFlatLeaf (hash64 k &&& sixtyBitMask) k v)])
        (hash64 k &&& sixtyBitMask) =
        some (some (NewFlatLeaf (hash64 k &&& sixtyBitMask) k v)) := by
      rw [ctGet]
      simp only [hbit]
      rw [if_neg (by
        rw [Nat.and_self]
        exact (Nat.pos_pow_of_pos _ (by norm_num)).ne'),
        H32.and_two_pow_sub_one_self]
      norm_num [show BitCount64 0 = 0 by decide]
    have hpe : hashPathEqual 0 (hash64 k &&& sixtyBitMask)
        (NewFlatLeaf (hash64 k &&& sixtyBitMask) k v).hashcode = true := by
      rw [hashPathEqual, show hashPathMask 0 = 0 by decide]
      simp
    rw [Hamt.Get]
    show (match ctGet (Node.compressedTable (hash64 k &&& sixtyBitMask) 0
        ((1 <<< index (hash64 k &&& sixtyBitMask) 0) % 2 ^ 64)
        [some (NewFlatLeaf (hash64 k &&& sixtyBitMask) k v)])
        (hash64 k &&& sixtyBitMask) with
      | none => none
      | some first =>
        getLoop (hash64 k &&& sixtyBitMask) k (MAXDEPTH + 1) 0 first) =
      some v
    rw [hcget]
    show getLoop (hash64 k &&& sixtyBitMask) k (9 + 1) 0
      (some (NewFlatLeaf (hash64 k &&& sixtyBitMask) k v)) = some v
    rw [getLoop, if_pos hflfl, if_pos hpe]
    simp [NewFlatLeaf, leafGet]

end H64

namespace H32

/-- Claim C1: get after put — on any map satisfying the representation
invariant, performing `Put k v` and then `Get k` on the resulting map
returns the value with the found flag (embedded as `some v`). -/
theorem c1_get_after_put (m : Hamt) (k : Key) (v : Val) (hw : WfH m) :
    ((m.Put k v).1).Get k = some v :=
  (hamt_put_spec hw k v).2.2.2.1

theorem c1_get_after_put_witness :
    ((EMPTY.Put ⟨5, 1⟩ 42).1).Get ⟨5, 1⟩ = some 42 :=
  c1_get_after_put EMPTY ⟨5, 1⟩ 42 trivial

/-- Claim C2: referential fidelity (persistence) — after `m2 = m1.Put k v`
the original map `m1` is a value of the embedding and is structurally
unchanged; the provable observable content is that `m2.Get k = some v`
while every other key reads through `m2` exactly the answer `m1` gives. -/
theorem c2_referential_fidelity (m1 : Hamt) (k : Key) (v : Val)
    (hw : WfH m1) :
    ((m1.Put k v).1).Get k = some v ∧
    ∀ k', k' ≠ k → ((m1.Put k v).1).Get k' = m1.Get k' :=
  ⟨(hamt_put_spec hw k v).2.2.2.1, (hamt_put_spec hw k v).2.2.2.2⟩

theorem c2_referential_fidelity_witness :
    ((EMPTY.Put ⟨5, 1⟩ 42).1).Get ⟨5, 1⟩ = some 42 ∧
    ∀ k', k' ≠ (⟨5, 1⟩ : Key) →
      ((EMPTY.Put ⟨5, 1⟩ 42).1).Get k' = EMPTY.Get k' :=
  c2_referential_fidelity EMPTY ⟨5, 1⟩ 42 trivial

/-- Claim C3, amended: full-hash collision handling holds on maps with no
pre-existing leaf for the shared hashcode.  Inserting two distinct keys of
equal full hash produces a reachable two-entry collision leaf, both keys are
retrievable, and deleting one yields a flat leaf from which the remaining
key is still retrievable.  (Unamended the claim fails: over a map already
holding a third key of the same hash the post-delete leaf keeps two entries
and stays a collision leaf.) -/
theorem c3_collision_amended (m : Hamt) (k1 k2 : Key) (v1 v2 : Val)
    (hw : WfH m) (hne : k1 ≠ k2) (hh : Hash30 k1 = Hash30 k2)
    (hno : leafFor m (Hash30 k1) = none) :
    leafFor ((m.Put k1 v1).1.Put k2 v2).1 (Hash30 k1) =
      some (Node.collisionLeaf (Hash30 k1) [(k1, v1), (k2, v2)]) ∧
    ((m.Put k1 v1).1.Put k2 v2).1.Get k1 = some v1 ∧
    ((m.Put k1 v1).1.Put k2 v2).1.Get k2 = some v2 ∧
    ∀ res, ((m.Put k1 v1).1.Put k2 v2).1.Del k2 = some res →
      leafFor res.1 (Hash30 k1) =
        some (Node.flatLeaf (Hash30 k1) k1 v1) ∧
      res.1.Get k1 = some v1 := by
  obtain ⟨hw1, hins1, hne1, hget1, hother1⟩ := hamt_put_spec hw k1 v1
  obtain ⟨hw2, hins2, hne2, hget2, hother2⟩ := hamt_put_spec hw1 k2 v2
  have hprobe0 : subProbe (Hash30 k1) 0 m.root = none := by
    rw [← leafFor_eq_subProbe hw]
    exact hno
  have hprobe1 : subProbe (Hash30 k1) 0 ((m.Put k1 v1).1).root =
      some (Node.flatLeaf (Hash30 k1) k1 v1) := by
    rw [put_probe hw k1 v1 (Hash30 k1), if_pos rfl, hprobe0]
  have hprobe2 : subProbe (Hash30 k1) 0
      (((m.Put k1 v1).1.Put k2 v2).1).root =
      some (Node.collisionLeaf (Hash30 k1) [(k1, v1), (k2, v2)]) := by
    rw [put_probe hw1 k2 v2 (Hash30 k1), if_pos hh, ← hh, hprobe1]
    show some (leafPut (Node.flatLeaf (Hash30 k1) k1 v1) k2 v2).1 = _
    rw [leafPut, if_neg hne]
  refine ⟨?_, ?_, hget2, ?_⟩
  · rw [leafFor_eq_subProbe hw2]
    exact hprobe2
  · rw [hother2 k1 hne]
    exact hget1
  · intro res hdel
    obtain ⟨hw3, hflag3, hval3, hne3, hgone3, hother3⟩ :=
      hamt_del_spec hw2 k2 hdel
    have hfind : ([(k1, v1), (k2, v2)].find? fun kv => kv.1 == k2) =
        some (k2, v2) := by
      rw [List.find?_cons_of_neg _ (by simp [hne]),
        List.find?_cons_of_pos _ (by simp)]
    have hfilt : ([(k1, v1), (k2, v2)].filter fun p => ¬p.1 = k2) =
        [(k1, v1)] := by
      rw [List.filter_cons_of_pos (by simp [hne]),
        List.filter_cons_of_neg (by simp)]
      rfl
    constructor
    · rw [leafFor_eq_subProbe hw3, del_probe hw2 k2 hdel (Hash30 k1),
        if_pos hh, ← hh, hprobe2, Option.some_bind]
      simp only [leafDel, hfind, hfilt]
    · rw [hother3 k1 hne]
      rw [hother2 k1 hne]
      exact hget1

theorem c3_collision_counterexample :
    ((((EMPTY.Put ⟨5, 3⟩ 9).1.Put ⟨5, 1⟩ 10).1.Put ⟨5, 2⟩ 11).1.Del
        ⟨5, 2⟩).map (fun res => leafFor res.1 (Hash30 ⟨5, 1⟩)) =
      some (some (Node.collisionLeaf 5 [(⟨5, 3⟩, 9), (⟨5, 1⟩, 10)])) := rfl

theorem c3_collision_witness :
    leafFor ((EMPTY.Put ⟨5, 1⟩ 10).1.Put ⟨5, 2⟩ 11).1 (Hash30 ⟨5, 1⟩) =
      some (Node.collisionLeaf (Hash30 ⟨5, 1⟩)
        [(⟨5, 1⟩, 10), (⟨5, 2⟩, 11)]) ∧
    ((EMPTY.Put ⟨5, 1⟩ 10).1.Put ⟨5, 2⟩ 11).1.Get ⟨5, 1⟩ = some 10 ∧
    ((EMPTY.Put ⟨5, 1⟩ 10).1.Put ⟨5, 2⟩ 11).1.Get ⟨5, 2⟩ = some 11 ∧
    ∀ res, ((EMPTY.Put ⟨5, 1⟩ 10).1.Put ⟨5, 2⟩ 11).1.Del ⟨5, 2⟩ =
        some res →
      leafFor res.1 (Hash30 ⟨5, 1⟩) =
        some (Node.flatLeaf (Hash30 ⟨5, 1⟩) ⟨5, 1⟩ 10) ∧
      res.1.Get ⟨5, 1⟩ = some 10 :=
  c3_collision_amended EMPTY ⟨5, 1⟩ ⟨5, 2⟩ 10 11 trivial (by decide)
    (by decide) rfl

/-- Claim C4: sparse-table lookup — `get(i)` on a compressed table returns
nothing when bit `i` of the bitmap is clear, and otherwise the child at
position `popcount(bitmap & ((1 << i) - 1))` of the contiguous child
sequence. -/
theorem c4_sparse_lookup (nm : Nat) (ns : List Node) (i : Nat)
    (hi : i < 32) :
    (nm.testBit i = false → ctGet nm ns i = none) ∧
    (nm.testBit i = true →
      ctGet nm ns i = ns[bitCount32 (nm &&& (2 ^ i - 1))]?) :=
  ⟨fun hb => ctGet_eq_none hi hb, fun hb => ctGet_eq_pos hi hb⟩

theorem c4_sparse_lookup_witness :
    ((136 : Nat).testBit 7 = false →
      ctGet 136 [Node.flatLeaf 3 ⟨3, 0⟩ 1, Node.flatLeaf 7 ⟨7, 0⟩ 2] 7 =
        none) ∧
    ((136 : Nat).testBit 7 = true →
      ctGet 136 [Node.flatLeaf 3 ⟨3, 0⟩ 1, Node.flatLeaf 7 ⟨7, 0⟩ 2] 7 =
        [Node.flatLeaf 3 ⟨3, 0⟩ 1,
          Node.flatLeaf 7 ⟨7, 0⟩ 2][bitCount32 (136 &&& (2 ^ 7 - 1))]?) :=
  c4_sparse_lookup 136 [Node.flatLeaf 3 ⟨3, 0⟩ 1, Node.flatLeaf 7 ⟨7, 0⟩ 2]
    7 (by decide)

/-- Claim C5: size accounting — after any sequence of put and del
operations from the empty map, `nentries` equals the number of distinct
inserted-minus-deleted keys; moreover put increments the size field exactly
when it reports inserted, and del decrements it exactly when it reports
deleted. -/
theorem c5_size_accounting (ops : List Op) (m : Hamt)
    (hrun : runOps EMPTY ops = some m) :
    m.nentries = (modelKeys ops).card ∧
    (∀ (k : Key) (v : Val), (m.Put k v).1.nentries =
      (if (m.Put k v).2 then m.nentries + 1 else m.nentries)) ∧
    ∀ (k : Key) (res : Hamt × Option Val × Bool), m.Del k = some res →
      res.1.nentries = (if res.2.2 then m.nentries - 1 else m.nentries) := by
  obtain ⟨hwm, hmem, hcard⟩ := runOps_inv ops EMPTY ∅ trivial
    (by intro k; rw [show EMPTY.Get k = none from rfl]; simp) rfl m hrun
  refine ⟨hcard, ?_, ?_⟩
  · intro k v
    exact (hamt_put_spec hwm k v).2.2.1
  · intro k res hd
    exact (hamt_del_spec hwm k hd).2.2.2.1

theorem c5_size_accounting_witness :
    (Hamt.mk none 0).nentries =
      (modelKeys [Op.put ⟨5, 3⟩ 7, Op.del ⟨5, 3⟩]).card ∧
    (∀ (k : Key) (v : Val), ((Hamt.mk none 0).Put k v).1.nentries =
      (if ((Hamt.mk none 0).Put k v).2 then (Hamt.mk none 0).nentries + 1
       else (Hamt.mk none 0).nentries)) ∧
    ∀ (k : Key) (res : Hamt × Option Val × Bool),
      (Hamt.mk none 0).Del k = some res →
      res.1.nentries = (if res.2.2 then (Hamt.mk none 0).nentries - 1
        else (Hamt.mk none 0).nentries) :=
  c5_size_accounting [Op.put ⟨5, 3⟩ 7, Op.del ⟨5, 3⟩] (Hamt.mk none 0) rfl

end H32

/-- Claim C6: hash-path build — the 32-bit `buildHashPath` returns
`p ||| (i <<< (d*NBITS))` for every prefix valid at depth `d`; the claim
fails on the 64-bit variant, whose mis-parenthesised guard panics on every
valid prefix (embedded as `none`) and whose body combines with `&`, so the
non-panicking case `buildHashPath 1 0 2` yields `1 & 2 = 0` instead of
`1 ||| 2 = 3`. -/
theorem c6_hashpath_build :
    (∀ p i d, p < 2 ^ (5 * d) → i < 32 → d ≤ 5 →
      H32.buildHashPath p i d = p ||| (i <<< (5 * d))) ∧
    H64.buildHashPath 0 1 3 = none ∧
    H64.buildHashPath 1 0 2 = some 0 := by
  refine ⟨?_, by decide, by decide⟩
  intro p i d hp hi hd
  rw [H32.buildHashPath_eq hp hi hd, H32.lor_shiftLeft_eq_add hp]
  omega

theorem c6_hashpath_build_witness :
    H32.buildHashPath 3 4 1 = 3 ||| (4 <<< (5 * 1)) :=
  c6_hashpath_build.1 3 4 1 (by decide) (by decide) (by decide)

namespace H64

/-- Claim C7, amended: the 64-bit leaf `del` of an absent key never returns
self for the cases the claim names — a flat leaf with a different key
returns `(nil, no value, false)`, and a two-entry collision leaf without
the key also returns `(nil, no value, false)`; only collision leaves with
another entry count return an equal copy `(self-copy, no value, false)`. -/
theorem c7_leaf_del_absent_amended (h : Nat) (lk : Key) (lv : Val) (k : Key)
    (kvs : List (Key × Val)) :
    (lk ≠ k → leafDel (.flatLeaf h lk lv) k = (none, none, false)) ∧
    (kvs.length = 2 → (∀ kv ∈ kvs, kv.1 ≠ k) →
      leafDel (.collisionLeaf h kvs) k = (none, none, false)) ∧
    (kvs.length ≠ 2 → (∀ kv ∈ kvs, kv.1 ≠ k) →
      leafDel (.collisionLeaf h kvs) k =
        (some (.collisionLeaf h kvs), none, false)) := by
  refine ⟨?_, ?_, ?_⟩
  · intro hne
    show flatLeafDel h lk lv k = _
    rw [flatLeafDel, if_neg hne]
  · intro hlen hall
    cases kvs with
    | nil => cases hlen
    | cons p0 t =>
      cases t with
      | nil => cases hlen
      | cons p1 t2 =>
        cases t2 with
        | cons q t3 => simp at hlen
        | nil =>
          show collisionLeafDel h [p0, p1] k = _
          rw [collisionLeafDel, if_pos hlen]
          show (if k = p0.1 then
              (some (NewFlatLeaf h p1.1 p1.2), some p0.2, true)
            else if k = p1.1 then
              (some (NewFlatLeaf h p0.1 p0.2), some p1.2, true)
            else (none, none, false)) = _
          rw [if_neg (fun he => hall p0 (by simp) he.symm),
            if_neg (fun he => hall p1 (by simp) he.symm)]
  · intro hlen hall
    show collisionLeafDel h kvs k = _
    have hfilt : (kvs.filter fun p => ¬k = p.1) = kvs := by
      apply List.filter_eq_self.mpr
      intro p hp
      have hp' : ¬ k = p.1 := fun he => hall p hp he.symm
      simp [hp']
    have hfind : (kvs.find? fun p => k == p.1) = none := by
      apply List.find?_eq_none.mpr
      intro p hp
      have hp' : ¬ k = p.1 := fun he => hall p hp he.symm
      simp [hp']
    simp only [collisionLeafDel]
    rw [if_neg hlen, hfind, hfilt]

theorem c7_leaf_del_absent_counterexample :
    leafDel (Node.flatLeaf 5 ⟨5, 1⟩ 10) ⟨5, 2⟩ = (none, none, false) ∧
    leafDel (Node.collisionLeaf 5 [(⟨5, 1⟩, 10), (⟨5, 4⟩, 11)]) ⟨5, 2⟩ =
      (none, none, false) := ⟨rfl, rfl⟩

theorem c7_leaf_del_absent_witness :
    leafDel (Node.flatLeaf 7 ⟨7, 1⟩ 10) ⟨7, 2⟩ = (none, none, false) ∧
    leafDel (Node.collisionLeaf 7 [(⟨7, 1⟩, 10), (⟨7, 4⟩, 11)]) ⟨7, 2⟩ =
      (none, none, false) ∧
    leafDel (Node.collisionLeaf 7
        [(⟨7, 1⟩, 10), (⟨7, 4⟩, 11), (⟨7, 6⟩, 12)]) ⟨7, 2⟩ =
      (some (Node.collisionLeaf 7
        [(⟨7, 1⟩, 10), (⟨7, 4⟩, 11), (⟨7, 6⟩, 12)]), none, false) :=
  ⟨(c7_leaf_del_absent_amended 7 ⟨7, 1⟩ 10 ⟨7, 2⟩ []).1 (by decide),
   (c7_leaf_del_absent_amended 7 ⟨7, 1⟩ 10 ⟨7, 2⟩
      [(⟨7, 1⟩, 10), (⟨7, 4⟩, 11)]).2.1 rfl (by decide),
   (c7_leaf_del_absent_amended 7 ⟨7, 1⟩ 10 ⟨7, 2⟩
      [(⟨7, 1⟩, 10), (⟨7, 4⟩, 11), (⟨7, 6⟩, 12)]).2.2 (by decide)
      (by decide)⟩

/-- Claim C10 (implicit): in the 64-bit variant, `Put` on every non-empty
map discards the maps built by `copyUp`/`copyUpLeaf` and returns the
freshly initialised `Hamt{nil, 0}`; only a put into the empty map returns
a map that contains the new key (with `nentries` still 0). -/
theorem c10_put_discards :
    (∀ (m : Hamt) (root : Node) (k : Key) (v : Val)
        (r : Hamt × Bool), m.root = some root → m.Put k v = some r →
      r.1 = ⟨none, 0⟩) ∧
    ∀ (k : Key) (v : Val), ∃ r, EMPTY.Put k v = some r ∧
      r.1.root ≠ none ∧ r.1.nentries = 0 ∧ r.1.Get k = some v := by
  constructor
  · intro m root k v r hroot hput
    rw [Hamt.Put, hroot] at hput
    exact h64_putLoop_discards k v _ _ _ _ _ _ hput
  · exact h64_put_empty

end H64

theorem c10_put_discards_witness :
    ((⟨none, 0⟩ : H64.Hamt), true).1 = (⟨none, 0⟩ : H64.Hamt) ∧
    ∃ r, H64.EMPTY.Put ⟨1, 1⟩ 2 = some r ∧
      r.1.root ≠ none ∧ r.1.nentries = 0 ∧ r.1.Get ⟨1, 1⟩ = some 2 :=
  ⟨H64.c10_put_discards.1 ⟨some (H64.Node.flatLeaf 0 ⟨0, 0⟩ 0), 5⟩
      (H64.Node.flatLeaf 0 ⟨0, 0⟩ 0) ⟨1, 1⟩ 2 (⟨none, 0⟩, true) rfl rfl,
   H64.c10_put_discards.2 ⟨1, 1⟩ 2⟩

namespace H32

/-- Claim C8: promotion threshold — inserting into an empty slot of a
sparse table is promoted to a dense (`fullTable`) result exactly when the
new occupancy reaches `TABLE_CAPACITY / 2`; below the threshold the result
stays a sparse (`compressedTable`) node. -/
theorem c8_promotion_threshold (hp nm : Nat) (ns : List Node) (i : Nat)
    (n : Node) (hi : i < 32) (hb : nm.testBit i = false) :
    (TABLE_CAPACITY / 2 ≤ bitCount32 (nm ||| 2 ^ i) →
      ∃ nm' ns', ctSet hp nm ns i (some n) =
        some (Node.fullTable hp nm' ns')) ∧
    (bitCount32 (nm ||| 2 ^ i) < TABLE_CAPACITY / 2 →
      ∃ ns', ctSet hp nm ns i (some n) =
        some (Node.compressedTable hp (nm ||| 2 ^ i) ns')) := by
  constructor
  · intro hth
    rw [ctSet_eq_insert hi hb n, if_pos (show (16 : Nat) ≤
      bitCount32 (nm ||| 2 ^ i) from hth)]
    exact ⟨_, _, rfl⟩
  · intro hth
    rw [ctSet_eq_insert hi hb n, if_neg (show ¬ (16 : Nat) ≤
      bitCount32 (nm ||| 2 ^ i) from Nat.not_le.mpr hth)]
    exact ⟨_, rfl⟩

theorem c8_promotion_threshold_witness :
    (TABLE_CAPACITY / 2 ≤ bitCount32 (0xFFFE ||| 2 ^ 0) →
      ∃ nm' ns', ctSet 7 0xFFFE [] 0 (some (Node.flatLeaf 0 ⟨0, 0⟩ 0)) =
        some (Node.fullTable 7 nm' ns')) ∧
    (bitCount32 (6 ||| 2 ^ 0) < TABLE_CAPACITY / 2 →
      ∃ ns', ctSet 7 6 [] 0 (some (Node.flatLeaf 0 ⟨0, 0⟩ 0)) =
        some (Node.compressedTable 7 (6 ||| 2 ^ 0) ns')) :=
  ⟨(c8_promotion_threshold 7 0xFFFE [] 0 (Node.flatLeaf 0 ⟨0, 0⟩ 0)
      (by decide) (by decide)).1,
   (c8_promotion_threshold 7 6 [] 0 (Node.flatLeaf 0 ⟨0, 0⟩ 0)
      (by decide) (by decide)).2⟩

/-- Claim C9: bounded termination — the instrumented descent loops compute
the same results as `Get`, `Put` and `Del` while visiting at most
`MAXDEPTH + 1` levels; the loops consume one fuel unit per level, so no
operation recurses unboundedly. -/
theorem c9_bounded_termination (m : Hamt) (k : Key) (v : Val) (root : Node)
    (hroot : m.root = some root) :
    (m.Get k = (getLoopSteps (Hash30 k) k (MAXDEPTH + 1) 0 root).1 ∧
      (getLoopSteps (Hash30 k) k (MAXDEPTH + 1) 0 root).2 ≤
        MAXDEPTH + 1) ∧
    (m.Put k v = (putLoopSteps k v (Hash30 k) m.root m.nentries
        (MAXDEPTH + 1) 0 0 root []).1 ∧
      (putLoopSteps k v (Hash30 k) m.root m.nentries (MAXDEPTH + 1) 0 0
        root []).2 ≤ MAXDEPTH + 1) ∧
    (m.Del k = some (delLoopSteps k (Hash30 k) m (MAXDEPTH + 1) 0 root
        []).1 ∧
      (delLoopSteps k (Hash30 k) m (MAXDEPTH + 1) 0 root []).2 ≤
        MAXDEPTH + 1) := by
  refine ⟨⟨?_, (getLoopSteps_spec (Hash30 k) k (MAXDEPTH + 1) 0 root).2⟩,
    ⟨?_, (putLoopSteps_spec k v (Hash30 k) m.root m.nentries (MAXDEPTH + 1)
      0 0 root []).2⟩,
    ⟨?_, (delLoopSteps_spec k (Hash30 k) m (MAXDEPTH + 1) 0 root []).2⟩⟩
  · rw [Hamt.Get, hroot]
    exact (getLoopSteps_spec (Hash30 k) k (MAXDEPTH + 1) 0 root).1.symm
  · rw [Hamt.Put, hroot]
    show putLoop k v (Hash30 k) (some root) m.nentries (MAXDEPTH + 1) 0 0
      root [] = _
    exact (putLoopSteps_spec k v (Hash30 k) (some root) m.nentries
      (MAXDEPTH + 1) 0 0 root []).1.symm
  · rw [Hamt.Del, hroot]
    exact congrArg some (delLoopSteps_spec k (Hash30 k) m (MAXDEPTH + 1) 0
      root []).1.symm

theorem c9_bounded_termination_witness :
    ((Hamt.mk (some (Node.compressedTable 0 32
        [Node.flatLeaf 5 ⟨5, 0⟩ 7])) 1).Get ⟨5, 0⟩ =
      (getLoopSteps (Hash30 ⟨5, 0⟩) ⟨5, 0⟩ (MAXDEPTH + 1) 0
        (Node.compressedTable 0 32 [Node.flatLeaf 5 ⟨5, 0⟩ 7])).1 ∧
      (getLoopSteps (Hash30 ⟨5, 0⟩) ⟨5, 0⟩ (MAXDEPTH + 1) 0
        (Node.compressedTable 0 32 [Node.flatLeaf 5 ⟨5, 0⟩ 7])).2 ≤
        MAXDEPTH + 1) ∧
    ((Hamt.mk (some (Node.compressedTable 0 32
        [Node.flatLeaf 5 ⟨5, 0⟩ 7])) 1).Put ⟨5, 0⟩ 9 =
      (putLoopSteps ⟨5, 0⟩ 9 (Hash30 ⟨5, 0⟩)
        (Hamt.mk (some (Node.compressedTable 0 32
          [Node.flatLeaf 5 ⟨5, 0⟩ 7])) 1).root
        (Hamt.mk (some (Node.compressedTable 0 32
          [Node.flatLeaf 5 ⟨5, 0⟩ 7])) 1).nentries (MAXDEPTH + 1) 0 0
        (Node.compressedTable 0 32 [Node.flatLeaf 5 ⟨5, 0⟩ 7]) []).1 ∧
      (putLoopSteps ⟨5, 0⟩ 9 (Hash30 ⟨5, 0⟩)
        (Hamt.mk (some (Node.compressedTable 0 32
          [Node.flatLeaf 5 ⟨5, 0⟩ 7])) 1).root
        (Hamt.mk (some (Node.compressedTable 0 32
          [Node.flatLeaf 5 ⟨5, 0⟩ 7])) 1).nentries (MAXDEPTH + 1) 0 0
        (Node.compressedTable 0 32 [Node.flatLeaf 5 ⟨5, 0⟩ 7]) []).2 ≤
        MAXDEPTH + 1) ∧
    ((Hamt.mk (some (Node.compressedTable 0 32
        [Node.flatLeaf 5 ⟨5, 0⟩ 7])) 1).Del ⟨5, 0⟩ =
      some (delLoopSteps ⟨5, 0⟩ (Hash30 ⟨5, 0⟩)
        (Hamt.mk (some (Node.compressedTable 0 32
          [Node.flatLeaf 5 ⟨5, 0⟩ 7])) 1) (MAXDEPTH + 1) 0
        (Node.compressedTable 0 32 [Node.flatLeaf 5 ⟨5, 0⟩ 7]) []).1 ∧
      (delLoopSteps ⟨5, 0⟩ (Hash30 ⟨5, 0⟩)
        (Hamt.mk (some (Node.compressedTable 0 32
          [Node.flatLeaf 5 ⟨5, 0⟩ 7])) 1) (MAXDEPTH + 1) 0
        (Node.compressedTable 0 32 [Node.flatLeaf 5 ⟨5, 0⟩ 7]) []).2 ≤
        MAXDEPTH + 1) :=
  c9_bounded_termination
    (Hamt.mk (some (Node.compressedTable 0 32
      [Node.flatLeaf 5 ⟨5, 0⟩ 7])) 1) ⟨5, 0⟩ 9
    (Node.compressedTable 0 32 [Node.flatLeaf 5 ⟨5, 0⟩ 7]) rfl

end H32
